import Mathlib

/-!
# MiniGit: a shallow embedding of the snapshot engine

The development follows `minigit.hpp`, `minigit_part1.cpp` and `minigit_part2.cpp`
(the copy of the engine whose default branch is `main`); `minigit.cpp` holds a second
copy whose `commit`, `checkout`, `merge`, `findLCA`, `threeWayMerge`, `writeCommit`,
`readCommit` and index functions are the same.

Modelling conventions.

* A `std::string` is a list of bytes (`Bytes`).  String literals of the source are
  written `lit "..."`.
* A `std::map<string,string>` is an association list kept in ascending key order by
  `StrMap.set` (the order of `std::string::operator<`), so that iterating over it lists the
  entries the way the source's range-for does.
* The file system is part of the state: the regular files of the working directory, the
  object, commit and branch directories of `.minigit` (each a finite map from file name to
  content), and the two files `HEAD` and `index`.  A name is looked up literally: a path
  that aliases another file is not modelled, and the directory of a path is taken to
  exist.  The empty name stands for the directory itself, which exists, cannot be written
  and delivers no content.
* The lookup by name is that of the file system for file names (`isFileName`: not empty, no
  slash, no NUL, neither `.` nor `..`) of an existing repository and, in the working
  directory, for plain names (`isPlainName`), the working directory holding regular files
  and the repository directory only.  Outside of these the two differ: a stream opened on
  the empty name (the directory) opens and delivers nothing where the model's read fails, so
  that the program's `readCommit("")` is an empty commit; a path such as `./a.txt` or
  `.minigit/HEAD` names a file that the model keeps apart; and nothing is written where the
  repository directory is missing.  The statements on `writeCommit`, `restoreCommit` and
  the three-way merge are therefore made for hash-shaped or file names, flat trees
  (`flatStoredTree`) and plain names.
* `time`/`ctime` are inputs: every operation that records a timestamp takes it as the
  argument `now` (the `ctime` text with its last character removed).
* `char` is signed, as on x86-64 (`charToU64`).
* Output on `cout`/`cerr` is not part of the state; `merge` returns which of its exits
  it took.
* Dereferencing the null pointer returned by `readCommit` is the result `none` of `commit`.
* Loops without a lexical bound (`findLCA`) take a fuel argument; `none` is "fuel
  exhausted".

The file has three parts: the embedding of the source, the vocabulary of the statements
together with example repositories (the scenarios of the specification, each the result of
running the embedded operations from an empty directory), and the lemmas and theorems.
-/

namespace MiniGit

/-! ## Strings -/

abbrev Byte := Fin 256
abbrev Bytes := List Byte

/-- The bytes of an ASCII string literal. -/
def lit (s : String) : Bytes := s.toList.map (fun c => Fin.ofNat c.toNat)

/-- The line feed written by `endl` and consumed by `getline`. -/
def NL : Byte := 10

/-- The colon that separates path and hash in index and commit files. -/
def COLON : Byte := 58

/-- The order `std::string::operator<`: lexicographic on unsigned byte values. -/
def strLt : Bytes → Bytes → Bool
  | [], [] => false
  | [], _ :: _ => true
  | _ :: _, [] => false
  | a :: as, b :: bs =>
    if a.val < b.val then true
    else if b.val < a.val then false
    else strLt as bs

/-! ## `std::map<string,string>` and `std::set<string>` -/

abbrev StrMap := List (Bytes × Bytes)

namespace StrMap

/-- The value `find` returns for key `k` (`none` for `end()`). -/
def find : StrMap → Bytes → Option Bytes
  | [], _ => none
  | (k', v) :: rest, k => if k = k' then some v else find rest k

/-- The test `m.count(k)` / `m.find(k) != m.end()`. -/
def contains (m : StrMap) (k : Bytes) : Bool := (m.find k).isSome

/-- The assignment `m[k] = v`. -/
def set : StrMap → Bytes → Bytes → StrMap
  | [], k, v => [(k, v)]
  | (k', v') :: rest, k, v =>
    if strLt k k' then (k, v) :: (k', v') :: rest
    else if k = k' then (k, v) :: rest
    else (k', v') :: set rest k v

/-- The value of the expression `m[k]` (a missing key reads as the empty string). -/
def get (m : StrMap) (k : Bytes) : Bytes := (m.find k).getD []

/-- The keys in iteration order. -/
def keys (m : StrMap) : List Bytes := m.map Prod.fst

end StrMap

abbrev StrSet := List Bytes

/-- The call `s.insert(k)` on a `std::set<string>`. -/
def StrSet.insert : StrSet → Bytes → StrSet
  | [], k => [k]
  | k' :: rest, k =>
    if strLt k k' then k :: k' :: rest
    else if k = k' then k' :: rest
    else k' :: StrSet.insert rest k

/-! ## Hasher -/

def fnv_prime : Nat := 1099511628211

def fnv_offset : Nat := 14695981039346656037

/-- The conversion `static_cast<uint64_t>(c)` of a `char` holding byte `c`, for a signed
`char` type (the x86-64 ABI): bytes from 128 on are sign-extended. -/
def charToU64 (c : Byte) : Nat :=
  if c.val < 128 then c.val else 2 ^ 64 - 256 + c.val

/-- One round of the loop of `computeHash`: `hash ^= c; hash *= fnv_prime` on `uint64_t`. -/
def hashStep (hash : Nat) (c : Byte) : Nat :=
  ((hash ^^^ charToU64 c) * fnv_prime) % 2 ^ 64

/-- A hexadecimal digit as printed under `std::hex` (lowercase). -/
def hexDigit (d : Nat) : Byte :=
  if d < 10 then Fin.ofNat (48 + d) else Fin.ofNat (87 + d)

/-- The text of `ss << hex << setw(16) << setfill('0') << hash` for `hash < 2^64`. -/
def toHex16 (hash : Nat) : Bytes :=
  (List.range 16).reverse.map (fun i => hexDigit (hash / 16 ^ i % 16))

def computeHash (content : Bytes) : Bytes :=
  toHex16 (content.foldl hashStep fnv_offset)

/-- A lowercase hexadecimal digit. -/
def isHexDigit (c : Byte) : Bool :=
  (48 ≤ c.val && c.val ≤ 57) || (97 ≤ c.val && c.val ≤ 102)

/-- The shape of a hash: sixteen lowercase hexadecimal digits. -/
def isHash (h : Bytes) : Bool := h.length == 16 && h.all isHexDigit

/-! ## Line-oriented files -/

/-- The successive lines `getline` delivers from a stream holding `input`, until it fails. -/
def getlines : Bytes → List Bytes
  | [] => []
  | c :: cs =>
    if c = NL then [] :: getlines cs
    else
      match getlines cs with
      | [] => [[c]]
      | l :: ls => (c :: l) :: ls

/-- The split `line.substr(0, pos)`, `line.substr(pos + 1)` at `pos = line.find(':')`;
`none` when `find` returns `npos`. -/
def splitColon : Bytes → Option (Bytes × Bytes)
  | [] => none
  | c :: cs =>
    if c = COLON then some ([], cs)
    else
      match splitColon cs with
      | none => none
      | some (k, v) => some (c :: k, v)

/-- The loop `while (getline(f, line)) { pos = line.find(':'); if (pos != npos) m[..] = ..; }`
started with the map `m`. -/
def readEntries (m : StrMap) (lines : List Bytes) : StrMap :=
  lines.foldl (fun acc line =>
    match splitColon line with
    | none => acc
    | some (k, v) => acc.set k v) m

/-- The text `k1:v1\n k2:v2\n ...` written for a map, one line per entry. -/
def writeEntries (m : StrMap) : Bytes :=
  (m.map (fun e => e.1 ++ [COLON] ++ e.2 ++ [NL])).flatten

/-! ## Commits and the repository state -/

structure Commit where
  hash : Bytes
  message : Bytes
  timestamp : Bytes
  parentHashes : List Bytes
  fileMap : StrMap
deriving DecidableEq, Repr

/-- The members of a `MiniGit` object together with the files it reads and writes. -/
structure Repo where
  /-- Member `currentBranch` (empty when HEAD is detached). -/
  currentBranch : Bytes
  /-- Member `branches`. -/
  branches : StrMap
  /-- Member `stagingArea`. -/
  stagingArea : StrMap
  /-- Member `inMergeState`. -/
  inMergeState : Bool
  /-- Member `mergeTargetBranch`. -/
  mergeTargetBranch : Bytes
  /-- Whether the directory `.minigit` exists. -/
  gitDirExists : Bool
  /-- The regular files of the working directory, by path. -/
  workFiles : StrMap
  /-- The files of `.minigit/objects`, by name. -/
  objectFiles : StrMap
  /-- The files of `.minigit/commits`, by name. -/
  commitFiles : StrMap
  /-- The files of `.minigit/refs/heads`, by name. -/
  headsFiles : StrMap
  /-- The file `.minigit/HEAD`. -/
  headFile : Option Bytes
  /-- The file `.minigit/index`. -/
  indexFile : Option Bytes
deriving DecidableEq, Repr

/-- The effect of `ofstream f(dir + "/" + name); f << content;` on a directory: the empty name
is the directory itself and cannot be opened for writing. -/
def writeFile (dir : StrMap) (name content : Bytes) : StrMap :=
  if name = [] then dir else dir.set name content

/-- The content an `ifstream` on `dir + "/" + name` delivers, `none` when the stream is
not readable. -/
def readFile (dir : StrMap) (name : Bytes) : Option Bytes :=
  if name = [] then none else dir.find name

/-! ## Object store -/

def writeBlob (s : Repo) (hash content : Bytes) : Repo :=
  { s with objectFiles := writeFile s.objectFiles hash content }

def readBlob (s : Repo) (hash : Bytes) : Bytes :=
  match readFile s.objectFiles hash with
  | none => []
  | some content => content

/-- The bytes `writeCommit` sends to the commit file. -/
def commitText (c : Commit) : Bytes :=
  c.message ++ [NL] ++ (c.timestamp ++ [NL])
    ++ (c.parentHashes.map (fun p => p ++ [NL])).flatten
    ++ (lit "---" ++ [NL])
    ++ writeEntries c.fileMap

def writeCommit (s : Repo) (c : Commit) : Repo :=
  { s with commitFiles := writeFile s.commitFiles c.hash (commitText c) }

/-- The commit `readCommit` builds from the text of a commit file. -/
def parseCommit (hash text : Bytes) : Commit :=
  let lines := getlines text
  let rest := lines.drop 2
  { hash := hash
    message := (lines.get? 0).getD []
    timestamp := (lines.get? 1).getD []
    parentHashes := rest.takeWhile (fun line => line != lit "---")
    fileMap := readEntries [] ((rest.dropWhile (fun line => line != lit "---")).drop 1) }

/-- The commit read by `readCommit(hash)`, `none` for `nullptr`. -/
def readCommit (s : Repo) (hash : Bytes) : Option Commit :=
  match readFile s.commitFiles hash with
  | none => none
  | some text => some (parseCommit hash text)

/-! ## Index -/

def persistStagingArea (s : Repo) : Repo :=
  { s with indexFile := some (writeEntries s.stagingArea) }

def loadStagingArea (s : Repo) : Repo :=
  match s.indexFile with
  | none => { s with stagingArea := [] }
  | some text => { s with stagingArea := readEntries [] (getlines text) }

/-! ## Refs -/

/-- The first line `getline` reads from a file (empty when the read fails). -/
def firstLine (text : Bytes) : Bytes := (getlines text).headD []

def getCurrentCommitHash (s : Repo) : Bytes :=
  if s.currentBranch ≠ [] ∧ s.branches.contains s.currentBranch then
    s.branches.get s.currentBranch
  else
    match s.headFile with
    | none => []
    | some text =>
      let headRef := firstLine text
      if headRef.take 5 ≠ lit "ref: " then headRef else []

def updateHead (s : Repo) : Repo :=
  { s with headFile := some (lit "ref: refs/heads/" ++ s.currentBranch ++ [NL]) }

def updateBranch (s : Repo) (branchName : Bytes) : Repo :=
  { s with headsFiles := writeFile s.headsFiles branchName (s.branches.get branchName) }

/-! ## Repository facade: `init`, `add`, `commit`, `branch` -/

/-- The empty record made by `new Commit()`. -/
def emptyCommit : Commit :=
  { hash := [], message := [], timestamp := [], parentHashes := [], fileMap := [] }

def init (now : Bytes) (s : Repo) : Repo :=
  if s.gitDirExists then s
  else
    let s1 : Repo :=
      { s with gitDirExists := true, objectFiles := [], commitFiles := [], headsFiles := [],
               headFile := none, indexFile := some [] }
    let message := lit "Initial commit"
    let initialCommit : Commit :=
      { emptyCommit with message := message, timestamp := now,
                         hash := computeHash (message ++ now) }
    let s2 := writeCommit s1 initialCommit
    let s3 : Repo := { s2 with currentBranch := lit "main" }
    let s4 : Repo := { s3 with branches := s3.branches.set s3.currentBranch initialCommit.hash }
    let s5 := updateBranch s4 s4.currentBranch
    { s5 with headFile := some (lit "ref: refs/heads/main" ++ [NL]) }

def add (filename : Bytes) (s : Repo) : Repo :=
  match readFile s.workFiles filename with
  | none => s
  | some content =>
    let blobHash := computeHash content
    let s1 : Repo := { s with stagingArea := s.stagingArea.set filename blobHash }
    let s2 := persistStagingArea s1
    writeBlob s2 blobHash content

/-- The loop `for (entry : stagingArea) fileMap[entry.first] = entry.second`. -/
def overlay (fileMap stagingArea : StrMap) : StrMap :=
  stagingArea.foldl (fun acc entry => acc.set entry.1 entry.2) fileMap

/-- The string collected in `commitData` by `commit`. -/
def commitData (message timestamp : Bytes) (parentHashes : List Bytes) (fileMap : StrMap) :
    Bytes :=
  message ++ timestamp ++ parentHashes.flatten
    ++ (fileMap.map (fun entry => entry.1 ++ entry.2)).flatten

/-- The commit record `commit` has built when it reaches `writeCommit`, given the staging
area it loaded; `none` when the parent commit cannot be read. -/
def buildCommit (message now : Bytes) (s : Repo) : Option Commit :=
  let currentCommitHash := getCurrentCommitHash s
  let base : Option (List Bytes × StrMap) :=
    if currentCommitHash ≠ [] then
      match readCommit s currentCommitHash with
      | none => none
      | some parent => some ([currentCommitHash], parent.fileMap)
    else some ([], [])
  match base with
  | none => none
  | some (parentHashes, parentMap) =>
    let fileMap := overlay parentMap s.stagingArea
    some { hash := computeHash (commitData message now parentHashes fileMap)
           message := message
           timestamp := now
           parentHashes := parentHashes
           fileMap := fileMap }

def commit (message now : Bytes) (s : Repo) : Option Repo :=
  let s1 := loadStagingArea s
  if s1.stagingArea = [] then some s1
  else
    match buildCommit message now s1 with
    | none => none
    | some c =>
      let s2 := writeCommit s1 c
      let s3 : Repo := { s2 with branches := s2.branches.set s2.currentBranch c.hash }
      let s4 := updateBranch s3 s3.currentBranch
      let s5 : Repo := { s4 with stagingArea := [] }
      some (persistStagingArea s5)

def branch (branchName : Bytes) (s : Repo) : Repo :=
  if s.branches.contains branchName then s
  else
    let s1 : Repo := { s with branches := s.branches.set branchName (getCurrentCommitHash s) }
    updateBranch s1 branchName

/-! ## Worktree materializer and `checkout` -/

/-- The set `protectedFiles` of `restoreCommit`. -/
def protectedFiles : List Bytes :=
  [lit "minigit", lit "minigit.cpp", lit "minigit.hpp", lit "main.cpp", lit "Makefile",
   lit ".minigit"]

/-- The test `filename.find(".minigit") == 0`. -/
def startsWithGitDir (filename : Bytes) : Bool := filename.take 8 == lit ".minigit"

/-- The flag `isProtected` of `restoreCommit`. -/
def isProtected (filename : Bytes) : Bool :=
  protectedFiles.contains filename || startsWithGitDir filename

/-- Whether a path of the working tree is an entry of the working directory itself, the
entries `fs::directory_iterator(".")` lists (a path with a slash lies in a subdirectory). -/
def isRootEntry (path : Bytes) : Bool := !path.contains (Fin.ofNat 47)

def restoreCommit (s : Repo) (commitHash : Bytes) : Repo :=
  match readCommit s commitHash with
  | none => s
  | some commit =>
    let restored : StrMap :=
      commit.fileMap.foldl (fun work entry => writeFile work entry.1 (readBlob s entry.2))
        s.workFiles
    let kept : StrMap :=
      restored.filter (fun file =>
        !(isRootEntry file.1 && !commit.fileMap.contains file.1 && !isProtected file.1))
    { s with workFiles := kept }

/-- The test `fs::exists(commitsDir + "/" + target)`. -/
def commitPathExists (s : Repo) (target : Bytes) : Bool :=
  if target = [] then s.gitDirExists else s.commitFiles.contains target

def checkout (target : Bytes) (s : Repo) : Repo :=
  if s.branches.contains target then
    let s1 : Repo := { s with currentBranch := target }
    let s2 := updateHead s1
    restoreCommit s2 (s2.branches.get target)
  else if commitPathExists s target then
    let s1 : Repo := { s with currentBranch := [] }
    let s2 : Repo := { s1 with headFile := some (target ++ [NL]) }
    restoreCommit s2 target
  else s

/-! ## DAG walker

The `vector<string> stack` is a list whose head is `stack.back()`. -/

/-- The stack after `for (parent : c->parentHashes) stack.push_back(parent)` for the commit
read at `current` (nothing is pushed when it cannot be read). -/
def pushParents (s : Repo) (current : Bytes) (stack : List Bytes) : List Bytes :=
  match readCommit s current with
  | none => stack
  | some c => c.parentHashes.reverse ++ stack

/-- The first loop of `findLCA`: the set `ancestors` when the stack has run empty. -/
def collectAncestors (s : Repo) : Nat → List Bytes → StrSet → Option StrSet
  | _, [], ancestors => some ancestors
  | 0, _ :: _, _ => none
  | fuel + 1, current :: stack, ancestors =>
    collectAncestors s fuel (pushParents s current stack) (StrSet.insert ancestors current)

/-- The second loop of `findLCA`: the value returned (`""` when the stack runs empty). -/
def searchCommon (s : Repo) (ancestors : StrSet) : Nat → List Bytes → Option Bytes
  | _, [] => some []
  | 0, _ :: _ => none
  | fuel + 1, current :: stack =>
    if ancestors.contains current then some current
    else searchCommon s ancestors fuel (pushParents s current stack)

def findLCA (fuel : Nat) (s : Repo) (commit1 commit2 : Bytes) : Option Bytes :=
  match collectAncestors s fuel [commit1] [] with
  | none => none
  | some ancestors => searchCommon s ancestors fuel [commit2]

/-! ## Merge engine -/

/-- The bytes `markConflict` writes to the conflicting file. -/
def conflictText (currentContent incomingContent : Bytes) : Bytes :=
  lit "<<<<<<< HEAD\n" ++ currentContent ++ lit "\n=======\n" ++ incomingContent
    ++ lit "\n>>>>>>> incoming\n"

def markConflict (s : Repo) (filename currentContent incomingContent : Bytes) : Repo :=
  let text := conflictText currentContent incomingContent
  { s with workFiles := writeFile s.workFiles filename text }

/-- The set `allFiles` of `threeWayMerge`. -/
def allFiles (baseCommit currentCommit targetCommit : Commit) : StrSet :=
  let s1 := baseCommit.fileMap.foldl (fun acc entry => StrSet.insert acc entry.1) ([] : StrSet)
  let s2 := currentCommit.fileMap.foldl (fun acc entry => StrSet.insert acc entry.1) s1
  targetCommit.fileMap.foldl (fun acc entry => StrSet.insert acc entry.1) s2

/-- The content `m.count(filename) ? readBlob(m[filename]) : ""` compared by the merge. -/
def contentIn (s : Repo) (c : Commit) (filename : Bytes) : Bytes :=
  if c.fileMap.contains filename then readBlob s (c.fileMap.get filename) else []

/-- The body of the loop over `allFiles` in `threeWayMerge`. -/
def mergeFile (baseCommit currentCommit targetCommit : Commit) (s : Repo) (filename : Bytes) :
    Repo :=
  let baseContent := contentIn s baseCommit filename
  let currentContent := contentIn s currentCommit filename
  let targetContent := contentIn s targetCommit filename
  if currentContent = targetContent then s
  else if baseContent = currentContent then
    { s with stagingArea := s.stagingArea.set filename (targetCommit.fileMap.get filename) }
  else if baseContent = targetContent then
    { s with stagingArea := s.stagingArea.set filename (currentCommit.fileMap.get filename) }
  else markConflict s filename currentContent targetContent

def threeWayMerge (s : Repo) (currentHash targetHash baseHash : Bytes) : Repo :=
  match readCommit s baseHash, readCommit s currentHash, readCommit s targetHash with
  | some baseCommit, some currentCommit, some targetCommit =>
    persistStagingArea
      ((allFiles baseCommit currentCommit targetCommit).foldl
        (mergeFile baseCommit currentCommit targetCommit) s)
  | _, _, _ => s

/-- Which of its four exits `merge` took. -/
inductive MergeOutcome where
  /-- "Branch not found". -/
  | branchNotFound
  /-- "Already up-to-date". -/
  | upToDate
  /-- "Fast-forward merge". -/
  | fastForward
  /-- "Merge started. Resolve conflicts and commit". -/
  | mergeStarted
deriving DecidableEq, Repr

def merge (fuel : Nat) (branchName : Bytes) (s : Repo) : Option (MergeOutcome × Repo) :=
  if !s.branches.contains branchName then some (MergeOutcome.branchNotFound, s)
  else
    let currentHash := getCurrentCommitHash s
    let targetHash := s.branches.get branchName
    match findLCA fuel s currentHash targetHash with
    | none => none
    | some baseHash =>
      if baseHash = targetHash then some (MergeOutcome.upToDate, s)
      else if baseHash = currentHash then some (MergeOutcome.fastForward, checkout branchName s)
      else
        let s1 := threeWayMerge s currentHash targetHash baseHash
        some (MergeOutcome.mergeStarted,
          { s1 with inMergeState := true, mergeTargetBranch := branchName })

/-! ## `loadState` -/

/-- The loop of `loadState` over the files of `refs/heads`. -/
def loadBranches (branches headsFiles : StrMap) : StrMap :=
  headsFiles.foldl (fun acc file => acc.set file.1 (firstLine file.2)) branches

def loadState (s : Repo) : Repo :=
  let s1 : Repo :=
    match s.headFile with
    | none => s
    | some text =>
      let headRef := firstLine text
      if headRef.take 16 = lit "ref: refs/heads/" then
        { s with currentBranch := headRef.drop 16 }
      else s
  let s2 : Repo := { s1 with branches := loadBranches s1.branches s1.headsFiles }
  loadStagingArea s2


/-! ## Vocabulary of the statements -/

/-- Keys in strictly ascending order, the invariant of a `std::map`. -/
def StrMap.Sorted (m : StrMap) : Prop := m.Pairwise (fun a b => strLt a.1 b.1 = true)

/-- No key holds a colon or a line feed and no value a line feed: the entries that
survive a write to and a read from a line-oriented file. -/
def Clean (m : StrMap) : Prop := ∀ e ∈ m, COLON ∉ e.1 ∧ NL ∉ e.1 ∧ NL ∉ e.2

/-- The text made of the given lines, each followed by a line feed. -/
def unlines (ls : List Bytes) : Bytes := (ls.map (fun l => l ++ [NL])).flatten

/-- The line written for one map entry, without its line feed. -/
def entryLine (e : Bytes × Bytes) : Bytes := e.1 ++ COLON :: e.2

/-- A commit whose fields fit the line format: single-line message and timestamp, parents
that are single lines other than the separator, and a clean sorted tree. -/
def Commit.Storable (c : Commit) : Prop :=
  NL ∉ c.message ∧ NL ∉ c.timestamp ∧ (∀ p ∈ c.parentHashes, NL ∉ p ∧ p ≠ lit "---") ∧
    Clean c.fileMap ∧ StrMap.Sorted c.fileMap

/-- The index as `loadStagingArea` reads it from the file `.minigit/index`. -/
def persistedIndex (s : Repo) : StrMap := (loadStagingArea s).stagingArea

/-- The commit record that `commit` writes on a branch whose tip `P` holds `parent`. -/
def commitOn (message now P : Bytes) (parent : Commit) (index : StrMap) : Commit :=
  let fileMap := overlay parent.fileMap index
  { hash := computeHash (commitData message now [P] fileMap)
    message := message
    timestamp := now
    parentHashes := [P]
    fileMap := fileMap }

/-- The postcondition of a successful `commit` from state `s` to state `s'` on the current
branch of `s`, whose tip `P` holds the commit `parent`: the store holds the new commit `c`
under its hash, the branch (in memory and in `refs/heads`) points at it, the other branches
and HEAD are untouched, and the index is empty in memory and on disk. -/
def CommitPost (s s' : Repo) (message P : Bytes) (parent : Commit) : Prop :=
  ∃ c : Commit,
    readCommit s' c.hash = some c ∧
    c.message = message ∧
    c.parentHashes = [P] ∧
    (∀ path, c.fileMap.find path =
      match (persistedIndex s).find path with
      | some blobHash => some blobHash
      | none => parent.fileMap.find path) ∧
    s'.branches.find s.currentBranch = some c.hash ∧
    readFile s'.headsFiles s.currentBranch = some c.hash ∧
    (∀ b', b' ≠ s.currentBranch →
      s'.branches.find b' = s.branches.find b' ∧ s'.headsFiles.find b' = s.headsFiles.find b') ∧
    s'.currentBranch = s.currentBranch ∧
    s'.headFile = s.headFile ∧
    s'.stagingArea = [] ∧
    persistedIndex s' = []

/-- The branch of the loop body of `threeWayMerge` that a path takes. -/
inductive MergeCase where
  /-- `currentContent == targetContent`: `continue`. -/
  | same
  /-- `baseContent == currentContent`: the target's hash is staged. -/
  | takeTarget
  /-- `baseContent == targetContent`: the current hash is staged. -/
  | takeCurrent
  /-- Otherwise: `markConflict`. -/
  | conflict
deriving DecidableEq, Repr

/-- The branch of the loop body of `threeWayMerge` taken for `filename`. -/
def mergeCase (s : Repo) (baseCommit currentCommit targetCommit : Commit) (filename : Bytes) :
    MergeCase :=
  if contentIn s currentCommit filename = contentIn s targetCommit filename then MergeCase.same
  else if contentIn s baseCommit filename = contentIn s currentCommit filename then
    MergeCase.takeTarget
  else if contentIn s baseCommit filename = contentIn s targetCommit filename then
    MergeCase.takeCurrent
  else MergeCase.conflict

/-- The blob `h` is stored and its bytes `content` hash to `h` (the object store is
content-addressed at `h`). -/
def BlobAt (s : Repo) (h content : Bytes) : Prop :=
  readFile s.objectFiles h = some content ∧ computeHash content = h

/-- `y` is a parent recorded in the stored commit `x`. -/
def IsParent (s : Repo) (x y : Bytes) : Prop :=
  ∃ c, readCommit s x = some c ∧ y ∈ c.parentHashes

/-- `y` is `x` or an ancestor of `x`: reachable by following parent edges zero or more
times. -/
def Reaches (s : Repo) (x y : Bytes) : Prop := Relation.ReflTransGen (IsParent s) x y

/-- The parent relation of the stored commits has no cycle: no commit is reached from itself
by following one or more parent edges. -/
def Acyclic (s : Repo) : Prop := ∀ x, ¬ Relation.TransGen (IsParent s) x x

/-- What the first loop of `findLCA` does with the entry `x` on top of the stack: after `k`
rounds `x` and everything pushed for it are gone, and the set has grown by exactly the
ancestors-or-self of `x`. -/
def Explores (s : Repo) (x : Bytes) : Prop :=
  ∀ (stack : List Bytes) (acc : StrSet), ∃ (k : Nat) (acc' : StrSet),
    (∀ fuel, collectAncestors s (fuel + k) (x :: stack) acc = collectAncestors s fuel stack acc') ∧
    (∀ h, h ∈ acc' ↔ h ∈ acc ∨ Reaches s x h)

/-! ## Example repositories -/

/-- The hash of the root commit of the examples. -/
def exRootHash : Bytes := lit "2cd4011fda977384"

/-- The root commit of the examples, as `readCommit` returns it. -/
def exRoot : Commit :=
  { hash := exRootHash, message := lit "Initial commit", timestamp := lit "T0",
    parentHashes := [], fileMap := [] }

/-- A repository on branch `main` at the root commit, with `a.txt` staged. -/
def exStaged : Repo :=
  { currentBranch := lit "main"
    branches := [(lit "main", exRootHash)]
    stagingArea := [(lit "a.txt", lit "a9bc80cca21f28b3")]
    inMergeState := false
    mergeTargetBranch := []
    gitDirExists := true
    workFiles := [(lit "a.txt", lit "hello\n")]
    objectFiles := [(lit "a9bc80cca21f28b3", lit "hello\n")]
    commitFiles := [(exRootHash, lit "Initial commit\nT0\n---\n")]
    headsFiles := [(lit "main", exRootHash)]
    headFile := some (lit "ref: refs/heads/main\n")
    indexFile := some (lit "a.txt:a9bc80cca21f28b3\n") }

/-- A repository on branch `main` at the root commit, with the untracked file `a.txt` in the
working directory and nothing staged. -/
def exFresh : Repo :=
  { currentBranch := lit "main"
    branches := [(lit "main", exRootHash)]
    stagingArea := []
    inMergeState := false
    mergeTargetBranch := []
    gitDirExists := true
    workFiles := [(lit "a.txt", lit "hello\n")]
    objectFiles := []
    commitFiles := [(exRootHash, lit "Initial commit\nT0\n---\n")]
    headsFiles := [(lit "main", exRootHash)]
    headFile := some (lit "ref: refs/heads/main\n")
    indexFile := some [] }
/-- Scenario S2 before the merge: on `main`, whose tip changed `a.txt`; `feat` added
`b.txt`; both tips have the commit `c1` as parent. -/
def exDiverged : Repo :=
  { currentBranch := lit "main"
    branches := [(lit "feat", lit "b108103a371bd200"), (lit "main", lit "eca2f28b3acddbb5")]
    stagingArea := []
    inMergeState := false
    mergeTargetBranch := []
    gitDirExists := true
    workFiles := [(lit "a.txt", lit "hello\nworld\n")]
    objectFiles :=
      [(lit "08f0de07b58d2b17", lit "x\n"),
       (lit "2925835410388969", lit "hello\nworld\n"),
       (lit "a9bc80cca21f28b3", lit "hello\n")]
    commitFiles :=
      [(lit "2cd4011fda977384", lit "Initial commit\nT0\n---\n"),
       (lit "58973957bbdc448f", lit "c1\nT1\n2cd4011fda977384\n---\na.txt:a9bc80cca21f28b3\n"),
       (lit "b108103a371bd200",
         lit "c3\nT3\n58973957bbdc448f\n---\na.txt:a9bc80cca21f28b3\nb.txt:08f0de07b58d2b17\n"),
       (lit "eca2f28b3acddbb5", lit "c2\nT2\n58973957bbdc448f\n---\na.txt:2925835410388969\n")]
    headsFiles := [(lit "feat", lit "b108103a371bd200"), (lit "main", lit "eca2f28b3acddbb5")]
    headFile := some (lit "ref: refs/heads/main\n")
    indexFile := some [] }

/-- Scenario S3 before the merge: `main` and `feat` changed `a.txt` differently from their
common parent `c1`. -/
def exConflict : Repo :=
  { currentBranch := lit "main"
    branches := [(lit "feat", lit "c63eae24bdde93db"), (lit "main", lit "d6bfa650af77581e")]
    stagingArea := []
    inMergeState := false
    mergeTargetBranch := []
    gitDirExists := true
    workFiles := [(lit "a.txt", lit "hello A\n")]
    objectFiles :=
      [(lit "a7f3fcc6b83ffdce", lit "hello A\n"),
       (lit "a7fe1ec6b8488c19", lit "hello B\n"),
       (lit "a9bc80cca21f28b3", lit "hello\n")]
    commitFiles :=
      [(lit "2cd4011fda977384", lit "Initial commit\nT0\n---\n"),
       (lit "58973957bbdc448f", lit "c1\nT1\n2cd4011fda977384\n---\na.txt:a9bc80cca21f28b3\n"),
       (lit "c63eae24bdde93db", lit "cB\nT3\n58973957bbdc448f\n---\na.txt:a7fe1ec6b8488c19\n"),
       (lit "d6bfa650af77581e", lit "cA\nT2\n58973957bbdc448f\n---\na.txt:a7f3fcc6b83ffdce\n")]
    headsFiles := [(lit "feat", lit "c63eae24bdde93db"), (lit "main", lit "d6bfa650af77581e")]
    headFile := some (lit "ref: refs/heads/main\n")
    indexFile := some [] }

/-- Scenario S4 before the merge: on `main` at `c1`; `feat` is one commit ahead and adds
`b.txt`. -/
def exFastForward : Repo :=
  { currentBranch := lit "main"
    branches := [(lit "feat", lit "4e9e8a9b7de07a78"), (lit "main", lit "58973957bbdc448f")]
    stagingArea := []
    inMergeState := false
    mergeTargetBranch := []
    gitDirExists := true
    workFiles := [(lit "a.txt", lit "hello\n")]
    objectFiles := [(lit "08f0de07b58d2b17", lit "x\n"), (lit "a9bc80cca21f28b3", lit "hello\n")]
    commitFiles :=
      [(lit "2cd4011fda977384", lit "Initial commit\nT0\n---\n"),
       (lit "4e9e8a9b7de07a78",
         lit "c2\nT2\n58973957bbdc448f\n---\na.txt:a9bc80cca21f28b3\nb.txt:08f0de07b58d2b17\n"),
       (lit "58973957bbdc448f", lit "c1\nT1\n2cd4011fda977384\n---\na.txt:a9bc80cca21f28b3\n")]
    headsFiles := [(lit "feat", lit "4e9e8a9b7de07a78"), (lit "main", lit "58973957bbdc448f")]
    headFile := some (lit "ref: refs/heads/main\n")
    indexFile := some [] }

/-- On `main`, whose tip added `a.txt` to the root commit; `feat` added the empty file
`e.txt` to the root commit. -/
def exEmptyAdded : Repo :=
  { currentBranch := lit "main"
    branches := [(lit "feat", lit "86d75ed17bf7596b"), (lit "main", lit "58973957bbdc448f")]
    stagingArea := []
    inMergeState := false
    mergeTargetBranch := []
    gitDirExists := true
    workFiles := [(lit "a.txt", lit "hello\n")]
    objectFiles := [(lit "a9bc80cca21f28b3", lit "hello\n"), (lit "cbf29ce484222325", [])]
    commitFiles :=
      [(lit "2cd4011fda977384", lit "Initial commit\nT0\n---\n"),
       (lit "58973957bbdc448f", lit "c1\nT1\n2cd4011fda977384\n---\na.txt:a9bc80cca21f28b3\n"),
       (lit "86d75ed17bf7596b", lit "c2\nT2\n2cd4011fda977384\n---\ne.txt:cbf29ce484222325\n")]
    headsFiles := [(lit "feat", lit "86d75ed17bf7596b"), (lit "main", lit "58973957bbdc448f")]
    headFile := some (lit "ref: refs/heads/main\n")
    indexFile := some [] }


/-- The directory without a repository in which the scenarios start. -/
def exEmptyDir : Repo :=
  { currentBranch := [], branches := [], stagingArea := [], inMergeState := false,
    mergeTargetBranch := [], gitDirExists := false, workFiles := [], objectFiles := [],
    commitFiles := [], headsFiles := [], headFile := none, indexFile := none }

/-- The user writes a file of the working directory. -/
def userWrite (name content : Bytes) (s : Repo) : Repo :=
  { s with workFiles := writeFile s.workFiles name content }

/-- Scenario S1 followed by `branch feat`: `init`, `a.txt` = "hello\n", `add`, `commit`. -/
def runS1 : Option Repo :=
  (commit (lit "c1") (lit "T1")
    (add (lit "a.txt") (userWrite (lit "a.txt") (lit "hello\n") (init (lit "T0") exEmptyDir)))).map
    (branch (lit "feat"))

/-- From `runS1`: commit a change of `a.txt` to `content` on `main`, then on `feat` commit
the file `name` with `content2`, then return to `main`. -/
def runBoth (content name content2 : Bytes) (m1 m2 : Bytes) : Option Repo :=
  runS1.bind fun s1 =>
  (commit m1 (lit "T2") (add (lit "a.txt") (userWrite (lit "a.txt") content s1))).bind fun s2 =>
  (commit m2 (lit "T3")
    (add name (userWrite name content2 (checkout (lit "feat") s2)))).map
    (checkout (lit "main"))

/-- From `runS1`: on `feat` commit `b.txt`, then return to `main`. -/
def runFastForward : Option Repo :=
  runS1.bind fun s1 =>
  (commit (lit "c2") (lit "T2")
    (add (lit "b.txt") (userWrite (lit "b.txt") (lit "x\n") (checkout (lit "feat") s1)))).map
    (checkout (lit "main"))

/-- After `init` and `branch feat`: commit `a.txt` on `main`, the empty file `e.txt` on
`feat`, then return to `main`. -/
def runEmptyAdded : Option Repo :=
  (commit (lit "c1") (lit "T1")
    (add (lit "a.txt") (userWrite (lit "a.txt") (lit "hello\n")
      (branch (lit "feat") (init (lit "T0") exEmptyDir))))).bind fun s1 =>
  (commit (lit "c2") (lit "T2")
    (add (lit "e.txt") (userWrite (lit "e.txt") [] (checkout (lit "feat") s1)))).map
    (checkout (lit "main"))

/-- The run of C4 on scenario S2: `merge feat`, `add a.txt`, `commit -m merge`. -/
def runMergeCommit : Option Repo :=
  (merge 4 (lit "feat") exDiverged).bind
    (fun r => commit (lit "merge") (lit "T4") (add (lit "a.txt") r.2))

/-- The commit `c1` of the scenarios, which adds `a.txt`. -/
def exC1 : Commit :=
  { hash := lit "58973957bbdc448f", message := lit "c1", timestamp := lit "T1",
    parentHashes := [exRootHash], fileMap := [(lit "a.txt", lit "a9bc80cca21f28b3")] }

/-- The tip of `main` in `exDiverged`. -/
def exDivergedMain : Commit :=
  { hash := lit "eca2f28b3acddbb5", message := lit "c2", timestamp := lit "T2",
    parentHashes := [lit "58973957bbdc448f"],
    fileMap := [(lit "a.txt", lit "2925835410388969")] }

/-- The tip of `feat` in `exDiverged`. -/
def exDivergedFeat : Commit :=
  { hash := lit "b108103a371bd200", message := lit "c3", timestamp := lit "T3",
    parentHashes := [lit "58973957bbdc448f"],
    fileMap := [(lit "a.txt", lit "a9bc80cca21f28b3"), (lit "b.txt", lit "08f0de07b58d2b17")] }

/-- The tip of `main` in `exConflict`. -/
def exConflictMain : Commit :=
  { hash := lit "d6bfa650af77581e", message := lit "cA", timestamp := lit "T2",
    parentHashes := [lit "58973957bbdc448f"],
    fileMap := [(lit "a.txt", lit "a7f3fcc6b83ffdce")] }

/-- The tip of `feat` in `exConflict`. -/
def exConflictFeat : Commit :=
  { hash := lit "c63eae24bdde93db", message := lit "cB", timestamp := lit "T3",
    parentHashes := [lit "58973957bbdc448f"],
    fileMap := [(lit "a.txt", lit "a7fe1ec6b8488c19")] }

/-- A numbering of the commits checked against every stored commit file: each recorded
parent has a smaller number than the commit that records it. -/
def rankDecreases (s : Repo) (rank : Bytes → Nat) : Bool :=
  s.commitFiles.all (fun file =>
    (parseCommit file.1 file.2).parentHashes.all (fun parent => rank parent < rank file.1))

/-- The numbering of the commits of the example repositories by generation. -/
def exRank (h : Bytes) : Nat :=
  if h = exRootHash then 0 else if h = lit "58973957bbdc448f" then 1 else 2

/-! ## Vocabulary of the later statements -/

/-- One round of the standard FNV-1a: XOR the byte's unsigned value (0..255) into the hash,
then multiply by the prime modulo `2^64`. -/
def fnv1a64Step (hash : Nat) (byte : Byte) : Nat :=
  ((hash ^^^ byte.val) * 1099511628211) % 2 ^ 64

/-- The standard 64-bit FNV-1a of a byte sequence, in the words of the specification: start
from the offset basis, and for each byte in order XOR the byte's unsigned value into the
hash and multiply by the prime modulo `2^64`. -/
def fnv1a64Spec (bytes : Bytes) : Nat :=
  bytes.foldl fnv1a64Step 14695981039346656037

/-- The standard FNV-1a rendered as zero-padded 16-character lowercase hexadecimal. -/
def fnv1a64SpecHex (bytes : Bytes) : Bytes := toHex16 (fnv1a64Spec bytes)

/-- The state of a `MiniGit` object that `main` has just constructed in a directory without
repository: no current branch, no branches, nothing staged. -/
def FreshObject (s : Repo) : Prop :=
  s.gitDirExists = false ∧ s.currentBranch = [] ∧ s.branches = [] ∧ s.stagingArea = []

/-- Scenario S1 after its commit: the result of `commit -m c1` on `exStaged`. -/
def exCommitted : Repo :=
  { currentBranch := lit "main"
    branches := [(lit "main", lit "58973957bbdc448f")]
    stagingArea := []
    inMergeState := false
    mergeTargetBranch := []
    gitDirExists := true
    workFiles := [(lit "a.txt", lit "hello\n")]
    objectFiles := [(lit "a9bc80cca21f28b3", lit "hello\n")]
    commitFiles :=
      [(lit "2cd4011fda977384", lit "Initial commit\nT0\n---\n"),
       (lit "58973957bbdc448f", lit "c1\nT1\n2cd4011fda977384\n---\na.txt:a9bc80cca21f28b3\n")]
    headsFiles := [(lit "main", lit "58973957bbdc448f")]
    headFile := some (lit "ref: refs/heads/main\n")
    indexFile := some [] }

/-- The store closure invariant: every parent hash recorded in a stored commit names a
stored commit, and every blob hash in the tree of a stored commit names a stored blob. -/
def Closed (s : Repo) : Prop :=
  ∀ h c, readCommit s h = some c →
    (∀ p ∈ c.parentHashes, (readCommit s p).isSome = true) ∧
    (∀ path blob, c.fileMap.find path = some blob →
      (readFile s.objectFiles blob).isSome = true)

/-- Along every parent edge between stored commits the tree only gains paths. -/
def TreesGrow (s : Repo) : Prop :=
  ∀ h c p c', readCommit s h = some c → p ∈ c.parentHashes → readCommit s p = some c' →
    ∀ path, c'.fileMap.contains path = true → c.fileMap.contains path = true

/-- Every commit file is named by a 16-character hexadecimal hash. -/
def CommitNamesAreHashes (s : Repo) : Prop :=
  ∀ h c, readCommit s h = some c → isHash h = true

/-- The index in memory is the persisted one and stages stored blobs only. -/
def IndexStored (s : Repo) : Prop :=
  persistedIndex s = s.stagingArea ∧
    ∀ path blob, s.stagingArea.find path = some blob →
      (readFile s.objectFiles blob).isSome = true

/-- The invariant carried along a run: closure, growing trees, hash-named commit files and
an index of stored blobs. -/
def RunInvariant (s : Repo) : Prop :=
  Closed s ∧ TreesGrow s ∧ CommitNamesAreHashes s ∧ IndexStored s

/-- The commit that `commit message` would write at time `now` does not collide with a
different stored commit: no commit file bears its hash, or the file holds the same text. -/
def NoCollision (message now : Bytes) (s : Repo) : Prop :=
  ∀ c, buildCommit message now (loadStagingArea s) = some c →
    readFile s.commitFiles c.hash = none ∨ readFile s.commitFiles c.hash = some (commitText c)

/-- A new invocation of the program on the same directory: `main` constructs a `MiniGit`
object and calls `loadState`. -/
def restart (s : Repo) : Repo :=
  loadState
    { s with currentBranch := [], branches := [], stagingArea := [], inMergeState := false,
             mergeTargetBranch := [] }

/-- The states reachable from `init` in a directory without repository by `add` (of file
names without colon or line feed), `commit` (with single-line message and timestamp, and no
hash collision between different commits), `branch`, `checkout` and `merge`, interleaved
with edits of the working directory by the user and with restarts of the program. -/
inductive Reachable : Repo → Prop where
  | init (d : Repo) (now : Bytes) : FreshObject d → NL ∉ now → Reachable (init now d)
  | edit (s : Repo) (files : StrMap) : Reachable s → Reachable { s with workFiles := files }
  | restart (s : Repo) : Reachable s → Reachable (restart s)
  | add (s : Repo) (filename : Bytes) :
      Reachable s → COLON ∉ filename → NL ∉ filename → Reachable (add filename s)
  | commit (s s' : Repo) (message now : Bytes) :
      Reachable s → NL ∉ message → NL ∉ now → NoCollision message now s →
      commit message now s = some s' → Reachable s'
  | branch (s : Repo) (branchName : Bytes) : Reachable s → Reachable (branch branchName s)
  | checkout (s : Repo) (target : Bytes) : Reachable s → Reachable (checkout target s)
  | merge (s s' : Repo) (fuel : Nat) (branchName : Bytes) (outcome : MergeOutcome) :
      Reachable s → merge fuel branchName s = some (outcome, s') → Reachable s'

/-- A file name made of the tree entry `a.txt` of the scenarios (path, then blob hash)
followed by the path `b.txt`. -/
def collName : Bytes := lit "a.txta9bc80cca21f28b3b.txt"

/-- A run in which two commits get the same hash.  After `init` and `branch side`: on `main`
commit `a.txt` and `b.txt` (message `m`), then `d.txt`; on `side` stage the one file
`collName`, whose content is that of `b.txt`. -/
def runBeforeCollision : Option Repo :=
  let s0 := branch (lit "side") (init (lit "T0") exEmptyDir)
  (commit (lit "m") (lit "T1") (add (lit "b.txt") (userWrite (lit "b.txt") (lit "x\n")
    (add (lit "a.txt") (userWrite (lit "a.txt") (lit "hello\n") s0))))).bind fun s1 =>
  (commit (lit "y") (lit "T1")
    (add (lit "d.txt") (userWrite (lit "d.txt") (lit "d\n") s1))).map fun s2 =>
  add collName (userWrite collName (lit "x\n") (checkout (lit "side") s2))

/-- The run `runBeforeCollision` continued on `side`: commit with the message `m` within
the same second, commit `c.txt`, merge `main`, and commit the merge. -/
def runCollision : Option Repo :=
  runBeforeCollision.bind fun s2 =>
  (commit (lit "m") (lit "T1") s2).bind fun s3 =>
  (commit (lit "z") (lit "T2")
    (add (lit "c.txt") (userWrite (lit "c.txt") (lit "z\n") s3))).bind fun s4 =>
  (merge 4 (lit "main") s4).bind fun r =>
  commit (lit "merge") (lit "T3") r.2

/-- The commit that ends `runCollision`, as `readCommit` returns it. -/
def exCollisionMerge : Commit :=
  { hash := lit "da31cb3d7b2647cf", message := lit "merge", timestamp := lit "T3",
    parentHashes := [lit "1a756b67f7a937a7"],
    fileMap :=
      [(lit "a.txt", lit "a9bc80cca21f28b3"), (collName, []),
       (lit "b.txt", lit "08f0de07b58d2b17"), (lit "c.txt", lit "08f79e07b592dd05"),
       (lit "d.txt", lit "0891b607b53c529b")] }

/-! ## Vocabulary and examples of the last statements -/

/-- Scenario S5 with a staged file: after S1, `checkout` of the root commit by its hash
(HEAD detached), then `n.txt` = "new\n" written and added. -/
def exDetached : Repo :=
  { currentBranch := []
    branches := [(lit "main", lit "58973957bbdc448f")]
    stagingArea := [(lit "n.txt", lit "e54954baa03a5941")]
    inMergeState := false
    mergeTargetBranch := []
    gitDirExists := true
    workFiles := [(lit "n.txt", lit "new\n")]
    objectFiles := [(lit "a9bc80cca21f28b3", lit "hello\n"), (lit "e54954baa03a5941", lit "new\n")]
    commitFiles :=
      [(lit "2cd4011fda977384", lit "Initial commit\nT0\n---\n"),
       (lit "58973957bbdc448f", lit "c1\nT1\n2cd4011fda977384\n---\na.txt:a9bc80cca21f28b3\n")]
    headsFiles := [(lit "main", lit "58973957bbdc448f")]
    headFile := some (lit "2cd4011fda977384\n")
    indexFile := some (lit "n.txt:e54954baa03a5941\n") }

/-- Scenario S1 with one more file in the working directory, `.minigitignore`. -/
def exDotfile : Repo := userWrite (lit ".minigitignore") (lit "x\n") exCommitted

/-- The number of occurrences of `pat` in `text`: the positions of `text` at which `pat`
starts. -/
def countOcc (pat : Bytes) : Bytes → Nat
  | [] => if pat = [] then 1 else 0
  | c :: cs => (if pat.isPrefixOf (c :: cs) then 1 else 0) + countOcc pat cs

/-- The divider of a conflict file. -/
def conflictDivider : Bytes := lit "======="

/-- The trailer of a conflict file. -/
def conflictTrailer : Bytes := lit ">>>>>>> incoming"

/-- Commit closure: every parent hash recorded in a stored commit names a stored commit. -/
def ParentsStored (s : Repo) : Prop :=
  ∀ h c, readCommit s h = some c → ∀ p ∈ c.parentHashes, (readCommit s p).isSome = true

/-- A linear history: every stored commit records at most one parent. -/
def Linear (s : Repo) : Prop :=
  ∀ h c, readCommit s h = some c → c.parentHashes.length ≤ 1

/-- A single-merge history: the stored commit `m` records two parents and every other
stored commit at most one. -/
def SingleMerge (s : Repo) (m : Bytes) : Prop :=
  (∃ cm, readCommit s m = some cm ∧ cm.parentHashes.length = 2) ∧
    ∀ h c, readCommit s h = some c → h ≠ m → c.parentHashes.length ≤ 1

/-- The test that every commit file satisfies `q`. -/
def allCommits (s : Repo) (q : Bytes → Commit → Bool) : Bool :=
  s.commitFiles.all (fun file => q file.1 (parseCommit file.1 file.2))

/-- What the second loop of `findLCA` does with the entry `x` on top of the stack: either it
returns a member of `ancestors` that `x` reaches, or after `k` rounds `x` and everything
pushed for it are gone and nothing that `x` reaches is in `ancestors`. -/
def Searches (s : Repo) (ancestors : StrSet) (x : Bytes) : Prop :=
  ∀ stack : List Bytes,
    (∃ k r, r ∈ ancestors ∧ Reaches s x r ∧
      ∀ fuel, searchCommon s ancestors (fuel + k) (x :: stack) = some r) ∨
    (∃ k, (∀ fuel, searchCommon s ancestors (fuel + k) (x :: stack)
        = searchCommon s ancestors fuel stack) ∧
      ∀ h, Reaches s x h → h ∉ ancestors)

/-- A store with one merge commit: the root `a0`, its children `b1` and `b2`, and the commit
`c0` with the parents `b1` and `b2`, in this order. -/
def exDiamond : Repo :=
  { currentBranch := lit "main"
    branches := [(lit "main", lit "00000000000000c0")]
    stagingArea := []
    inMergeState := false
    mergeTargetBranch := []
    gitDirExists := true
    workFiles := []
    objectFiles := []
    commitFiles :=
      [(lit "00000000000000a0", lit "root\nT0\n---\n"),
       (lit "00000000000000b1", lit "left\nT1\n00000000000000a0\n---\n"),
       (lit "00000000000000b2", lit "right\nT2\n00000000000000a0\n---\n"),
       (lit "00000000000000c0", lit "merge\nT3\n00000000000000b1\n00000000000000b2\n---\n")]
    headsFiles := [(lit "main", lit "00000000000000c0")]
    headFile := some (lit "ref: refs/heads/main\n")
    indexFile := some [] }

/-- The generation of a commit of `exDiamond`. -/
def exDiamondRank (h : Bytes) : Nat :=
  if h = lit "00000000000000a0" then 0 else if h = lit "00000000000000c0" then 2 else 1

/-- A name of a directory entry: not empty, without slash or NUL, and neither `.` nor `..`.
For such a name, `dir + "/" + name` is the file of that name in `dir` and nothing else. -/
def isFileName (name : Bytes) : Bool :=
  name != [] && !name.contains (Fin.ofNat 47) && !name.contains (Fin.ofNat 0)
    && name != lit "." && name != lit ".."

/-- A plain name of the working directory: a file name other than that of the repository
directory.  A tracked path that is a plain name is written and looked up as the entry of
that name in the working directory. -/
def isPlainName (path : Bytes) : Bool := isFileName path && path != lit ".minigit"

/-- A flat tree whose blobs are stored: every path is a plain name and every blob hash is
the name of a stored blob. -/
def flatStoredTree (s : Repo) (fileMap : StrMap) : Bool :=
  fileMap.all (fun entry => isPlainName entry.1 && (readFile s.objectFiles entry.2).isSome)

set_option maxRecDepth 100000

/-! ## Lemmas: the string order -/

theorem strLt_irrefl (a : Bytes) : strLt a a = false := by
  induction a with
  | nil => rfl
  | cons x xs ih => simp [strLt, ih]

theorem strLt_trans : ∀ (a b c : Bytes), strLt a b = true → strLt b c = true → strLt a c = true
  | [], [], _, h, _ => by simp [strLt] at h
  | [], _ :: _, [], _, h => by simp [strLt] at h
  | [], _ :: _, _ :: _, _, _ => by simp [strLt]
  | _ :: _, [], _, h, _ => by simp [strLt] at h
  | _ :: _, _ :: _, [], _, h => by simp [strLt] at h
  | x :: xs, y :: ys, z :: zs, h1, h2 => by
    simp only [strLt] at h1 h2 ⊢
    by_cases hxy : x.val < y.val
    · by_cases hyz : y.val < z.val
      · have : x.val < z.val := by omega
        simp [this]
      · simp only [hyz, if_false] at h2
        by_cases hzy : z.val < y.val
        · simp [hzy] at h2
        · have : x.val < z.val := by omega
          simp [this]
    · simp only [hxy, if_false] at h1
      by_cases hyx : y.val < x.val
      · simp [hyx] at h1
      · simp only [hyx, if_false] at h1
        by_cases hyz : y.val < z.val
        · have : x.val < z.val := by omega
          simp [this]
        · simp only [hyz, if_false] at h2
          by_cases hzy : z.val < y.val
          · simp [hzy] at h2
          · simp only [hzy, if_false] at h2
            have e1 : ¬ x.val < z.val := by omega
            have e2 : ¬ z.val < x.val := by omega
            simp only [e1, e2, if_false]
            exact strLt_trans xs ys zs h1 h2

theorem strLt_total : ∀ (a b : Bytes), strLt a b = false → a ≠ b → strLt b a = true
  | [], [], _, h => absurd rfl h
  | [], _ :: _, h, _ => by simp [strLt] at h
  | _ :: _, [], _, _ => by simp [strLt]
  | x :: xs, y :: ys, h1, h2 => by
    simp only [strLt] at h1 ⊢
    by_cases hxy : x.val < y.val
    · simp [hxy] at h1
    · simp only [hxy, if_false] at h1
      by_cases hyx : y.val < x.val
      · simp [hyx]
      · simp only [hyx, hxy, if_false] at h1 ⊢
        have hx : x = y := Fin.ext (by omega)
        subst hx
        exact strLt_total xs ys h1 (fun h => h2 (by rw [h]))

theorem strLt_asymm (a b : Bytes) (h : strLt a b = true) : strLt b a = false := by
  cases hba : strLt b a with
  | false => rfl
  | true =>
    have := strLt_trans a b a h hba
    rw [strLt_irrefl] at this
    exact absurd this (by simp)

theorem strLt_ne (a b : Bytes) (h : strLt a b = true) : a ≠ b := by
  intro e
  subst e
  rw [strLt_irrefl] at h
  exact absurd h (by simp)

/-! ## Lemmas: maps -/

namespace StrMap

theorem find_set (m : StrMap) (k v k' : Bytes) :
    (m.set k v).find k' = if k' = k then some v else m.find k' := by
  induction m with
  | nil => simp [set, find]
  | cons e rest ih =>
    obtain ⟨k0, v0⟩ := e
    simp only [set]
    by_cases h1 : strLt k k0 = true
    · simp [h1, find]
    · simp only [h1, if_false]
      by_cases h2 : k = k0
      · subst h2
        by_cases h3 : k' = k <;> simp [find, h3]
      · simp only [h2, if_false, find, ih]
        by_cases h3 : k' = k0
        · subst h3
          have : ¬ k' = k := fun e => h2 e.symm
          simp [this]
        · simp [h3]

theorem find_set_self (m : StrMap) (k v : Bytes) : (m.set k v).find k = some v := by
  simp [find_set]

theorem find_set_ne (m : StrMap) (k v k' : Bytes) (h : k' ≠ k) :
    (m.set k v).find k' = m.find k' := by
  simp [find_set, h]

theorem mem_set (m : StrMap) (k v : Bytes) (e : Bytes × Bytes) (h : e ∈ m.set k v) :
    e = (k, v) ∨ e ∈ m := by
  induction m with
  | nil => simpa [set] using h
  | cons e0 rest ih =>
    obtain ⟨k0, v0⟩ := e0
    simp only [set] at h
    by_cases h1 : strLt k k0 = true
    · simp only [h1, if_true, List.mem_cons] at h
      simpa using h
    · simp only [h1, if_false] at h
      by_cases h2 : k = k0
      · rw [if_pos h2] at h
        rcases List.mem_cons.mp h with h | h
        · left; rw [h]
        · right; exact List.mem_cons_of_mem _ h
      · rw [if_neg h2] at h
        rcases List.mem_cons.mp h with h | h
        · right; rw [h]; exact List.mem_cons_self _ _
        · rcases ih h with h | h
          · left; exact h
          · right; exact List.mem_cons_of_mem _ h

theorem sorted_nil : Sorted [] := List.Pairwise.nil

theorem sorted_set (m : StrMap) (k v : Bytes) (h : Sorted m) : Sorted (m.set k v) := by
  induction m with
  | nil => simp [set, Sorted]
  | cons e0 rest ih =>
    obtain ⟨k0, v0⟩ := e0
    have hpw := List.pairwise_cons.mp h
    simp only [set]
    by_cases h1 : strLt k k0 = true
    · simp only [h1, if_true]
      refine List.pairwise_cons.mpr ⟨?_, h⟩
      intro e he
      rcases List.mem_cons.mp he with he | he
      · rw [he]; exact h1
      · exact strLt_trans _ _ _ h1 (hpw.1 e he)
    · simp only [h1, if_false]
      by_cases h2 : k = k0
      · subst h2
        simp only [if_true]
        exact List.pairwise_cons.mpr ⟨hpw.1, hpw.2⟩
      · simp only [h2, if_false]
        refine List.pairwise_cons.mpr ⟨?_, ih hpw.2⟩
        intro e he
        rcases mem_set _ _ _ _ he with he | he
        · rw [he]
          exact strLt_total _ _ (by simpa using h1) h2
        · exact hpw.1 e he

theorem find_eq_none_of_lt (m : StrMap) (k : Bytes)
    (h : ∀ e ∈ m, strLt k e.1 = true) : m.find k = none := by
  induction m with
  | nil => rfl
  | cons e0 rest ih =>
    obtain ⟨k0, v0⟩ := e0
    have hk : k ≠ k0 := strLt_ne _ _ (h (k0, v0) (List.mem_cons_self _ _))
    simp only [find, hk, if_false]
    exact ih (fun e he => h e (List.mem_cons_of_mem _ he))

theorem find_of_mem (m : StrMap) (hm : Sorted m) (k v : Bytes) (h : (k, v) ∈ m) :
    m.find k = some v := by
  induction m with
  | nil => cases h
  | cons e0 rest ih =>
    obtain ⟨k0, v0⟩ := e0
    have hpw := List.pairwise_cons.mp hm
    rcases List.mem_cons.mp h with h | h
    · simp only [Prod.mk.injEq] at h
      simp [find, h.1, h.2]
    · have hk : k ≠ k0 := fun e => by
        have := hpw.1 (k, v) h
        rw [e] at this
        simp [strLt_irrefl] at this
      simp only [find, hk, if_false]
      exact ih hpw.2 h

theorem mem_of_find (m : StrMap) (k v : Bytes) (h : m.find k = some v) : (k, v) ∈ m := by
  induction m with
  | nil => simp [find] at h
  | cons e0 rest ih =>
    obtain ⟨k0, v0⟩ := e0
    simp only [find] at h
    by_cases hk : k = k0
    · simp only [hk, if_true, Option.some.injEq] at h
      rw [hk, h]; exact List.mem_cons_self _ _
    · simp only [hk, if_false] at h
      exact List.mem_cons_of_mem _ (ih h)

/-- On a key larger than all present keys, `set` appends. -/
theorem set_append (pre : StrMap) (k v : Bytes)
    (h : ∀ e ∈ pre, strLt e.1 k = true) : pre.set k v = pre ++ [(k, v)] := by
  induction pre with
  | nil => rfl
  | cons e0 rest ih =>
    obtain ⟨k0, v0⟩ := e0
    have h0 : strLt k0 k = true := h (k0, v0) (List.mem_cons_self _ _)
    have h1 : strLt k k0 = false := strLt_asymm _ _ h0
    have h2 : k ≠ k0 := fun e => strLt_ne _ _ h0 e.symm
    simp only [set, h1, h2, if_false, List.cons_append, Bool.false_eq_true]
    rw [ih (fun e he => h e (List.mem_cons_of_mem _ he))]

end StrMap

/-! ## Lemmas: line-oriented files -/

theorem unlines_cons (l : Bytes) (ls : List Bytes) :
    unlines (l :: ls) = l ++ NL :: unlines ls := by
  simp [unlines]

theorem unlines_append (a b : List Bytes) : unlines (a ++ b) = unlines a ++ unlines b := by
  simp [unlines]

theorem getlines_append_nl (l rest : Bytes) (h : NL ∉ l) :
    getlines (l ++ NL :: rest) = l :: getlines rest := by
  induction l with
  | nil => simp [getlines]
  | cons c cs ih =>
    have hc : c ≠ NL := fun e => h (by simp [e])
    have hcs : NL ∉ cs := fun e => h (List.mem_cons_of_mem _ e)
    simp [getlines, hc, ih hcs]

theorem getlines_unlines (ls : List Bytes) (h : ∀ l ∈ ls, NL ∉ l) :
    getlines (unlines ls) = ls := by
  induction ls with
  | nil => simp [unlines, getlines]
  | cons l rest ih =>
    rw [unlines_cons, getlines_append_nl _ _ (h l (List.mem_cons_self _ _)),
      ih (fun x hx => h x (List.mem_cons_of_mem _ hx))]

theorem getlines_no_nl (t : Bytes) : ∀ l ∈ getlines t, NL ∉ l := by
  induction t with
  | nil => simp [getlines]
  | cons c cs ih =>
    intro l hl
    simp only [getlines] at hl
    by_cases hc : c = NL
    · rw [if_pos hc] at hl
      rcases List.mem_cons.mp hl with hl | hl
      · rw [hl]; simp
      · exact ih l hl
    · rw [if_neg hc] at hl
      cases hg : getlines cs with
      | nil =>
        rw [hg] at hl
        simp only [List.mem_singleton] at hl
        rw [hl]
        simpa using fun e => hc e.symm
      | cons l0 ls =>
        rw [hg] at hl ih
        rcases List.mem_cons.mp hl with hl | hl
        · rw [hl]
          intro hmem
          rcases List.mem_cons.mp hmem with hmem | hmem
          · exact hc hmem.symm
          · exact ih l0 (List.mem_cons_self _ _) hmem
        · exact ih l (List.mem_cons_of_mem _ hl)

theorem splitColon_append (k v : Bytes) (h : COLON ∉ k) :
    splitColon (k ++ COLON :: v) = some (k, v) := by
  induction k with
  | nil => simp [splitColon]
  | cons c cs ih =>
    have hc : c ≠ COLON := fun e => h (by simp [e])
    have hcs : COLON ∉ cs := fun e => h (List.mem_cons_of_mem _ e)
    simp [splitColon, hc, ih hcs]

theorem splitColon_some (line k v : Bytes) (h : splitColon line = some (k, v)) :
    line = k ++ COLON :: v ∧ COLON ∉ k := by
  induction line generalizing k with
  | nil => simp [splitColon] at h
  | cons c cs ih =>
    simp only [splitColon] at h
    by_cases hc : c = COLON
    · rw [if_pos hc] at h
      simp only [Option.some.injEq, Prod.mk.injEq] at h
      rw [← h.1, ← h.2, hc]
      simp
    · rw [if_neg hc] at h
      cases hs : splitColon cs with
      | none => rw [hs] at h; simp at h
      | some kv =>
        obtain ⟨k1, v1⟩ := kv
        rw [hs] at h
        simp only [Option.some.injEq, Prod.mk.injEq] at h
        obtain ⟨h1, h2⟩ := ih k1 (by rw [hs, h.2])
        rw [← h.1]
        refine ⟨by rw [h1]; simp, ?_⟩
        intro hmem
        rcases List.mem_cons.mp hmem with hmem | hmem
        · exact hc hmem.symm
        · exact h2 hmem

theorem writeEntries_eq (m : StrMap) : writeEntries m = unlines (m.map entryLine) := by
  simp [writeEntries, unlines, entryLine, List.map_map, Function.comp_def]

theorem entryLine_no_nl (m : StrMap) (h : Clean m) : ∀ l ∈ m.map entryLine, NL ∉ l := by
  intro l hl
  obtain ⟨e, he, rfl⟩ := List.mem_map.mp hl
  obtain ⟨_, h2, h3⟩ := h e he
  have : NL ≠ COLON := by decide
  simp [entryLine, h2, h3, this]

theorem readEntries_entryLines (acc m : StrMap) (h : ∀ e ∈ m, COLON ∉ e.1) :
    readEntries acc (m.map entryLine) = overlay acc m := by
  induction m generalizing acc with
  | nil => rfl
  | cons e rest ih =>
    have he : splitColon (entryLine e) = some (e.1, e.2) :=
      splitColon_append _ _ (h e (List.mem_cons_self _ _))
    simp only [readEntries, overlay, List.map_cons, List.foldl_cons, he]
    exact ih _ (fun x hx => h x (List.mem_cons_of_mem _ hx))

theorem overlay_append_sorted (pre suf : StrMap) (h : StrMap.Sorted (pre ++ suf)) :
    overlay pre suf = pre ++ suf := by
  induction suf generalizing pre with
  | nil => simp [overlay]
  | cons e rest ih =>
    have hlt : ∀ x ∈ pre, strLt x.1 e.1 = true := by
      intro x hx
      exact (List.pairwise_append.mp h).2.2 x hx e (List.mem_cons_self _ _)
    have hset : pre.set e.1 e.2 = pre ++ [e] := StrMap.set_append pre e.1 e.2 hlt
    have h2 : StrMap.Sorted ((pre ++ [e]) ++ rest) := by simpa using h
    have := ih (pre ++ [e]) h2
    simp only [overlay, List.foldl_cons] at this ⊢
    rw [hset, this]
    simp

theorem overlay_nil_sorted (m : StrMap) (h : StrMap.Sorted m) : overlay [] m = m := by
  simpa using overlay_append_sorted [] m (by simpa using h)

/-- Index round trip on the text level: a clean sorted map is read back as written. -/
theorem readEntries_writeEntries (m : StrMap) (hc : Clean m) (hs : StrMap.Sorted m) :
    readEntries [] (getlines (writeEntries m)) = m := by
  rw [writeEntries_eq, getlines_unlines _ (entryLine_no_nl m hc),
    readEntries_entryLines _ _ (fun e he => (hc e he).1), overlay_nil_sorted m hs]

theorem clean_nil : Clean [] := by intro e he; cases he

theorem clean_set (m : StrMap) (k v : Bytes) (h : Clean m)
    (h1 : COLON ∉ k) (h2 : NL ∉ k) (h3 : NL ∉ v) : Clean (m.set k v) := by
  intro e he
  rcases StrMap.mem_set _ _ _ _ he with he | he
  · rw [he]; exact ⟨h1, h2, h3⟩
  · exact h e he

theorem clean_overlay (a b : StrMap) (ha : Clean a) (hb : Clean b) : Clean (overlay a b) := by
  induction b generalizing a with
  | nil => exact ha
  | cons e rest ih =>
    obtain ⟨h1, h2, h3⟩ := hb e (List.mem_cons_self _ _)
    exact ih _ (clean_set a e.1 e.2 ha h1 h2 h3) (fun x hx => hb x (List.mem_cons_of_mem _ hx))

theorem sorted_overlay (a b : StrMap) (ha : StrMap.Sorted a) : StrMap.Sorted (overlay a b) := by
  induction b generalizing a with
  | nil => exact ha
  | cons e rest ih => exact ih _ (StrMap.sorted_set a e.1 e.2 ha)

theorem clean_readEntries (acc : StrMap) (lines : List Bytes) (ha : Clean acc)
    (hl : ∀ l ∈ lines, NL ∉ l) : Clean (readEntries acc lines) := by
  induction lines generalizing acc with
  | nil => exact ha
  | cons l rest ih =>
    have hrest : ∀ x ∈ rest, NL ∉ x := fun x hx => hl x (List.mem_cons_of_mem _ hx)
    simp only [readEntries, List.foldl_cons]
    cases hs : splitColon l with
    | none => exact ih acc ha hrest
    | some kv =>
      obtain ⟨k, v⟩ := kv
      obtain ⟨hline, hk⟩ := splitColon_some l k v hs
      have hnl : NL ∉ l := hl l (List.mem_cons_self _ _)
      rw [hline] at hnl
      have h2 : NL ∉ k := fun e => hnl (by simp [e])
      have h3 : NL ∉ v := fun e => hnl (by simp [e])
      exact ih _ (clean_set acc k v ha hk h2 h3) hrest

theorem sorted_readEntries (acc : StrMap) (lines : List Bytes) (ha : StrMap.Sorted acc) :
    StrMap.Sorted (readEntries acc lines) := by
  induction lines generalizing acc with
  | nil => exact ha
  | cons l rest ih =>
    simp only [readEntries, List.foldl_cons]
    cases hs : splitColon l with
    | none => exact ih acc ha
    | some kv => exact ih _ (StrMap.sorted_set acc kv.1 kv.2 ha)

/-! ## Lemmas: hashes -/

theorem hexDigit_isHex (d : Nat) (h : d < 16) : isHexDigit (hexDigit d) = true := by
  interval_cases d <;> decide

theorem computeHash_isHash (content : Bytes) : isHash (computeHash content) = true := by
  simp only [isHash, computeHash, toHex16, List.length_map, List.length_reverse,
    List.length_range, beq_self_eq_true, Bool.true_and, List.all_eq_true]
  intro c hc
  obtain ⟨i, _, rfl⟩ := List.mem_map.mp hc
  exact hexDigit_isHex _ (Nat.mod_lt _ (by decide))

theorem isHash_mem (h : Bytes) (hh : isHash h = true) (c : Byte) (hc : c ∈ h) :
    isHexDigit c = true := by
  simp only [isHash, Bool.and_eq_true, List.all_eq_true] at hh
  exact hh.2 c hc

theorem isHash_no_nl (h : Bytes) (hh : isHash h = true) : NL ∉ h := by
  intro hc
  have := isHash_mem h hh NL hc
  revert this
  decide

theorem isHash_no_colon (h : Bytes) (hh : isHash h = true) : COLON ∉ h := by
  intro hc
  have := isHash_mem h hh COLON hc
  revert this
  decide

theorem isHash_length (h : Bytes) (hh : isHash h = true) : h.length = 16 := by
  simp only [isHash, Bool.and_eq_true, beq_iff_eq] at hh
  exact hh.1

theorem isHash_ne_nil (h : Bytes) (hh : isHash h = true) : h ≠ [] := by
  intro e
  have := isHash_length h hh
  rw [e] at this
  simp at this

theorem isHash_ne_sep (h : Bytes) (hh : isHash h = true) : h ≠ lit "---" := by
  intro e
  have := isHash_length h hh
  rw [e] at this
  revert this
  decide

/-! ## Lemmas: the commit file -/

theorem takeWhile_append_stop {α : Type} (p : α → Bool) (a : List α) (x : α) (b : List α)
    (ha : ∀ y ∈ a, p y = true) (hx : p x = false) : (a ++ x :: b).takeWhile p = a := by
  induction a with
  | nil => simp [List.takeWhile, hx]
  | cons y ys ih =>
    rw [List.cons_append, List.takeWhile_cons, ha y (List.mem_cons_self _ _), if_pos rfl,
      ih (fun z hz => ha z (List.mem_cons_of_mem _ hz))]

theorem dropWhile_append_stop {α : Type} (p : α → Bool) (a : List α) (x : α) (b : List α)
    (ha : ∀ y ∈ a, p y = true) (hx : p x = false) : (a ++ x :: b).dropWhile p = x :: b := by
  induction a with
  | nil => simp [List.dropWhile, hx]
  | cons y ys ih =>
    rw [List.cons_append, List.dropWhile_cons, ha y (List.mem_cons_self _ _), if_pos rfl,
      ih (fun z hz => ha z (List.mem_cons_of_mem _ hz))]

/-- The lines of a commit file. -/
theorem commitText_eq (c : Commit) :
    commitText c = unlines (c.message :: c.timestamp ::
      (c.parentHashes ++ lit "---" :: c.fileMap.map entryLine)) := by
  simp [commitText, writeEntries_eq, unlines, List.append_assoc]

theorem parseCommit_commitText (c : Commit) (h : c.Storable) :
    parseCommit c.hash (commitText c) = c := by
  obtain ⟨h1, h2, h3, h4, h5⟩ := h
  have hsep : NL ∉ lit "---" := by decide
  have hlines : getlines (commitText c) = c.message :: c.timestamp ::
      (c.parentHashes ++ lit "---" :: c.fileMap.map entryLine) := by
    rw [commitText_eq]
    apply getlines_unlines
    intro l hl
    rcases List.mem_cons.mp hl with hl | hl
    · rw [hl]; exact h1
    rcases List.mem_cons.mp hl with hl | hl
    · rw [hl]; exact h2
    rcases List.mem_append.mp hl with hl | hl
    · exact (h3 l hl).1
    rcases List.mem_cons.mp hl with hl | hl
    · rw [hl]; exact hsep
    · exact entryLine_no_nl _ h4 l hl
  have hp : ∀ y ∈ c.parentHashes, (fun line : Bytes => line != lit "---") y = true := by
    intro y hy
    simpa using (h3 y hy).2
  have hx : (fun line : Bytes => line != lit "---") (lit "---") = false := by simp
  simp only [parseCommit, hlines, List.drop_succ_cons, List.drop_zero, List.get?_cons_zero,
    List.get?_cons_succ, Option.getD_some]
  rw [takeWhile_append_stop _ _ _ _ hp hx, dropWhile_append_stop _ _ _ _ hp hx]
  simp only [List.drop_succ_cons, List.drop_zero]
  rw [readEntries_entryLines _ _ (fun e he => (h4 e he).1), overlay_nil_sorted _ h5]

theorem parseCommit_fileMap_clean (hash text : Bytes) : Clean (parseCommit hash text).fileMap := by
  simp only [parseCommit]
  apply clean_readEntries _ _ clean_nil
  intro l hl
  have h1 := List.mem_of_mem_drop hl
  have h2 := (List.dropWhile_sublist _).subset h1
  have h3 := List.mem_of_mem_drop h2
  exact getlines_no_nl text l h3

theorem parseCommit_fileMap_sorted (hash text : Bytes) :
    StrMap.Sorted (parseCommit hash text).fileMap := by
  simp only [parseCommit]
  exact sorted_readEntries _ _ StrMap.sorted_nil

/-! ## Lemmas: state plumbing -/

theorem find_overlay (a b : StrMap) (hb : StrMap.Sorted b) (k : Bytes) :
    (overlay a b).find k =
      match b.find k with
      | some v => some v
      | none => a.find k := by
  induction b generalizing a with
  | nil => simp [overlay, StrMap.find]
  | cons e rest ih =>
    obtain ⟨k0, v0⟩ := e
    have hpw := List.pairwise_cons.mp hb
    have h := ih (a.set k0 v0) hpw.2
    simp only [overlay, List.foldl_cons] at h ⊢
    rw [h, StrMap.find_set]
    by_cases hk : k = k0
    · subst hk
      rw [StrMap.find_eq_none_of_lt rest k (fun e he => hpw.1 e he)]
      simp [StrMap.find]
    · simp [StrMap.find, hk]

theorem persistedIndex_clean (s : Repo) : Clean (persistedIndex s) := by
  unfold persistedIndex loadStagingArea
  cases s.indexFile with
  | none => exact clean_nil
  | some text => exact clean_readEntries _ _ clean_nil (getlines_no_nl text)

theorem persistedIndex_sorted (s : Repo) : StrMap.Sorted (persistedIndex s) := by
  unfold persistedIndex loadStagingArea
  cases s.indexFile with
  | none => exact StrMap.sorted_nil
  | some text => exact sorted_readEntries _ _ StrMap.sorted_nil

theorem loadStagingArea_eq (s : Repo) :
    loadStagingArea s = { s with stagingArea := persistedIndex s } := by
  unfold persistedIndex loadStagingArea
  cases s.indexFile <;> rfl

theorem readCommit_fileMap_clean (s : Repo) (h : Bytes) (c : Commit)
    (hc : readCommit s h = some c) : Clean c.fileMap := by
  unfold readCommit at hc
  cases hr : readFile s.commitFiles h with
  | none => rw [hr] at hc; cases hc
  | some text =>
    rw [hr] at hc
    simp only [Option.some.injEq] at hc
    rw [← hc]
    exact parseCommit_fileMap_clean h text

theorem readCommit_fileMap_sorted (s : Repo) (h : Bytes) (c : Commit)
    (hc : readCommit s h = some c) : StrMap.Sorted c.fileMap := by
  unfold readCommit at hc
  cases hr : readFile s.commitFiles h with
  | none => rw [hr] at hc; cases hc
  | some text =>
    rw [hr] at hc
    simp only [Option.some.injEq] at hc
    rw [← hc]
    exact parseCommit_fileMap_sorted h text

theorem readFile_writeFile_self (dir : StrMap) (name content : Bytes) (h : name ≠ []) :
    readFile (writeFile dir name content) name = some content := by
  simp [readFile, writeFile, h, StrMap.find_set]

theorem readFile_writeFile_ne (dir : StrMap) (name content name' : Bytes) (h : name' ≠ name) :
    readFile (writeFile dir name content) name' = readFile dir name' := by
  unfold readFile writeFile
  by_cases h1 : name = []
  · simp [h1]
  · by_cases h2 : name' = []
    · simp [h2]
    · simp [h1, h2, StrMap.find_set, h]

theorem find_writeFile_ne (dir : StrMap) (name content name' : Bytes) (h : name' ≠ name) :
    (writeFile dir name content).find name' = dir.find name' := by
  unfold writeFile
  by_cases h1 : name = []
  · simp [h1]
  · simp [h1, StrMap.find_set, h]

theorem commit_on_branch (s : Repo) (message now P : Bytes) (parent : Commit)
    (hb0 : s.currentBranch ≠ [])
    (hP : s.branches.find s.currentBranch = some P) (hP0 : P ≠ [])
    (hparent : readCommit s P = some parent)
    (hidx : persistedIndex s ≠ []) :
    commit message now s = some
      { s with
        stagingArea := []
        indexFile := some []
        commitFiles := writeFile s.commitFiles
          (commitOn message now P parent (persistedIndex s)).hash
          (commitText (commitOn message now P parent (persistedIndex s)))
        branches := s.branches.set s.currentBranch
          (commitOn message now P parent (persistedIndex s)).hash
        headsFiles := writeFile s.headsFiles s.currentBranch
          (commitOn message now P parent (persistedIndex s)).hash } := by
  have hcur : getCurrentCommitHash { s with stagingArea := persistedIndex s } = P := by
    simp [getCurrentCommitHash, hb0, StrMap.contains, StrMap.get, hP]
  have hread : readCommit { s with stagingArea := persistedIndex s } P = some parent := hparent
  simp only [commit, loadStagingArea_eq, hidx, if_false, buildCommit, hcur, hP0, ne_eq,
    not_false_eq_true, if_true, hread]
  simp [writeCommit, updateBranch, persistStagingArea, commitOn, writeEntries, StrMap.get,
    StrMap.find_set]

/-! ## Lemmas: worktree materializer -/

theorem find_filter_key (m : StrMap) (q : Bytes → Bool) (k : Bytes) :
    StrMap.find (m.filter (fun e => q e.1)) k = if q k = true then m.find k else none := by
  induction m with
  | nil => simp [StrMap.find]
  | cons e rest ih =>
    obtain ⟨k0, v0⟩ := e
    by_cases hq : q k0 = true
    · rw [List.filter_cons_of_pos (by simpa using hq)]
      by_cases hk : k = k0
      · subst hk; simp [StrMap.find, hq]
      · simp [StrMap.find, hk, ih]
    · rw [List.filter_cons_of_neg (by simpa using hq)]
      by_cases hk : k = k0
      · subst hk; simp [StrMap.find, hq, ih]
      · simp [StrMap.find, hk, ih]

theorem find_foldl_write (m : StrMap) (hm : StrMap.Sorted m) (f : Bytes → Bytes)
    (w : StrMap) (p : Bytes) (hp : p ≠ []) :
    StrMap.find (m.foldl (fun work entry => writeFile work entry.1 (f entry.2)) w) p =
      match m.find p with
      | some h => some (f h)
      | none => w.find p := by
  induction m generalizing w with
  | nil => simp [StrMap.find]
  | cons e rest ih =>
    obtain ⟨k0, v0⟩ := e
    have hpw := List.pairwise_cons.mp hm
    rw [List.foldl_cons, ih hpw.2]
    by_cases hk : p = k0
    · subst hk
      rw [StrMap.find_eq_none_of_lt rest p (fun e he => hpw.1 e he)]
      simp [StrMap.find, writeFile, hp, StrMap.find_set]
    · simp only [StrMap.find, hk, if_false]
      rw [find_writeFile_ne _ _ _ _ hk]

theorem restoreCommit_frame (s : Repo) (h : Bytes) :
    ∃ w, restoreCommit s h = { s with workFiles := w } := by
  unfold restoreCommit
  cases readCommit s h with
  | none => exact ⟨s.workFiles, rfl⟩
  | some c => exact ⟨_, rfl⟩

theorem checkout_frame (target : Bytes) (s : Repo) :
    ∃ cb hf w, checkout target s = { s with currentBranch := cb, headFile := hf, workFiles := w } := by
  unfold checkout
  by_cases h1 : s.branches.contains target = true
  · simp only [h1, if_true]
    obtain ⟨w, hw⟩ := restoreCommit_frame (updateHead { s with currentBranch := target })
      ((updateHead { s with currentBranch := target }).branches.get target)
    exact ⟨target, some (lit "ref: refs/heads/" ++ target ++ [NL]), w, by rw [hw]; rfl⟩
  · simp only [h1, if_false]
    by_cases h2 : commitPathExists s target = true
    · simp only [h2, if_true]
      obtain ⟨w, hw⟩ := restoreCommit_frame
        { s with currentBranch := [], headFile := some (target ++ [NL]) } target
      exact ⟨[], some (target ++ [NL]), w, by rw [hw]; rfl⟩
    · simp only [h2, if_false]
      exact ⟨s.currentBranch, s.headFile, s.workFiles, rfl⟩

/-- After `restoreCommit`, a tracked path holds the bytes of its blob. -/
theorem restoreCommit_tracked (s : Repo) (h : Bytes) (c : Commit) (p blob : Bytes)
    (hc : readCommit s h = some c) (hp : p ≠ []) (hfind : c.fileMap.find p = some blob) :
    readFile (restoreCommit s h).workFiles p = some (readBlob s blob) := by
  have hs := readCommit_fileMap_sorted s h c hc
  simp only [restoreCommit, hc, readFile, hp, if_false]
  have := find_filter_key
    (c.fileMap.foldl (fun work entry => writeFile work entry.1 (readBlob s entry.2)) s.workFiles)
    (fun k => !(isRootEntry k && !c.fileMap.contains k && !isProtected k)) p
  simp only at this
  rw [this, find_foldl_write _ hs _ _ _ hp, hfind]
  simp [StrMap.contains, hfind]

theorem add_eq (s : Repo) (p c : Bytes) (hfile : readFile s.workFiles p = some c) :
    add p s =
      { s with
        stagingArea := s.stagingArea.set p (computeHash c)
        indexFile := some (writeEntries (s.stagingArea.set p (computeHash c)))
        objectFiles := writeFile s.objectFiles (computeHash c) c } := by
  simp [add, hfile, persistStagingArea, writeBlob]

theorem readFile_ne_nil (dir : StrMap) (p c : Bytes) (h : readFile dir p = some c) : p ≠ [] := by
  intro e
  simp [readFile, e] at h

theorem contentIn_congr (s s' : Repo) (c : Commit) (f : Bytes)
    (h : s'.objectFiles = s.objectFiles) : contentIn s' c f = contentIn s c f := by
  simp [contentIn, readBlob, h]

theorem mergeCase_congr (s s' : Repo) (b c t : Commit) (f : Bytes)
    (h : s'.objectFiles = s.objectFiles) : mergeCase s' b c t f = mergeCase s b c t f := by
  simp [mergeCase, contentIn_congr s s' _ f h]

theorem mergeFile_eq (b c t : Commit) (s : Repo) (f : Bytes) :
    mergeFile b c t s f =
      match mergeCase s b c t f with
      | MergeCase.same => s
      | MergeCase.takeTarget => { s with stagingArea := s.stagingArea.set f (t.fileMap.get f) }
      | MergeCase.takeCurrent => { s with stagingArea := s.stagingArea.set f (c.fileMap.get f) }
      | MergeCase.conflict => markConflict s f (contentIn s c f) (contentIn s t f) := by
  simp only [mergeFile, mergeCase]
  split_ifs <;> rfl

theorem mergeFile_frame (b c t : Commit) (s : Repo) (f : Bytes) :
    ∃ st w, mergeFile b c t s f = { s with stagingArea := st, workFiles := w } := by
  rw [mergeFile_eq]
  cases mergeCase s b c t f
  · exact ⟨s.stagingArea, s.workFiles, rfl⟩
  · exact ⟨_, s.workFiles, rfl⟩
  · exact ⟨_, s.workFiles, rfl⟩
  · exact ⟨s.stagingArea, _, rfl⟩

theorem mergeFold_frame (b c t : Commit) (L : List Bytes) (s : Repo) :
    ∃ st w, L.foldl (mergeFile b c t) s = { s with stagingArea := st, workFiles := w } := by
  induction L generalizing s with
  | nil => exact ⟨s.stagingArea, s.workFiles, rfl⟩
  | cons f rest ih =>
    obtain ⟨st1, w1, h1⟩ := mergeFile_frame b c t s f
    obtain ⟨st2, w2, h2⟩ := ih (mergeFile b c t s f)
    refine ⟨st2, w2, ?_⟩
    rw [List.foldl_cons, h2, h1]

/-- The index entry of `p` after the loop, in terms of the branch `p` takes. -/
theorem mergeFold_staging (b c t : Commit) (s : Repo) (p : Bytes) (L : List Bytes) (s1 : Repo)
    (hobj : s1.objectFiles = s.objectFiles) :
    (L.foldl (mergeFile b c t) s1).stagingArea.find p =
      if p ∈ L then
        match mergeCase s b c t p with
        | MergeCase.takeTarget => some (t.fileMap.get p)
        | MergeCase.takeCurrent => some (c.fileMap.get p)
        | _ => s1.stagingArea.find p
      else s1.stagingArea.find p := by
  induction L generalizing s1 with
  | nil => simp
  | cons f rest ih =>
    obtain ⟨st1, w1, h1⟩ := mergeFile_frame b c t s1 f
    have hobj1 : (mergeFile b c t s1 f).objectFiles = s.objectFiles := by rw [h1]; exact hobj
    rw [List.foldl_cons, ih _ hobj1]
    have hstep := mergeFile_eq b c t s1 f
    rw [mergeCase_congr s s1 b c t f hobj] at hstep
    by_cases hfp : p = f
    · subst hfp
      rw [hstep]
      cases hcase : mergeCase s b c t p <;> simp [markConflict, StrMap.find_set]
    · have hsame : (mergeFile b c t s1 f).stagingArea.find p = s1.stagingArea.find p := by
        rw [hstep]
        cases mergeCase s b c t f <;> simp [markConflict, StrMap.find_set, hfp]
      rw [hsame]
      simp [hfp]

/-- The working-tree file `p` after the loop, in terms of the branch `p` takes. -/
theorem mergeFold_work (b c t : Commit) (s : Repo) (p : Bytes) (L : List Bytes) (s1 : Repo)
    (hobj : s1.objectFiles = s.objectFiles) :
    (L.foldl (mergeFile b c t) s1).workFiles.find p =
      if p ∈ L ∧ mergeCase s b c t p = MergeCase.conflict ∧ p ≠ [] then
        some (conflictText (contentIn s c p) (contentIn s t p))
      else s1.workFiles.find p := by
  induction L generalizing s1 with
  | nil => simp
  | cons f rest ih =>
    obtain ⟨st1, w1, h1⟩ := mergeFile_frame b c t s1 f
    have hobj1 : (mergeFile b c t s1 f).objectFiles = s.objectFiles := by rw [h1]; exact hobj
    rw [List.foldl_cons, ih _ hobj1]
    have hstep := mergeFile_eq b c t s1 f
    rw [mergeCase_congr s s1 b c t f hobj, contentIn_congr s s1 c f hobj,
      contentIn_congr s s1 t f hobj] at hstep
    by_cases hfp : p = f
    · subst hfp
      rw [hstep]
      by_cases hp0 : p = []
      · cases hcase : mergeCase s b c t p <;> simp [markConflict, writeFile, hp0]
      · cases hcase : mergeCase s b c t p <;>
          simp [markConflict, writeFile, hp0, StrMap.find_set]
    · have hsame : (mergeFile b c t s1 f).workFiles.find p = s1.workFiles.find p := by
        rw [hstep]
        cases mergeCase s b c t f <;> simp [markConflict, find_writeFile_ne _ _ _ _ hfp]
      rw [hsame]
      simp [hfp]

theorem mergeFold_sorted (b c t : Commit) (L : List Bytes) (s : Repo)
    (h : StrMap.Sorted s.stagingArea) :
    StrMap.Sorted (L.foldl (mergeFile b c t) s).stagingArea := by
  induction L generalizing s with
  | nil => exact h
  | cons f rest ih =>
    rw [List.foldl_cons]
    apply ih
    rw [mergeFile_eq]
    cases mergeCase s b c t f
    · exact h
    · exact StrMap.sorted_set _ _ _ h
    · exact StrMap.sorted_set _ _ _ h
    · exact h

theorem get_no_nl (m : StrMap) (hm : Clean m) (k : Bytes) : NL ∉ m.get k := by
  unfold StrMap.get
  cases hf : m.find k with
  | none => simp
  | some v => exact (hm _ (StrMap.mem_of_find m k v hf)).2.2

theorem mergeFold_clean (b c t : Commit) (hc : Clean c.fileMap) (ht : Clean t.fileMap)
    (L : List Bytes) (hL : ∀ f ∈ L, COLON ∉ f ∧ NL ∉ f) (s : Repo)
    (h : Clean s.stagingArea) :
    Clean (L.foldl (mergeFile b c t) s).stagingArea := by
  induction L generalizing s with
  | nil => exact h
  | cons f rest ih =>
    rw [List.foldl_cons]
    apply ih (fun x hx => hL x (List.mem_cons_of_mem _ hx))
    obtain ⟨hf1, hf2⟩ := hL f (List.mem_cons_self _ _)
    rw [mergeFile_eq]
    cases mergeCase s b c t f
    · exact h
    · exact clean_set _ _ _ h hf1 hf2 (get_no_nl _ ht f)
    · exact clean_set _ _ _ h hf1 hf2 (get_no_nl _ hc f)
    · exact h

theorem mem_strSet_insert (S : StrSet) (k x : Bytes) :
    x ∈ StrSet.insert S k ↔ x = k ∨ x ∈ S := by
  induction S with
  | nil => simp [StrSet.insert]
  | cons k0 rest ih =>
    simp only [StrSet.insert]
    by_cases h1 : strLt k k0 = true
    · simp [h1]
    · rw [if_neg h1]
      by_cases h2 : k = k0
      · subst h2; simp
      · rw [if_neg h2]
        simp only [List.mem_cons, ih]
        constructor
        · rintro (h | h | h)
          · exact Or.inr (Or.inl h)
          · exact Or.inl h
          · exact Or.inr (Or.inr h)
        · rintro (h | h | h)
          · exact Or.inr (Or.inl h)
          · exact Or.inl h
          · exact Or.inr (Or.inr h)

theorem mem_insertKeys (m : StrMap) (S : StrSet) (x : Bytes) :
    x ∈ m.foldl (fun acc entry => StrSet.insert acc entry.1) S ↔ x ∈ S ∨ x ∈ m.keys := by
  induction m generalizing S with
  | nil => simp [StrMap.keys]
  | cons e rest ih =>
    rw [List.foldl_cons, ih, mem_strSet_insert]
    simp only [StrMap.keys, List.map_cons, List.mem_cons]
    constructor
    · rintro ((h | h) | h)
      · exact Or.inr (Or.inl h)
      · exact Or.inl h
      · exact Or.inr (Or.inr h)
    · rintro (h | h | h)
      · exact Or.inl (Or.inr h)
      · exact Or.inl (Or.inl h)
      · exact Or.inr h

theorem mem_allFiles (b c t : Commit) (x : Bytes) :
    x ∈ allFiles b c t ↔ x ∈ b.fileMap.keys ∨ x ∈ c.fileMap.keys ∨ x ∈ t.fileMap.keys := by
  simp only [allFiles, mem_insertKeys, List.not_mem_nil, false_or, or_assoc]

theorem mem_keys_of_find (m : StrMap) (k v : Bytes) (h : m.find k = some v) : k ∈ m.keys := by
  have := StrMap.mem_of_find m k v h
  exact List.mem_map.mpr ⟨(k, v), this, rfl⟩

theorem keys_clean (m : StrMap) (hm : Clean m) (k : Bytes) (hk : k ∈ m.keys) :
    COLON ∉ k ∧ NL ∉ k := by
  obtain ⟨e, he, rfl⟩ := List.mem_map.mp hk
  exact ⟨(hm e he).1, (hm e he).2.1⟩

theorem allFiles_clean (b c t : Commit) (hb : Clean b.fileMap) (hc : Clean c.fileMap)
    (ht : Clean t.fileMap) : ∀ f ∈ allFiles b c t, COLON ∉ f ∧ NL ∉ f := by
  intro f hf
  rcases (mem_allFiles b c t f).mp hf with h | h | h
  · exact keys_clean _ hb f h
  · exact keys_clean _ hc f h
  · exact keys_clean _ ht f h

theorem threeWayMerge_eq (s : Repo) (cur tgt base : Bytes) (b c t : Commit)
    (hb : readCommit s base = some b) (hc : readCommit s cur = some c)
    (ht : readCommit s tgt = some t) :
    threeWayMerge s cur tgt base =
      persistStagingArea ((allFiles b c t).foldl (mergeFile b c t) s) := by
  simp [threeWayMerge, hb, hc, ht]

theorem sync_clean (s : Repo) (h : persistedIndex s = s.stagingArea) : Clean s.stagingArea := by
  rw [← h]; exact persistedIndex_clean s

theorem sync_sorted (s : Repo) (h : persistedIndex s = s.stagingArea) :
    StrMap.Sorted s.stagingArea := by
  rw [← h]; exact persistedIndex_sorted s

/-- After a three-way merge of readable commits the index on disk is the index in memory. -/
theorem threeWayMerge_sync (s : Repo) (cur tgt base : Bytes) (b c t : Commit)
    (hb : readCommit s base = some b) (hc : readCommit s cur = some c)
    (ht : readCommit s tgt = some t) (hsync : persistedIndex s = s.stagingArea) :
    persistedIndex (threeWayMerge s cur tgt base) = (threeWayMerge s cur tgt base).stagingArea := by
  rw [threeWayMerge_eq s cur tgt base b c t hb hc ht]
  simp only [persistedIndex, loadStagingArea, persistStagingArea]
  apply readEntries_writeEntries
  · exact mergeFold_clean b c t (readCommit_fileMap_clean s cur c hc)
      (readCommit_fileMap_clean s tgt t ht) _
      (allFiles_clean b c t (readCommit_fileMap_clean s base b hb)
        (readCommit_fileMap_clean s cur c hc) (readCommit_fileMap_clean s tgt t ht))
      s (sync_clean s hsync)
  · exact mergeFold_sorted b c t _ s (sync_sorted s hsync)

/-- The index entry of a path after `threeWayMerge`. -/
theorem threeWayMerge_staging (s : Repo) (cur tgt base : Bytes) (b c t : Commit)
    (hb : readCommit s base = some b) (hc : readCommit s cur = some c)
    (ht : readCommit s tgt = some t) (p : Bytes) :
    (threeWayMerge s cur tgt base).stagingArea.find p =
      if p ∈ allFiles b c t then
        match mergeCase s b c t p with
        | MergeCase.takeTarget => some (t.fileMap.get p)
        | MergeCase.takeCurrent => some (c.fileMap.get p)
        | _ => s.stagingArea.find p
      else s.stagingArea.find p := by
  rw [threeWayMerge_eq s cur tgt base b c t hb hc ht]
  exact mergeFold_staging b c t s p _ s rfl

/-- The working-tree file of a path after `threeWayMerge`. -/
theorem threeWayMerge_work (s : Repo) (cur tgt base : Bytes) (b c t : Commit)
    (hb : readCommit s base = some b) (hc : readCommit s cur = some c)
    (ht : readCommit s tgt = some t) (p : Bytes) :
    (threeWayMerge s cur tgt base).workFiles.find p =
      if p ∈ allFiles b c t ∧ mergeCase s b c t p = MergeCase.conflict ∧ p ≠ [] then
        some (conflictText (contentIn s c p) (contentIn s t p))
      else s.workFiles.find p := by
  rw [threeWayMerge_eq s cur tgt base b c t hb hc ht]
  exact mergeFold_work b c t s p _ s rfl

theorem contentIn_some (s : Repo) (c : Commit) (p h content : Bytes)
    (hfind : c.fileMap.find p = some h) (hblob : BlobAt s h content) :
    contentIn s c p = content := by
  simp [contentIn, StrMap.contains, StrMap.get, hfind, readBlob, hblob.1]

theorem contentIn_none (s : Repo) (c : Commit) (p : Bytes) (hfind : c.fileMap.find p = none) :
    contentIn s c p = [] := by
  simp [contentIn, StrMap.contains, hfind]

theorem blobAt_ne (s : Repo) (h1 h2 x y : Bytes) (hx : BlobAt s h1 x) (hy : BlobAt s h2 y)
    (hne : h1 ≠ h2) : x ≠ y := by
  intro e
  apply hne
  rw [← hx.2, ← hy.2, e]

/-! ## The example repositories are reachable -/

theorem exDiverged_run :
    runBoth (lit "hello\nworld\n") (lit "b.txt") (lit "x\n") (lit "c2") (lit "c3")
      = some exDiverged := by decide

theorem exConflict_run :
    runBoth (lit "hello A\n") (lit "a.txt") (lit "hello B\n") (lit "cA") (lit "cB")
      = some exConflict := by decide

theorem exFastForward_run : runFastForward = some exFastForward := by decide

theorem exEmptyAdded_run : runEmptyAdded = some exEmptyAdded := by decide

/-! ## Lemmas: the DAG walker -/

theorem collectAncestors_nil (s : Repo) (fuel : Nat) (acc : StrSet) :
    collectAncestors s fuel [] acc = some acc := by
  cases fuel <;> rfl

theorem collectAncestors_step (s : Repo) (fuel : Nat) (x : Bytes) (stack : List Bytes)
    (acc : StrSet) :
    collectAncestors s (fuel + 1) (x :: stack) acc =
      collectAncestors s fuel (pushParents s x stack) (StrSet.insert acc x) := rfl

theorem reaches_of_unreadable (s : Repo) (x h : Bytes) (hx : readCommit s x = none)
    (hr : Reaches s x h) : h = x := by
  induction hr using Relation.ReflTransGen.head_induction_on with
  | refl => rfl
  | head hstep _ _ =>
    obtain ⟨c, hc, _⟩ := hstep
    rw [hx] at hc
    cases hc

theorem explores_list (s : Repo) (ps : List Bytes) (hps : ∀ y ∈ ps, Explores s y)
    (stack : List Bytes) (acc : StrSet) :
    ∃ (k : Nat) (acc' : StrSet),
      (∀ fuel, collectAncestors s (fuel + k) (ps ++ stack) acc
        = collectAncestors s fuel stack acc') ∧
      (∀ h, h ∈ acc' ↔ h ∈ acc ∨ ∃ y ∈ ps, Reaches s y h) := by
  induction ps generalizing acc with
  | nil => exact ⟨0, acc, fun fuel => rfl, fun h => by simp⟩
  | cons y ys ih =>
    obtain ⟨k1, acc1, hrun1, hmem1⟩ := hps y (List.mem_cons_self _ _) (ys ++ stack) acc
    obtain ⟨k2, acc2, hrun2, hmem2⟩ :=
      ih (fun z hz => hps z (List.mem_cons_of_mem _ hz)) acc1
    refine ⟨k2 + k1, acc2, ?_, ?_⟩
    · intro fuel
      rw [← Nat.add_assoc, List.cons_append, hrun1, hrun2]
    · intro h
      rw [hmem2, hmem1]
      simp only [List.mem_cons, exists_eq_or_imp]
      tauto

theorem isParent_mem_keys (s : Repo) (x y : Bytes) (h : IsParent s x y) :
    x ∈ s.commitFiles.keys := by
  obtain ⟨c, hc, _⟩ := h
  unfold readCommit at hc
  cases hr : readFile s.commitFiles x with
  | none => rw [hr] at hc; cases hc
  | some text =>
    have hx0 : x ≠ [] := readFile_ne_nil _ _ _ hr
    have hfind : s.commitFiles.find x = some text := by simpa [readFile, hx0] using hr
    exact mem_keys_of_find _ _ _ hfind

/-- In a store without cycles every chain of parents ends: a chain that never repeats a
commit is no longer than the number of commit files. -/
theorem acc_of_acyclic (s : Repo) (hacyc : Acyclic s) :
    ∀ (m : Nat) (x : Bytes) (seen : List Bytes), seen.Nodup →
      (∀ z ∈ seen, z ∈ s.commitFiles.keys ∧ Relation.TransGen (IsParent s) z x) →
      s.commitFiles.keys.length < seen.length + m →
      Acc (fun y x => IsParent s x y) x := by
  intro m
  induction m with
  | zero =>
    intro x seen hnd hseen hlen
    have hsub : seen ⊆ s.commitFiles.keys := fun z hz => (hseen z hz).1
    have := (hnd.subperm hsub).length_le
    omega
  | succ m ih =>
    intro x seen hnd hseen hlen
    refine Acc.intro x ?_
    intro y hxy
    have hxK := isParent_mem_keys s x y hxy
    have hxseen : x ∉ seen := fun hx => hacyc x (hseen x hx).2
    apply ih y (x :: seen) (List.nodup_cons.mpr ⟨hxseen, hnd⟩)
    · intro z hz
      rcases List.mem_cons.mp hz with hz | hz
      · rw [hz]; exact ⟨hxK, Relation.TransGen.single hxy⟩
      · exact ⟨(hseen z hz).1, Relation.TransGen.tail (hseen z hz).2 hxy⟩
    · simp only [List.length_cons]
      omega

theorem wf_of_acyclic (s : Repo) (hacyc : Acyclic s) :
    WellFounded (fun y x => IsParent s x y) :=
  ⟨fun x => acc_of_acyclic s hacyc (s.commitFiles.keys.length + 1) x [] List.nodup_nil
    (fun z hz => by cases hz) (by simp)⟩

theorem explores_of_acyclic (s : Repo) (hacyc : Acyclic s) (x : Bytes) : Explores s x := by
  induction x using (wf_of_acyclic s hacyc).induction with
  | _ x ih =>
    intro stack acc
    cases hx : readCommit s x with
    | none =>
      refine ⟨1, StrSet.insert acc x, ?_, ?_⟩
      · intro fuel
        rw [collectAncestors_step]
        simp [pushParents, hx]
      · intro h
        rw [mem_strSet_insert]
        constructor
        · rintro (h1 | h1)
          · right; rw [h1]; exact Relation.ReflTransGen.refl
          · left; exact h1
        · rintro (h1 | h1)
          · right; exact h1
          · left; exact reaches_of_unreadable s x h hx h1
    | some c =>
      have hps : ∀ y ∈ c.parentHashes.reverse, Explores s y := by
        intro y hy
        exact ih y ⟨c, hx, List.mem_reverse.mp hy⟩
      obtain ⟨k, acc', hrun, hmem⟩ :=
        explores_list s c.parentHashes.reverse hps stack (StrSet.insert acc x)
      refine ⟨k + 1, acc', ?_, ?_⟩
      · intro fuel
        rw [← Nat.add_assoc, collectAncestors_step]
        simp only [pushParents, hx]
        exact hrun fuel
      · intro h
        rw [hmem, mem_strSet_insert]
        constructor
        · rintro ((h1 | h1) | ⟨y, hy, h1⟩)
          · right; rw [h1]; exact Relation.ReflTransGen.refl
          · left; exact h1
          · right
            exact Relation.ReflTransGen.head ⟨c, hx, List.mem_reverse.mp hy⟩ h1
        · rintro (h1 | h1)
          · left; right; exact h1
          · rcases Relation.ReflTransGen.cases_head h1 with h2 | ⟨y, hstep, h2⟩
            · left; left; exact h2.symm
            · right
              obtain ⟨c', hc', hy⟩ := hstep
              rw [hx] at hc'
              simp only [Option.some.injEq] at hc'
              subst hc'
              exact ⟨y, List.mem_reverse.mpr hy, h2⟩

/-- With enough fuel the first loop of `findLCA` ends, with exactly the
ancestors-or-self of `commit1`. -/
theorem collectAncestors_total (s : Repo) (hacyc : Acyclic s) (commit1 : Bytes) :
    ∃ (N : Nat) (ancestors : StrSet),
      (∀ fuel, N ≤ fuel → collectAncestors s fuel [commit1] [] = some ancestors) ∧
      (∀ h, h ∈ ancestors ↔ Reaches s commit1 h) := by
  obtain ⟨k, acc', hrun, hmem⟩ := explores_of_acyclic s hacyc commit1 [] []
  refine ⟨k, acc', ?_, ?_⟩
  · intro fuel hfuel
    have := hrun (fuel - k)
    rw [Nat.sub_add_cancel hfuel, collectAncestors_nil] at this
    exact this
  · intro h
    rw [hmem]
    simp

/-- When `commit2` is `commit1` or one of its ancestors, `findLCA` returns `commit2`. -/
theorem findLCA_of_reaches (s : Repo) (hacyc : Acyclic s) (commit1 commit2 : Bytes)
    (h : Reaches s commit1 commit2) :
    ∃ N, ∀ fuel, N ≤ fuel → findLCA fuel s commit1 commit2 = some commit2 := by
  obtain ⟨N, ancestors, hrun, hmem⟩ := collectAncestors_total s hacyc commit1
  refine ⟨N + 1, ?_⟩
  intro fuel hfuel
  obtain ⟨f, rfl⟩ : ∃ f, fuel = f + 1 := ⟨fuel - 1, by omega⟩
  have hin : List.contains ancestors commit2 = true := by
    simpa using (hmem commit2).mpr h
  simp only [findLCA, hrun (f + 1) (by omega), searchCommon, hin, if_true]

theorem acyclic_of_rank (s : Repo) (rank : Bytes → Nat)
    (h : ∀ x y, IsParent s x y → rank y < rank x) : Acyclic s := by
  have hlt : ∀ x y, Relation.TransGen (IsParent s) x y → rank y < rank x := by
    intro x y hxy
    induction hxy with
    | single h1 => exact h _ _ h1
    | tail _ h2 ih => exact Nat.lt_trans (h _ _ h2) ih
  intro x hx
  exact Nat.lt_irrefl _ (hlt x x hx)

theorem acyclic_of_rankDecreases (s : Repo) (rank : Bytes → Nat)
    (h : rankDecreases s rank = true) : Acyclic s := by
  apply acyclic_of_rank s rank
  rintro x y ⟨c, hc, hy⟩
  unfold readCommit at hc
  cases hr : readFile s.commitFiles x with
  | none => rw [hr] at hc; cases hc
  | some text =>
    rw [hr] at hc
    simp only [Option.some.injEq] at hc
    have hx0 : x ≠ [] := readFile_ne_nil _ _ _ hr
    have hfind : s.commitFiles.find x = some text := by simpa [readFile, hx0] using hr
    have hmem := StrMap.mem_of_find _ _ _ hfind
    simp only [rankDecreases, List.all_eq_true, decide_eq_true_eq] at h
    have := h (x, text) hmem y (by rw [hc]; exact hy)
    exact this

/-- The fast-forward exit of `merge` is `checkout branchName`: it leaves every branch where
it was and makes HEAD symbolic on `branchName`. -/
theorem merge_fastForward_eq (fuel : Nat) (s : Repo) (t : Bytes)
    (hbranch : s.branches.contains t = true)
    (hbase : findLCA fuel s (getCurrentCommitHash s) (s.branches.get t)
      = some (getCurrentCommitHash s))
    (hne : getCurrentCommitHash s ≠ s.branches.get t) :
    merge fuel t s = some (MergeOutcome.fastForward, checkout t s) ∧
      (checkout t s).branches = s.branches ∧
      (checkout t s).currentBranch = t ∧
      (checkout t s).headFile = some (lit "ref: refs/heads/" ++ t ++ [NL]) ∧
      (checkout t s).commitFiles = s.commitFiles := by
  obtain ⟨w, hw⟩ := restoreCommit_frame (updateHead { s with currentBranch := t })
    ((updateHead { s with currentBranch := t }).branches.get t)
  have hco : checkout t s = restoreCommit (updateHead { s with currentBranch := t })
      ((updateHead { s with currentBranch := t }).branches.get t) := by
    simp [checkout, hbranch]
  refine ⟨?_, ?_, ?_, ?_, ?_⟩
  · simp [merge, hbranch, hbase, hne]
  all_goals rw [hco, hw]; rfl

/-! ## C1: the postcondition of `commit` -/

/-- C1. On a branch whose tip `P` is a stored commit, with a non-empty persisted index and a
single-line message and timestamp, `commit` succeeds; the store then holds, under the new
hash, a commit with the given message, the parent list `[P]` and the tree of `P` overlaid
with the staged entries; the current branch points at it, the other branches and HEAD are
unchanged, and the index is empty in memory and on disk. -/
theorem C1_commit_postcondition (s : Repo) (message now P : Bytes) (parent : Commit)
    (hmsg : NL ∉ message) (hnow : NL ∉ now)
    (hbranch : s.currentBranch ≠ [])
    (htip : s.branches.find s.currentBranch = some P)
    (hhash : isHash P = true)
    (hparent : readCommit s P = some parent)
    (hindex : persistedIndex s ≠ []) :
    ∃ s', commit message now s = some s' ∧ CommitPost s s' message P parent := by
  have hP0 : P ≠ [] := isHash_ne_nil P hhash
  refine ⟨_, commit_on_branch s message now P parent hbranch htip hP0 hparent hindex, ?_⟩
  have hstor : (commitOn message now P parent (persistedIndex s)).Storable := by
    refine ⟨hmsg, hnow, ?_, ?_, ?_⟩
    · intro p hp
      simp only [commitOn, List.mem_singleton] at hp
      rw [hp]
      exact ⟨isHash_no_nl P hhash, isHash_ne_sep P hhash⟩
    · exact clean_overlay _ _ (readCommit_fileMap_clean s P parent hparent)
        (persistedIndex_clean s)
    · exact sorted_overlay _ _ (readCommit_fileMap_sorted s P parent hparent)
  have hne : (commitOn message now P parent (persistedIndex s)).hash ≠ [] :=
    isHash_ne_nil _ (computeHash_isHash _)
  refine ⟨commitOn message now P parent (persistedIndex s), ?_, rfl, rfl, ?_, ?_, ?_, ?_,
    rfl, rfl, rfl, ?_⟩
  · simp only [readCommit, readFile_writeFile_self _ _ _ hne]
    rw [parseCommit_commitText _ hstor]
  · intro path
    exact find_overlay _ _ (persistedIndex_sorted s) path
  · simp [StrMap.find_set]
  · exact readFile_writeFile_self _ _ _ hbranch
  · intro b' hb'
    exact ⟨StrMap.find_set_ne _ _ _ _ hb', find_writeFile_ne _ _ _ _ hb'⟩
  · simp [persistedIndex, loadStagingArea, readEntries, getlines]

/-- Witness of C1: the first commit of scenario S1, on `main` at the root commit with `a.txt`
staged. -/
theorem C1_commit_postcondition_witness :
    ∃ s', commit (lit "c1") (lit "T1") exStaged = some s' ∧
      CommitPost exStaged s' (lit "c1") exRootHash exRoot :=
  C1_commit_postcondition exStaged (lit "c1") (lit "T1") exRootHash exRoot
    (by decide) (by decide) (by decide) (by decide) (by decide) (by decide) (by decide)

/-! ## C2: `add`, `commit`, `checkout` round trip -/

/-- C3, evaluated on scenario S4 (HEAD symbolic on `main` at `c1`, `feat` one commit ahead,
so that `findLCA` returns the current commit): `merge feat` takes the fast-forward exit, yet
`main` still points at `c1` and not at the tip of `feat`, and HEAD is now symbolic on `feat`;
the working tree holds the files of the tip of `feat` and the commit store is unchanged. -/
theorem C3_fast_forward_does_not_move_branch :
    exFastForward.currentBranch = lit "main"
    ∧ exFastForward.headFile = some (lit "ref: refs/heads/main\n")
    ∧ getCurrentCommitHash exFastForward = lit "58973957bbdc448f"
    ∧ exFastForward.branches.find (lit "feat") = some (lit "4e9e8a9b7de07a78")
    ∧ findLCA 3 exFastForward (lit "58973957bbdc448f") (lit "4e9e8a9b7de07a78")
        = some (lit "58973957bbdc448f")
    ∧ (merge 3 (lit "feat") exFastForward).map (fun r => r.1) = some MergeOutcome.fastForward
    ∧ (merge 3 (lit "feat") exFastForward).map (fun r => r.2.branches.find (lit "main"))
        = some (some (lit "58973957bbdc448f"))
    ∧ (merge 3 (lit "feat") exFastForward).map (fun r => r.2.currentBranch)
        = some (lit "feat")
    ∧ (merge 3 (lit "feat") exFastForward).map (fun r => r.2.headFile)
        = some (some (lit "ref: refs/heads/feat\n"))
    ∧ (merge 3 (lit "feat") exFastForward).map (fun r => r.2.workFiles)
        = some [(lit "a.txt", lit "hello\n"), (lit "b.txt", lit "x\n")]
    ∧ (merge 3 (lit "feat") exFastForward).map (fun r => r.2.commitFiles)
        = some exFastForward.commitFiles := by
  refine ⟨by decide, by decide, by decide, by decide, by decide, by decide, by decide,
    by decide, by decide, by decide, by decide⟩

/-! ## C4: the parents of a commit made after a merge -/

/-- C4, evaluated on scenario S2 (`main` and `feat` diverged from `c1`): `merge feat` starts
a three-way merge and sets the merge-state flag with target `feat`; after `add a.txt` the
next `commit` succeeds and moves `main`, but the commit it stores has the single parent that
was current at merge time (the tip of `feat`, `b108103a371bd200`, is not recorded), and the
merge-state flag is still set. -/
theorem C4_merge_commit_has_one_parent :
    getCurrentCommitHash exDiverged = lit "eca2f28b3acddbb5"
    ∧ exDiverged.branches.find (lit "feat") = some (lit "b108103a371bd200")
    ∧ (merge 4 (lit "feat") exDiverged).map (fun r => r.1) = some MergeOutcome.mergeStarted
    ∧ (merge 4 (lit "feat") exDiverged).map (fun r => r.2.inMergeState) = some true
    ∧ (merge 4 (lit "feat") exDiverged).map (fun r => r.2.mergeTargetBranch)
        = some (lit "feat")
    ∧ runMergeCommit.map (fun s => getCurrentCommitHash s == getCurrentCommitHash exDiverged)
        = some false
    ∧ runMergeCommit.map
          (fun s => (readCommit s (getCurrentCommitHash s)).map (fun c => c.parentHashes))
        = some (some [lit "eca2f28b3acddbb5"])
    ∧ runMergeCommit.map (fun s => s.inMergeState) = some true := by
  refine ⟨by decide, by decide, by decide, by decide, by decide, by decide, by decide,
    by decide⟩

/-! ## C5: a change made only on the target is staged -/

/-- C5. Let `p` be in the base, current and target trees with blob hashes `B`, `C`, `T`,
each blob stored with bytes that hash to it, `C = B` and `T ≠ B`.  Then after
`threeWayMerge` the index maps `p` to `T`, in memory and as persisted (the index in memory
being the persisted one beforehand). -/
theorem C5_merge_takes_target_change (s : Repo) (cur tgt base : Bytes) (b c t : Commit)
    (p B C T contentB contentC contentT : Bytes)
    (hb : readCommit s base = some b) (hc : readCommit s cur = some c)
    (ht : readCommit s tgt = some t)
    (hsync : persistedIndex s = s.stagingArea)
    (hB : b.fileMap.find p = some B) (hC : c.fileMap.find p = some C)
    (hT : t.fileMap.find p = some T)
    (hblobB : BlobAt s B contentB) (hblobC : BlobAt s C contentC)
    (hblobT : BlobAt s T contentT)
    (hCB : C = B) (hTB : T ≠ B) :
    (threeWayMerge s cur tgt base).stagingArea.find p = some T ∧
      (persistedIndex (threeWayMerge s cur tgt base)).find p = some T := by
  have hcB := contentIn_some s b p B contentB hB hblobB
  have hcC := contentIn_some s c p C contentC hC hblobC
  have hcT := contentIn_some s t p T contentT hT hblobT
  have hBC : contentB = contentC := by
    subst hCB
    have := hblobB.1.symm.trans hblobC.1
    simpa using this
  have hCT : contentC ≠ contentT := by
    rw [← hBC]
    exact blobAt_ne s B T _ _ hblobB hblobT (fun e => hTB e.symm)
  have hcase : mergeCase s b c t p = MergeCase.takeTarget := by
    simp [mergeCase, hcB, hcC, hcT, hCT, hBC]
  have hmem : p ∈ allFiles b c t :=
    (mem_allFiles b c t p).mpr (Or.inl (mem_keys_of_find _ _ _ hB))
  have hmain : (threeWayMerge s cur tgt base).stagingArea.find p = some T := by
    rw [threeWayMerge_staging s cur tgt base b c t hb hc ht p, if_pos hmem, hcase]
    simp [StrMap.get, hT]
  exact ⟨hmain, by rw [threeWayMerge_sync s cur tgt base b c t hb hc ht hsync]; exact hmain⟩

/-- Witness of C5: in scenario S2 seen from `feat`, `a.txt` is unchanged on the current side and
changed on the target `main`. -/
theorem C5_merge_takes_target_change_witness :
    (threeWayMerge exDiverged exDivergedFeat.hash exDivergedMain.hash exC1.hash).stagingArea.find
        (lit "a.txt") = some (lit "2925835410388969") ∧
      (persistedIndex
        (threeWayMerge exDiverged exDivergedFeat.hash exDivergedMain.hash exC1.hash)).find
        (lit "a.txt") = some (lit "2925835410388969") :=
  C5_merge_takes_target_change exDiverged exDivergedFeat.hash exDivergedMain.hash exC1.hash
    exC1 exDivergedFeat exDivergedMain (lit "a.txt")
    (lit "a9bc80cca21f28b3") (lit "a9bc80cca21f28b3") (lit "2925835410388969")
    (lit "hello\n") (lit "hello\n") (lit "hello\nworld\n")
    (by decide) (by decide) (by decide) (by decide) (by decide) (by decide) (by decide)
    ⟨by decide, by decide⟩ ⟨by decide, by decide⟩ ⟨by decide, by decide⟩
    (by decide) (by decide)

/-! ## C6: a change made only on the current side -/

/-- C8, evaluated where `feat` added the empty file `e.txt`: the base (the root commit) and
the current tree lack `e.txt`, the target tree maps it to the hash of the empty string,
whose blob is stored; `merge feat` runs the three-way merge, and afterwards the index has
no entry for `e.txt`, neither in memory nor on disk. -/
theorem C8_empty_file_added_on_target_not_staged :
    (readCommit exEmptyAdded exRootHash).map (fun c => c.fileMap.find (lit "e.txt"))
        = some none
    ∧ (readCommit exEmptyAdded (getCurrentCommitHash exEmptyAdded)).map
          (fun c => c.fileMap.find (lit "e.txt")) = some none
    ∧ (readCommit exEmptyAdded (exEmptyAdded.branches.get (lit "feat"))).map
          (fun c => c.fileMap.find (lit "e.txt")) = some (some (lit "cbf29ce484222325"))
    ∧ readFile exEmptyAdded.objectFiles (lit "cbf29ce484222325") = some []
    ∧ computeHash [] = lit "cbf29ce484222325"
    ∧ findLCA 4 exEmptyAdded (getCurrentCommitHash exEmptyAdded)
          (exEmptyAdded.branches.get (lit "feat")) = some exRootHash
    ∧ (merge 4 (lit "feat") exEmptyAdded).map (fun r => r.1) = some MergeOutcome.mergeStarted
    ∧ (merge 4 (lit "feat") exEmptyAdded).map (fun r => r.2.stagingArea.find (lit "e.txt"))
        = some none
    ∧ (merge 4 (lit "feat") exEmptyAdded).map
          (fun r => (persistedIndex r.2).find (lit "e.txt")) = some none := by
  refine ⟨by decide, by decide, by decide, by decide, by decide, by decide, by decide,
    by decide, by decide⟩

/-! ## C9: paths on which current and target agree -/

/-- C10. In a store with an acyclic parent relation, when the tip of the existing branch `t`
is the current commit or one of its ancestors, `findLCA` (given enough fuel) returns that
tip and `merge t` takes the up-to-date exit, returning the state it was given: branches,
HEAD, index, merge-state flag, working tree, blob store and commit store are as before. -/
theorem C10_up_to_date_merge (s : Repo) (t : Bytes)
    (hacyc : Acyclic s)
    (hbranch : s.branches.contains t = true)
    (hanc : Reaches s (getCurrentCommitHash s) (s.branches.get t)) :
    ∃ N, ∀ fuel, N ≤ fuel →
      findLCA fuel s (getCurrentCommitHash s) (s.branches.get t) = some (s.branches.get t) ∧
      merge fuel t s = some (MergeOutcome.upToDate, s) := by
  obtain ⟨N, hN⟩ := findLCA_of_reaches s hacyc _ _ hanc
  refine ⟨N, fun fuel hfuel => ⟨hN fuel hfuel, ?_⟩⟩
  simp [merge, hbranch, hN fuel hfuel]

/-- Witness of C10: on `feat` in scenario S4, `main` points at the parent of the current commit. -/
theorem C10_up_to_date_merge_witness :
    ∃ N, ∀ fuel, N ≤ fuel →
      findLCA fuel (checkout (lit "feat") exFastForward)
          (getCurrentCommitHash (checkout (lit "feat") exFastForward))
          ((checkout (lit "feat") exFastForward).branches.get (lit "main"))
        = some ((checkout (lit "feat") exFastForward).branches.get (lit "main")) ∧
      merge fuel (lit "main") (checkout (lit "feat") exFastForward)
        = some (MergeOutcome.upToDate, checkout (lit "feat") exFastForward) :=
  C10_up_to_date_merge (checkout (lit "feat") exFastForward) (lit "main")
    (acyclic_of_rankDecreases _ exRank (by decide)) (by decide)
    (Relation.ReflTransGen.single
      ⟨parseCommit (lit "4e9e8a9b7de07a78")
        (lit "c2\nT2\n58973957bbdc448f\n---\na.txt:a9bc80cca21f28b3\nb.txt:08f0de07b58d2b17\n"),
        by decide, by decide⟩)

/-! ## C11: merging twice after a fast-forward -/

theorem isParent_congr (s s' : Repo) (h : s'.commitFiles = s.commitFiles) (x y : Bytes) :
    IsParent s' x y ↔ IsParent s x y := by
  simp [IsParent, readCommit, h]

theorem acyclic_congr (s s' : Repo) (h : s'.commitFiles = s.commitFiles) (hacyc : Acyclic s) :
    Acyclic s' := by
  have hrel : IsParent s' = IsParent s := by
    funext x y
    exact propext (isParent_congr s s' h x y)
  unfold Acyclic
  rw [hrel]
  exact hacyc

/-- C11. In an acyclic store, let `merge t` (for a branch `t` with a non-empty name) compute
`base == current`.  Then a second `merge t`, given enough fuel, takes the up-to-date exit
and returns the state the first one left: performing the merge twice gives the state of
performing it once. -/
theorem C11_idempotent_fast_forward (s : Repo) (t : Bytes) (fuel1 : Nat)
    (hacyc : Acyclic s) (ht : t ≠ [])
    (hbranch : s.branches.contains t = true)
    (hbase : findLCA fuel1 s (getCurrentCommitHash s) (s.branches.get t)
      = some (getCurrentCommitHash s)) :
    ∃ outcome s1, merge fuel1 t s = some (outcome, s1) ∧
      ∃ N, ∀ fuel, N ≤ fuel → merge fuel t s1 = some (MergeOutcome.upToDate, s1) := by
  by_cases hne : getCurrentCommitHash s = s.branches.get t
  · refine ⟨MergeOutcome.upToDate, s, ?_, ?_⟩
    · rw [hne] at hbase
      simp [merge, hbranch, hbase, hne]
    · obtain ⟨N, hN⟩ := findLCA_of_reaches s hacyc (getCurrentCommitHash s) (s.branches.get t)
        (by rw [hne]; exact Relation.ReflTransGen.refl)
      exact ⟨N, fun fuel hfuel => by simp [merge, hbranch, hN fuel hfuel]⟩
  · obtain ⟨hm, hbr, hcb, _, hcf⟩ := merge_fastForward_eq fuel1 s t hbranch hbase hne
    refine ⟨MergeOutcome.fastForward, checkout t s, hm, ?_⟩
    have hcur : getCurrentCommitHash (checkout t s) = (checkout t s).branches.get t := by
      simp [getCurrentCommitHash, hcb, hbr, ht, hbranch]
    obtain ⟨N, hN⟩ := findLCA_of_reaches (checkout t s) (acyclic_congr s _ hcf hacyc)
      ((checkout t s).branches.get t) ((checkout t s).branches.get t)
      Relation.ReflTransGen.refl
    refine ⟨N, fun fuel hfuel => ?_⟩
    have hb2 : (checkout t s).branches.contains t = true := by rw [hbr]; exact hbranch
    simp [merge, hb2, hcur, hN fuel hfuel]

/-- Witness of C11: scenario S4 followed by a second `merge feat` (scenario S6). -/
theorem C11_idempotent_fast_forward_witness :
    ∃ outcome s1, merge 3 (lit "feat") exFastForward = some (outcome, s1) ∧
      ∃ N, ∀ fuel, N ≤ fuel → merge fuel (lit "feat") s1 = some (MergeOutcome.upToDate, s1) :=
  C11_idempotent_fast_forward exFastForward (lit "feat") 3
    (acyclic_of_rankDecreases _ exRank (by decide)) (by decide) (by decide) (by decide)

/-! ## C13: commit serialization round trip -/

/-- C13. In a repository, for a commit whose hash is a 16-character hexadecimal hash, with a
single-line message and timestamp, parents that are 16-character hexadecimal hashes, and a
tree (a `std::map`, so sorted) whose paths hold neither colon nor line feed and whose values
are 16-character hexadecimal hashes, `readCommit` on the file written by `writeCommit`
returns the commit itself. -/
theorem C13_commit_roundtrip (s : Repo) (c : Commit)
    (hrepo : s.gitDirExists = true)
    (hhash : isHash c.hash = true)
    (hmsg : NL ∉ c.message) (hts : NL ∉ c.timestamp)
    (hparents : ∀ p ∈ c.parentHashes, isHash p = true)
    (hsorted : StrMap.Sorted c.fileMap)
    (htree : ∀ e ∈ c.fileMap, COLON ∉ e.1 ∧ NL ∉ e.1 ∧ isHash e.2 = true) :
    readCommit (writeCommit s c) c.hash = some c := by
  have _ := hrepo
  have hstor : c.Storable :=
    ⟨hmsg, hts, fun p hp => ⟨isHash_no_nl p (hparents p hp), isHash_ne_sep p (hparents p hp)⟩,
      fun e he => ⟨(htree e he).1, (htree e he).2.1, isHash_no_nl _ (htree e he).2.2⟩, hsorted⟩
  simp only [readCommit, writeCommit, readFile_writeFile_self _ _ _ (isHash_ne_nil _ hhash)]
  rw [parseCommit_commitText c hstor]

/-- Witness of C13: the tip of `feat` in scenario S2, written into the repository of
scenario S1 before its commit. -/
theorem C13_commit_roundtrip_witness :
    (readCommit exFresh exDivergedFeat.hash = none ∧ exFresh.gitDirExists = true) ∧
      readCommit (writeCommit exFresh exDivergedFeat) exDivergedFeat.hash
        = some exDivergedFeat :=
  ⟨⟨by decide, by decide⟩,
    C13_commit_roundtrip exFresh exDivergedFeat (by decide) (by decide) (by decide) (by decide)
      (by decide) (by unfold StrMap.Sorted; decide) (by decide)⟩

/-! ## C14: index round trip -/

/-- C14. For an index (a `std::map`, so sorted) whose paths hold neither colon nor line feed
and whose values are 16-character hexadecimal hashes, `loadStagingArea` on the file written
by `persistStagingArea` yields exactly the same map. -/
theorem C14_index_roundtrip (s : Repo)
    (hsorted : StrMap.Sorted s.stagingArea)
    (hentries : ∀ e ∈ s.stagingArea, COLON ∉ e.1 ∧ NL ∉ e.1 ∧ isHash e.2 = true) :
    (loadStagingArea (persistStagingArea s)).stagingArea = s.stagingArea := by
  have hclean : Clean s.stagingArea :=
    fun e he => ⟨(hentries e he).1, (hentries e he).2.1, isHash_no_nl _ (hentries e he).2.2⟩
  simp only [loadStagingArea, persistStagingArea]
  exact readEntries_writeEntries _ hclean hsorted

/-- Witness of C14: the index of scenario S1 with `a.txt` staged. -/
theorem C14_index_roundtrip_witness :
    (loadStagingArea (persistStagingArea exStaged)).stagingArea = exStaged.stagingArea :=
  C14_index_roundtrip exStaged (by unfold StrMap.Sorted; decide) (by decide)

/-! ## C17: the shape of a hash -/

/-- C17. `computeHash` returns exactly 16 characters, each one of `0-9` or `a-f`, and equal
inputs give equal results. -/
theorem C17_hash_shape (content : Bytes) :
    (computeHash content).length = 16 ∧
      (∀ c ∈ computeHash content, isHexDigit c = true) ∧
      (∀ content' : Bytes, content' = content → computeHash content' = computeHash content) :=
  ⟨isHash_length _ (computeHash_isHash content),
    fun c hc => isHash_mem _ (computeHash_isHash content) c hc,
    fun _ h => by rw [h]⟩

/-! ## C20: `commit` with nothing staged -/

/-- C20. When the persisted index is empty, `commit` takes its first exit ("No changes
staged for commit"): it returns the state it was given with the in-memory index empty, so
no commit file is written, no branch is moved or created, and HEAD, the index file and the
working tree are unchanged. -/
theorem C20_commit_nothing_staged (s : Repo) (message now : Bytes)
    (hempty : persistedIndex s = []) :
    commit message now s = some { s with stagingArea := [] } := by
  simp [commit, loadStagingArea_eq, hempty]

/-- Witness of C20: `commit` right after scenario S1 has nothing staged. -/
theorem C20_commit_nothing_staged_witness :
    commit (lit "again") (lit "T9") exFastForward
      = some { exFastForward with stagingArea := [] } :=
  C20_commit_nothing_staged exFastForward (lit "again") (lit "T9") (by decide)

/-! ## C12: how `checkout` resolves its target -/

/-- A branch name wins: HEAD becomes symbolic on it and its commit is materialized, whether
or not a commit file of that name exists. -/
theorem checkout_branch (s : Repo) (t : Bytes) (hbranch : s.branches.contains t = true) :
    checkout t s = restoreCommit
        { s with currentBranch := t, headFile := some (lit "ref: refs/heads/" ++ t ++ [NL]) }
        (s.branches.get t) ∧
      (checkout t s).currentBranch = t ∧
      (checkout t s).headFile = some (lit "ref: refs/heads/" ++ t ++ [NL]) := by
  have hco : checkout t s = restoreCommit
      { s with currentBranch := t, headFile := some (lit "ref: refs/heads/" ++ t ++ [NL]) }
      (s.branches.get t) := by
    simp [checkout, hbranch, updateHead]
  obtain ⟨w, hw⟩ := restoreCommit_frame
    { s with currentBranch := t, headFile := some (lit "ref: refs/heads/" ++ t ++ [NL]) }
    (s.branches.get t)
  refine ⟨hco, ?_, ?_⟩
  all_goals rw [hco, hw]

/-- A stored commit that is not a branch name: HEAD becomes detached, the HEAD file holds
the hash and a line feed, and the commit is materialized. -/
theorem checkout_commit (s : Repo) (t : Bytes) (hbranch : s.branches.contains t = false)
    (hcommit : s.commitFiles.contains t = true) (ht : t ≠ []) :
    checkout t s = restoreCommit
        { s with currentBranch := [], headFile := some (t ++ [NL]) } t ∧
      (checkout t s).currentBranch = [] ∧
      (checkout t s).headFile = some (t ++ [NL]) := by
  have hco : checkout t s = restoreCommit
      { s with currentBranch := [], headFile := some (t ++ [NL]) } t := by
    simp [checkout, hbranch, commitPathExists, ht, hcommit]
  obtain ⟨w, hw⟩ := restoreCommit_frame
    { s with currentBranch := [], headFile := some (t ++ [NL]) } t
  refine ⟨hco, ?_, ?_⟩
  all_goals rw [hco, hw]

/-- A non-empty target that names neither a branch nor a commit file leaves the state as it
was. -/
theorem checkout_unknown (s : Repo) (t : Bytes) (hbranch : s.branches.contains t = false)
    (hcommit : s.commitFiles.contains t = false) (ht : t ≠ []) :
    checkout t s = s := by
  simp [checkout, hbranch, commitPathExists, ht, hcommit]

/-- C12, evaluated at the empty target in scenario S4: the empty string names neither a
branch nor a commit file, HEAD is symbolic on `main`; yet `checkout ""` passes the test
`fs::exists(commitsDir + "/" + target)` (the path is the commits directory), clears the
current branch and overwrites the HEAD file with a lone line feed, after which the current
commit reads as the empty string. -/
theorem C12_checkout_empty_target_rewrites_head :
    exFastForward.branches.contains [] = false
    ∧ exFastForward.commitFiles.contains [] = false
    ∧ exFastForward.currentBranch = lit "main"
    ∧ exFastForward.headFile = some (lit "ref: refs/heads/main\n")
    ∧ getCurrentCommitHash exFastForward = lit "58973957bbdc448f"
    ∧ commitPathExists exFastForward [] = true
    ∧ (checkout [] exFastForward).currentBranch = []
    ∧ (checkout [] exFastForward).headFile = some (lit "\n")
    ∧ getCurrentCommitHash (checkout [] exFastForward) = [] := by
  refine ⟨by decide, by decide, by decide, by decide, by decide, by decide, by decide,
    by decide, by decide⟩

/-! ## C16: `computeHash` and FNV-1a -/

theorem hashStep_eq_spec (hash : Nat) (byte : Byte) (h : byte.val < 128) :
    hashStep hash byte = fnv1a64Step hash byte := by
  unfold hashStep charToU64 fnv_prime fnv1a64Step
  rw [if_pos h]

theorem foldl_hashStep_eq_spec (content : Bytes) (acc : Nat) (h : ∀ b ∈ content, b.val < 128) :
    content.foldl hashStep acc = content.foldl fnv1a64Step acc := by
  induction content generalizing acc with
  | nil => rw [List.foldl_nil, List.foldl_nil]
  | cons b rest ih =>
    have hb := hashStep_eq_spec acc b (h b (List.mem_cons_self _ _))
    have hrest := ih (fnv1a64Step acc b) (fun x hx => h x (List.mem_cons_of_mem _ hx))
    rw [List.foldl_cons, List.foldl_cons, hb]
    exact hrest

/-- On bytes below 128 `computeHash` is the standard FNV-1a. -/
theorem computeHash_eq_spec_of_ascii (content : Bytes) (h : ∀ b ∈ content, b.val < 128) :
    computeHash content = fnv1a64SpecHex content := by
  unfold computeHash fnv1a64SpecHex fnv1a64Spec
  rw [foldl_hashStep_eq_spec content fnv_offset h]
  unfold fnv_offset
  exact Eq.refl _

/-- C16, evaluated at the one-byte string `0x80`: `computeHash` XORs the sign-extended
`char` (`0xffffffffffffff80`) into the hash and returns `509c0cb379fdec5f`, while the
standard FNV-1a, which XORs the unsigned byte value 128, is `af643d4c8602915f`.  On the
empty string both are `cbf29ce484222325`. -/
theorem C16_computeHash_sign_extends_high_bytes :
    charToU64 128 = 0xffffffffffffff80
    ∧ computeHash [128] = lit "509c0cb379fdec5f"
    ∧ fnv1a64SpecHex [128] = lit "af643d4c8602915f"
    ∧ computeHash [128] ≠ fnv1a64SpecHex [128]
    ∧ computeHash [] = lit "cbf29ce484222325"
    ∧ fnv1a64SpecHex [] = lit "cbf29ce484222325" := by
  refine ⟨by decide, by decide, by decide, by decide, by decide, by decide⟩

/-! ## C18: what the commit hash is the hash of -/

/-- C18 fails on scenario S1: the root commit made by `init` is stored under
`2cd4011fda977384` and the commit made by `commit` under `58973957bbdc448f`, while hashing
the bytes of the two commit files gives `e0a8fdc01a384ac9` and `064a9048367cc2ec`. -/
theorem C18_counterexample :
    runS1.map (fun s => s.commitFiles)
      = some [(lit "2cd4011fda977384", lit "Initial commit\nT0\n---\n"),
          (lit "58973957bbdc448f", lit "c1\nT1\n2cd4011fda977384\n---\na.txt:a9bc80cca21f28b3\n")]
    ∧ computeHash (lit "Initial commit\nT0\n---\n") = lit "e0a8fdc01a384ac9"
    ∧ computeHash (lit "c1\nT1\n2cd4011fda977384\n---\na.txt:a9bc80cca21f28b3\n")
        = lit "064a9048367cc2ec"
    ∧ computeHash (lit "Initial commit\nT0\n---\n") ≠ lit "2cd4011fda977384"
    ∧ computeHash (lit "c1\nT1\n2cd4011fda977384\n---\na.txt:a9bc80cca21f28b3\n")
        ≠ lit "58973957bbdc448f" := by
  refine ⟨by decide, by decide, by decide, by decide, by decide⟩

theorem buildCommit_hash (message now : Bytes) (s : Repo) (c : Commit)
    (h : buildCommit message now s = some c) :
    c.hash = computeHash (commitData c.message c.timestamp c.parentHashes c.fileMap) ∧
      StrMap.Sorted c.fileMap ∧ c.message = message ∧ c.timestamp = now := by
  have hsorted0 : StrMap.Sorted ([] : StrMap) := StrMap.sorted_nil
  unfold buildCommit at h
  by_cases hcur : getCurrentCommitHash s = []
  · simp only [hcur, ne_eq, not_true_eq_false, if_false, Option.some.injEq] at h
    rw [← h]
    exact ⟨rfl, sorted_overlay _ _ hsorted0, rfl, rfl⟩
  · simp only [hcur, ne_eq, not_false_eq_true, if_true] at h
    cases hp : readCommit s (getCurrentCommitHash s) with
    | none => rw [hp] at h; simp at h
    | some parent =>
      rw [hp] at h
      simp only [Option.some.injEq] at h
      rw [← h]
      exact ⟨rfl, sorted_overlay _ _ (readCommit_fileMap_sorted s _ parent hp), rfl, rfl⟩

/-- C18, amended. The root commit made by `init` is stored under the hash of the message
followed by the timestamp.  A commit made by `commit` is stored (in the commit file format)
under the hash of the concatenation, without separators or line feeds, of message,
timestamp, the parents in order and, for each tree entry in ascending path order, the path
followed by the blob hash; the current branch is set to that hash. -/
theorem C18_commit_hash_is_hash_of_commitData (d s s' : Repo) (now0 message now : Bytes)
    (hd : d.gitDirExists = false)
    (hindex : persistedIndex s ≠ [])
    (hcommit : commit message now s = some s') :
    (readFile (init now0 d).commitFiles (computeHash (lit "Initial commit" ++ now0))
        = some (commitText { hash := computeHash (lit "Initial commit" ++ now0),
                             message := lit "Initial commit", timestamp := now0,
                             parentHashes := [], fileMap := [] })) ∧
      (∃ c : Commit,
        readFile s'.commitFiles c.hash = some (commitText c) ∧
        c.message = message ∧ c.timestamp = now ∧
        c.hash = computeHash (commitData c.message c.timestamp c.parentHashes c.fileMap) ∧
        StrMap.Sorted c.fileMap ∧
        s'.branches.find s.currentBranch = some c.hash) := by
  constructor
  · have hne : computeHash (lit "Initial commit" ++ now0) ≠ [] :=
      isHash_ne_nil _ (computeHash_isHash _)
    simp only [init, hd, Bool.false_eq_true, if_false, updateBranch, writeCommit, emptyCommit]
    exact readFile_writeFile_self _ _ _ hne
  · simp only [commit, loadStagingArea_eq, hindex, if_false] at hcommit
    cases hb : buildCommit message now { s with stagingArea := persistedIndex s } with
    | none => rw [hb] at hcommit; simp at hcommit
    | some c =>
      rw [hb] at hcommit
      simp only [Option.some.injEq] at hcommit
      obtain ⟨hhash, hsorted, hmsg, hts⟩ := buildCommit_hash message now _ c hb
      have hne : c.hash ≠ [] := by
        rw [hhash]; exact isHash_ne_nil _ (computeHash_isHash _)
      refine ⟨c, ?_, hmsg, hts, hhash, hsorted, ?_⟩
      · rw [← hcommit]
        simp only [persistStagingArea, updateBranch, writeCommit]
        exact readFile_writeFile_self _ _ _ hne
      · rw [← hcommit]
        simp [persistStagingArea, updateBranch, writeCommit, StrMap.find_set]

/-- Witness of the amended C18: `init` in an empty directory and the first commit of
scenario S1. -/
theorem C18_commit_hash_is_hash_of_commitData_witness :
    (readFile (init (lit "T0") exEmptyDir).commitFiles
        (computeHash (lit "Initial commit" ++ lit "T0"))
        = some (commitText { hash := computeHash (lit "Initial commit" ++ lit "T0"),
                             message := lit "Initial commit", timestamp := lit "T0",
                             parentHashes := [], fileMap := [] })) ∧
      (∃ c : Commit,
        readFile exCommitted.commitFiles c.hash = some (commitText c) ∧
        c.message = lit "c1" ∧ c.timestamp = lit "T1" ∧
        c.hash = computeHash (commitData c.message c.timestamp c.parentHashes c.fileMap) ∧
        StrMap.Sorted c.fileMap ∧
        exCommitted.branches.find exStaged.currentBranch = some c.hash) :=
  C18_commit_hash_is_hash_of_commitData exEmptyDir exStaged exCommitted
    (lit "T0") (lit "c1") (lit "T1") (by decide) (by decide) (by decide)

/-! ## C19: the postcondition of `init` -/

/-- C19. In a directory without repository, for a freshly constructed object and a
single-line timestamp, `init` leaves a commit store with exactly one commit file, which
reads as a commit with message "Initial commit", no parents and an empty tree; the branch
set, in memory and in `refs/heads`, is exactly `main` pointing at that commit's hash; HEAD
is symbolic on `main` with file content "ref: refs/heads/main\n"; and the index is empty in
memory and on disk. -/
theorem C19_init_postcondition (s : Repo) (now : Bytes)
    (hfresh : FreshObject s) (hnow : NL ∉ now) :
    ∃ h text,
      (init now s).commitFiles = [(h, text)] ∧
      readCommit (init now s) h = some
        { hash := h, message := lit "Initial commit", timestamp := now,
          parentHashes := [], fileMap := [] } ∧
      (init now s).branches = [(lit "main", h)] ∧
      (init now s).headsFiles = [(lit "main", h)] ∧
      (init now s).currentBranch = lit "main" ∧
      (init now s).headFile = some (lit "ref: refs/heads/main\n") ∧
      (init now s).stagingArea = [] ∧
      (init now s).indexFile = some [] ∧
      persistedIndex (init now s) = [] := by
  obtain ⟨hd, _, hbr, hst⟩ := hfresh
  have hne : computeHash (lit "Initial commit" ++ now) ≠ [] :=
    isHash_ne_nil _ (computeHash_isHash _)
  have hmain : lit "main" ≠ [] := by decide
  have hstor : Commit.Storable
      { hash := computeHash (lit "Initial commit" ++ now), message := lit "Initial commit",
        timestamp := now, parentHashes := [], fileMap := [] } := by
    refine ⟨?_, hnow, ?_, clean_nil, StrMap.sorted_nil⟩
    · show NL ∉ lit "Initial commit"
      decide
    · intro p hp
      cases hp
  have hinit : init now s =
      { s with
        gitDirExists := true
        objectFiles := []
        commitFiles := [(computeHash (lit "Initial commit" ++ now),
          commitText { hash := computeHash (lit "Initial commit" ++ now),
                       message := lit "Initial commit", timestamp := now,
                       parentHashes := [], fileMap := [] })]
        currentBranch := lit "main"
        branches := [(lit "main", computeHash (lit "Initial commit" ++ now))]
        headsFiles := [(lit "main", computeHash (lit "Initial commit" ++ now))]
        headFile := some (lit "ref: refs/heads/main" ++ [NL])
        indexFile := some [] } := by
    simp [init, hd, hbr, updateBranch, writeCommit, emptyCommit, writeFile, hne, hmain,
      StrMap.set, StrMap.get, StrMap.find]
  refine ⟨_, _, by rw [hinit], ?_, by rw [hinit], by rw [hinit], by rw [hinit], ?_,
    by rw [hinit]; exact hst, by rw [hinit], ?_⟩
  · rw [hinit]
    simp only [readCommit, readFile, hne, if_false, StrMap.find, if_true]
    rw [parseCommit_commitText _ hstor]
  · rw [hinit]
    rfl
  · rw [hinit]
    simp [persistedIndex, loadStagingArea, readEntries, getlines]

/-- Witness of C19: `init` in the empty directory of the scenarios. -/
theorem C19_init_postcondition_witness :
    ∃ h text,
      (init (lit "T0") exEmptyDir).commitFiles = [(h, text)] ∧
      readCommit (init (lit "T0") exEmptyDir) h = some
        { hash := h, message := lit "Initial commit", timestamp := lit "T0",
          parentHashes := [], fileMap := [] } ∧
      (init (lit "T0") exEmptyDir).branches = [(lit "main", h)] ∧
      (init (lit "T0") exEmptyDir).headsFiles = [(lit "main", h)] ∧
      (init (lit "T0") exEmptyDir).currentBranch = lit "main" ∧
      (init (lit "T0") exEmptyDir).headFile = some (lit "ref: refs/heads/main\n") ∧
      (init (lit "T0") exEmptyDir).stagingArea = [] ∧
      (init (lit "T0") exEmptyDir).indexFile = some [] ∧
      persistedIndex (init (lit "T0") exEmptyDir) = [] :=
  C19_init_postcondition exEmptyDir (lit "T0") ⟨rfl, rfl, rfl, rfl⟩ (by decide)

/-! ## Lemmas: the invariant of a run -/

theorem readCommit_congr (s s' : Repo) (h : s'.commitFiles = s.commitFiles) (x : Bytes) :
    readCommit s' x = readCommit s x := by
  simp [readCommit, h]

theorem persistedIndex_congr (s s' : Repo) (h : s'.indexFile = s.indexFile) :
    persistedIndex s' = persistedIndex s := by
  unfold persistedIndex loadStagingArea
  rw [h]
  cases s.indexFile <;> rfl

/-- The store part of the invariant survives when every commit reads as before and no blob
disappears. -/
theorem store_invariant_ext (s s' : Repo) (hc : ∀ x, readCommit s' x = readCommit s x)
    (ho : ∀ blob, (readFile s.objectFiles blob).isSome = true →
      (readFile s'.objectFiles blob).isSome = true)
    (h : Closed s ∧ TreesGrow s ∧ CommitNamesAreHashes s) :
    Closed s' ∧ TreesGrow s' ∧ CommitNamesAreHashes s' := by
  obtain ⟨h1, h2, h3⟩ := h
  refine ⟨?_, ?_, ?_⟩
  · intro x c hx
    rw [hc] at hx
    refine ⟨fun p hp => ?_, fun path blob hb => ho blob ((h1 x c hx).2 path blob hb)⟩
    rw [hc]
    exact (h1 x c hx).1 p hp
  · intro x c p c' hx hp hp'
    rw [hc] at hx hp'
    exact h2 x c p c' hx hp hp'
  · intro x c hx
    rw [hc] at hx
    exact h3 x c hx

theorem store_invariant_mono (s s' : Repo) (hc : s'.commitFiles = s.commitFiles)
    (ho : ∀ blob, (readFile s.objectFiles blob).isSome = true →
      (readFile s'.objectFiles blob).isSome = true)
    (h : Closed s ∧ TreesGrow s ∧ CommitNamesAreHashes s) :
    Closed s' ∧ TreesGrow s' ∧ CommitNamesAreHashes s' :=
  store_invariant_ext s s' (readCommit_congr s s' hc) ho h

/-- The invariant only looks at the commit files, the blobs and the index. -/
theorem runInvariant_frame (s s' : Repo) (hc : s'.commitFiles = s.commitFiles)
    (ho : s'.objectFiles = s.objectFiles) (hs : s'.stagingArea = s.stagingArea)
    (hi : s'.indexFile = s.indexFile) (h : RunInvariant s) : RunInvariant s' := by
  obtain ⟨h1, h2, h3, h4, h5⟩ := h
  obtain ⟨g1, g2, g3⟩ := store_invariant_mono s s' hc (fun blob hb => by rw [ho]; exact hb)
    ⟨h1, h2, h3⟩
  refine ⟨g1, g2, g3, ?_, ?_⟩
  · rw [persistedIndex_congr s s' hi, hs]
    exact h4
  · intro path blob hb
    rw [hs] at hb
    rw [ho]
    exact h5 path blob hb

theorem readFile_writeFile_isSome (dir : StrMap) (name content k : Bytes)
    (h : (readFile dir k).isSome = true) :
    (readFile (writeFile dir name content) k).isSome = true := by
  by_cases hk : k = name
  · subst hk
    have hk0 : k ≠ [] := by
      intro e
      simp [readFile, e] at h
    rw [readFile_writeFile_self _ _ _ hk0]
    rfl
  · rw [readFile_writeFile_ne _ _ _ _ hk]
    exact h

theorem runInvariant_edit (s : Repo) (files : StrMap) (h : RunInvariant s) :
    RunInvariant { s with workFiles := files } :=
  runInvariant_frame s _ rfl rfl rfl rfl h

theorem runInvariant_branch (s : Repo) (b : Bytes) (h : RunInvariant s) :
    RunInvariant (branch b s) := by
  unfold branch
  by_cases hb : s.branches.contains b = true
  · rw [if_pos hb]; exact h
  · rw [if_neg hb]
    exact runInvariant_frame s _ rfl rfl rfl rfl h

theorem runInvariant_checkout (s : Repo) (t : Bytes) (h : RunInvariant s) :
    RunInvariant (checkout t s) := by
  obtain ⟨cb, hf, w, hco⟩ := checkout_frame t s
  rw [hco]
  exact runInvariant_frame s _ rfl rfl rfl rfl h

theorem loadState_frame (r : Repo) :
    ∃ cb br, loadState r =
      { r with currentBranch := cb, branches := br, stagingArea := persistedIndex r } := by
  have key : ∀ s1 : Repo, (∃ cb, s1 = { r with currentBranch := cb }) →
      ∃ cb br, loadStagingArea { s1 with branches := loadBranches s1.branches s1.headsFiles } =
        { r with currentBranch := cb, branches := br, stagingArea := persistedIndex r } := by
    rintro s1 ⟨cb, rfl⟩
    refine ⟨cb, loadBranches r.branches r.headsFiles, ?_⟩
    have e : persistedIndex
        { ({ r with currentBranch := cb } : Repo) with
          branches := loadBranches r.branches r.headsFiles } = persistedIndex r :=
      persistedIndex_congr r _ rfl
    rw [loadStagingArea_eq]
    show ({ ({ r with currentBranch := cb } : Repo) with
          branches := loadBranches r.branches r.headsFiles,
          stagingArea := persistedIndex { ({ r with currentBranch := cb } : Repo) with
            branches := loadBranches r.branches r.headsFiles } } : Repo) = _
    rw [e]
  have hs1 : ∀ o : Option Bytes, ∃ cb,
      (match o with
        | none => r
        | some text =>
          let headRef := firstLine text
          if headRef.take 16 = lit "ref: refs/heads/" then
            { r with currentBranch := headRef.drop 16 }
          else r) = { r with currentBranch := cb } := by
    intro o
    cases o with
    | none => exact ⟨r.currentBranch, rfl⟩
    | some text =>
      by_cases hp : (firstLine text).take 16 = lit "ref: refs/heads/"
      · exact ⟨(firstLine text).drop 16, by simp only [hp, if_true]⟩
      · exact ⟨r.currentBranch, by simp only [hp, if_false]⟩
  obtain ⟨cb, hcb⟩ := hs1 r.headFile
  unfold loadState
  simp only []
  rw [hcb]
  exact key _ ⟨cb, rfl⟩

theorem runInvariant_restart (s : Repo) (h : RunInvariant s) : RunInvariant (restart s) := by
  obtain ⟨h1, h2, h3, h4, h5⟩ := h
  obtain ⟨cb, br, hl⟩ := loadState_frame
    { s with currentBranch := [], branches := [], stagingArea := [], inMergeState := false,
             mergeTargetBranch := [] }
  have e5 : persistedIndex
      { s with currentBranch := [], branches := [], stagingArea := [], inMergeState := false,
               mergeTargetBranch := [] } = persistedIndex s :=
    persistedIndex_congr s _ rfl
  have hr : restart s =
      { s with currentBranch := cb, branches := br, stagingArea := persistedIndex s,
               inMergeState := false, mergeTargetBranch := [] } := by
    unfold restart
    rw [hl, e5]
  rw [hr]
  obtain ⟨g1, g2, g3⟩ := store_invariant_mono s
    { s with currentBranch := cb, branches := br, stagingArea := persistedIndex s,
             inMergeState := false, mergeTargetBranch := [] } rfl (fun blob hb => hb)
    ⟨h1, h2, h3⟩
  refine ⟨g1, g2, g3, ?_, ?_⟩
  · exact persistedIndex_congr s _ rfl
  · intro path blob hb
    have hb' : (persistedIndex s).find path = some blob := hb
    rw [h4] at hb'
    exact h5 path blob hb'

theorem runInvariant_add (s : Repo) (filename : Bytes) (hcolon : COLON ∉ filename)
    (hnl : NL ∉ filename) (h : RunInvariant s) : RunInvariant (add filename s) := by
  cases hfile : readFile s.workFiles filename with
  | none =>
    have e : add filename s = s := by simp [add, hfile]
    rw [e]; exact h
  | some content =>
    obtain ⟨h1, h2, h3, h4, h5⟩ := h
    rw [add_eq s filename content hfile]
    obtain ⟨g1, g2, g3⟩ := store_invariant_mono s
      { s with
        stagingArea := s.stagingArea.set filename (computeHash content)
        indexFile := some (writeEntries (s.stagingArea.set filename (computeHash content)))
        objectFiles := writeFile s.objectFiles (computeHash content) content }
      rfl (fun blob hb => readFile_writeFile_isSome s.objectFiles (computeHash content) content
        blob hb) ⟨h1, h2, h3⟩
    refine ⟨g1, g2, g3, ?_, ?_⟩
    · show readEntries [] (getlines (writeEntries (s.stagingArea.set filename
        (computeHash content)))) = s.stagingArea.set filename (computeHash content)
      apply readEntries_writeEntries
      · exact clean_set _ _ _ (sync_clean s h4) hcolon hnl
          (isHash_no_nl _ (computeHash_isHash content))
      · exact StrMap.sorted_set _ _ _ (sync_sorted s h4)
    · intro path blob hb
      have hb' : (s.stagingArea.set filename (computeHash content)).find path = some blob := hb
      show (readFile (writeFile s.objectFiles (computeHash content) content) blob).isSome = true
      rw [StrMap.find_set] at hb'
      by_cases hp : path = filename
      · rw [if_pos hp] at hb'
        cases hb'
        rw [readFile_writeFile_self _ _ _ (isHash_ne_nil _ (computeHash_isHash content))]
        rfl
      · rw [if_neg hp] at hb'
        exact readFile_writeFile_isSome _ _ _ _ (h5 path blob hb')

theorem loadStagingArea_of_sync (s : Repo) (h : persistedIndex s = s.stagingArea) :
    loadStagingArea s = s := by
  rw [loadStagingArea_eq, h]

/-- The two ways `commit` returns: nothing staged, or a commit built and written. -/
theorem commit_cases (s s' : Repo) (message now : Bytes)
    (hsync : persistedIndex s = s.stagingArea) (h : commit message now s = some s') :
    s' = s ∨ ∃ c, buildCommit message now s = some c ∧
      s'.commitFiles = writeFile s.commitFiles c.hash (commitText c) ∧
      s'.objectFiles = s.objectFiles ∧ s'.stagingArea = [] ∧ s'.indexFile = some [] := by
  unfold commit at h
  rw [loadStagingArea_of_sync s hsync] at h
  simp only [] at h
  by_cases he : s.stagingArea = []
  · rw [if_pos he] at h
    left
    exact (Option.some.inj h).symm
  · rw [if_neg he] at h
    right
    cases hb : buildCommit message now s with
    | none => rw [hb] at h; cases h
    | some c =>
      rw [hb] at h
      refine ⟨c, rfl, ?_⟩
      have h' := Option.some.inj h
      rw [← h']
      exact ⟨rfl, rfl, rfl, rfl⟩

/-- The record `commit` builds: no parent and the staged tree, or the current commit as
only parent and its tree overlaid with the staged entries. -/
theorem buildCommit_cases (message now : Bytes) (s : Repo) (c : Commit)
    (h : buildCommit message now s = some c) :
    (c.parentHashes = [] ∧ c.fileMap = overlay [] s.stagingArea) ∨
      ∃ P parent, readCommit s P = some parent ∧ c.parentHashes = [P] ∧
        c.fileMap = overlay parent.fileMap s.stagingArea := by
  unfold buildCommit at h
  by_cases hcur : getCurrentCommitHash s = []
  · simp only [hcur, ne_eq, not_true_eq_false, if_false, Option.some.injEq] at h
    rw [← h]
    exact Or.inl ⟨rfl, rfl⟩
  · simp only [hcur, ne_eq, not_false_eq_true, if_true] at h
    cases hp : readCommit s (getCurrentCommitHash s) with
    | none => rw [hp] at h; simp at h
    | some parent =>
      rw [hp] at h
      simp only [Option.some.injEq] at h
      rw [← h]
      exact Or.inr ⟨_, parent, hp, rfl, rfl⟩

theorem readCommit_writeFile_self (s s' : Repo) (c : Commit) (hh : c.hash ≠ [])
    (hst : c.Storable)
    (hc : s'.commitFiles = writeFile s.commitFiles c.hash (commitText c)) :
    readCommit s' c.hash = some c := by
  unfold readCommit
  rw [hc, readFile_writeFile_self _ _ _ hh]
  simp only []
  rw [parseCommit_commitText c hst]

theorem readCommit_writeFile_ne (s s' : Repo) (name text x : Bytes) (hx : x ≠ name)
    (hc : s'.commitFiles = writeFile s.commitFiles name text) :
    readCommit s' x = readCommit s x := by
  unfold readCommit
  rw [hc, readFile_writeFile_ne _ _ _ _ hx]

theorem contains_overlay (a b : StrMap) (hb : StrMap.Sorted b) (k : Bytes)
    (h : a.contains k = true) : (overlay a b).contains k = true := by
  unfold StrMap.contains at h ⊢
  rw [find_overlay a b hb k]
  cases hf : b.find k with
  | none => exact h
  | some v => rfl

theorem runInvariant_commit (s s' : Repo) (message now : Bytes) (hmsg : NL ∉ message)
    (hnow : NL ∉ now) (hcoll : NoCollision message now s)
    (hcommit : commit message now s = some s') (h : RunInvariant s) : RunInvariant s' := by
  obtain ⟨h1, h2, h3, h4, h5⟩ := h
  rcases commit_cases s s' message now h4 hcommit with e | ⟨c, hb, hcf, hof, hst, hif⟩
  · rw [e]; exact ⟨h1, h2, h3, h4, h5⟩
  · obtain ⟨hhash, hsorted, hm, ht⟩ := buildCommit_hash message now s c hb
    have hH : isHash c.hash = true := by rw [hhash]; exact computeHash_isHash _
    have hH0 : c.hash ≠ [] := isHash_ne_nil _ hH
    have hstage_sorted : StrMap.Sorted s.stagingArea := sync_sorted s h4
    have hstage_clean : Clean s.stagingArea := sync_clean s h4
    have hparents : ∀ p ∈ c.parentHashes, ∃ parent, readCommit s p = some parent ∧
        ∀ path, parent.fileMap.contains path = true → c.fileMap.contains path = true := by
      intro p hp
      rcases buildCommit_cases message now s c hb with ⟨e1, _⟩ | ⟨P, parent, hP, e1, e2⟩
      · rw [e1] at hp; cases hp
      · rw [e1] at hp
        rw [List.mem_singleton] at hp
        subst hp
        refine ⟨parent, hP, fun path hpath => ?_⟩
        rw [e2]
        exact contains_overlay _ _ hstage_sorted _ hpath
    have htree : ∀ path blob, c.fileMap.find path = some blob →
        (readFile s.objectFiles blob).isSome = true := by
      intro path blob hf
      rcases buildCommit_cases message now s c hb with ⟨_, e2⟩ | ⟨P, parent, hP, _, e2⟩
      · rw [e2, find_overlay _ _ hstage_sorted] at hf
        cases hs : s.stagingArea.find path with
        | none => rw [hs] at hf; cases hf
        | some v =>
          rw [hs] at hf
          cases hf
          exact h5 path blob hs
      · rw [e2, find_overlay _ _ hstage_sorted] at hf
        cases hs : s.stagingArea.find path with
        | none =>
          rw [hs] at hf
          exact (h1 P parent hP).2 path blob hf
        | some v =>
          rw [hs] at hf
          cases hf
          exact h5 path blob hs
    have hclean : Clean c.fileMap := by
      rcases buildCommit_cases message now s c hb with ⟨_, e2⟩ | ⟨P, parent, hP, _, e2⟩
      · rw [e2]; exact clean_overlay _ _ clean_nil hstage_clean
      · rw [e2]; exact clean_overlay _ _ (readCommit_fileMap_clean s P parent hP) hstage_clean
    have hstorable : c.Storable := by
      refine ⟨by rw [hm]; exact hmsg, by rw [ht]; exact hnow, ?_, hclean, hsorted⟩
      intro p hp
      obtain ⟨parent, hP, _⟩ := hparents p hp
      exact ⟨isHash_no_nl _ (h3 p parent hP), isHash_ne_sep _ (h3 p parent hP)⟩
    have hself : readCommit s' c.hash = some c :=
      readCommit_writeFile_self s s' c hH0 hstorable hcf
    have hother : ∀ x, x ≠ c.hash → readCommit s' x = readCommit s x :=
      fun x hx => readCommit_writeFile_ne s s' _ _ x hx hcf
    have hindex : IndexStored s' := by
      refine ⟨?_, ?_⟩
      · rw [hst]
        unfold persistedIndex loadStagingArea
        rw [hif]
        rfl
      · intro path blob hf
        rw [hst] at hf
        cases hf
    rcases hcoll c (by rw [loadStagingArea_of_sync s h4]; exact hb) with hfresh | hsame
    · have hnone : readCommit s c.hash = none := by
        unfold readCommit
        rw [hfresh]
      have hpne : ∀ p, (readCommit s p).isSome = true → p ≠ c.hash := by
        intro p hp e
        rw [e, hnone] at hp
        cases hp
      refine ⟨?_, ?_, ?_, hindex⟩
      · intro x cx hx
        by_cases hxc : x = c.hash
        · subst hxc
          rw [hself] at hx
          cases hx
          refine ⟨fun p hp => ?_, fun path blob hf => ?_⟩
          · obtain ⟨parent, hP, _⟩ := hparents p hp
            have hne : p ≠ c.hash := hpne p (by rw [hP]; rfl)
            rw [hother p hne, hP]
            rfl
          · rw [hof]
            exact htree path blob hf
        · rw [hother x hxc] at hx
          refine ⟨fun p hp => ?_, fun path blob hf => ?_⟩
          · have hp1 := (h1 x cx hx).1 p hp
            rw [hother p (hpne p hp1)]
            exact hp1
          · rw [hof]
            exact (h1 x cx hx).2 path blob hf
      · intro x cx p cp hx hp hpr
        by_cases hxc : x = c.hash
        · subst hxc
          rw [hself] at hx
          cases hx
          obtain ⟨parent, hP, hgrow⟩ := hparents p hp
          have hne : p ≠ c.hash := hpne p (by rw [hP]; rfl)
          rw [hother p hne, hP] at hpr
          cases hpr
          exact hgrow
        · rw [hother x hxc] at hx
          have hp1 := (h1 x cx hx).1 p hp
          rw [hother p (hpne p hp1)] at hpr
          exact h2 x cx p cp hx hp hpr
      · intro x cx hx
        by_cases hxc : x = c.hash
        · rw [hxc]; exact hH
        · rw [hother x hxc] at hx
          exact h3 x cx hx
    · have hext : ∀ x, readCommit s' x = readCommit s x := by
        intro x
        by_cases hxc : x = c.hash
        · rw [hxc, hself]
          unfold readCommit
          rw [hsame]
          simp only []
          rw [parseCommit_commitText c hstorable]
        · exact hother x hxc
      obtain ⟨g1, g2, g3⟩ := store_invariant_ext s s' hext
        (fun blob hbl => by rw [hof]; exact hbl) ⟨h1, h2, h3⟩
      exact ⟨g1, g2, g3, hindex⟩

theorem reaches_pushParents (s : Repo) (a current : Bytes) (stack : List Bytes)
    (hcur : Reaches s a current) (hstack : ∀ x ∈ stack, Reaches s a x) :
    ∀ x ∈ pushParents s current stack, Reaches s a x := by
  intro x hx
  unfold pushParents at hx
  cases hc : readCommit s current with
  | none =>
    rw [hc] at hx
    exact hstack x hx
  | some c =>
    rw [hc] at hx
    simp only [List.mem_append, List.mem_reverse] at hx
    rcases hx with hx | hx
    · exact Relation.ReflTransGen.tail hcur ⟨c, hc, hx⟩
    · exact hstack x hx

/-- Everything the first loop of `findLCA` collects is the start commit or one of its
ancestors. -/
theorem collectAncestors_sound (s : Repo) (a : Bytes) :
    ∀ (fuel : Nat) (stack : List Bytes) (acc res : StrSet),
      (∀ x ∈ stack, Reaches s a x) → (∀ x ∈ acc, Reaches s a x) →
      collectAncestors s fuel stack acc = some res → ∀ x ∈ res, Reaches s a x := by
  intro fuel
  induction fuel with
  | zero =>
    intro stack acc res hstack hacc h
    cases stack with
    | nil =>
      rw [collectAncestors_nil] at h
      cases h
      exact hacc
    | cons current rest => simp [collectAncestors] at h
  | succ n ih =>
    intro stack acc res hstack hacc h
    cases stack with
    | nil =>
      rw [collectAncestors_nil] at h
      cases h
      exact hacc
    | cons current rest =>
      rw [collectAncestors_step] at h
      have hcur : Reaches s a current := hstack current (List.mem_cons_self _ _)
      refine ih _ _ res (reaches_pushParents s a current rest hcur
        (fun x hx => hstack x (List.mem_cons_of_mem _ hx))) ?_ h
      intro x hx
      rcases (mem_strSet_insert acc current x).mp hx with e | hx'
      · rw [e]; exact hcur
      · exact hacc x hx'

/-- The value of the second loop of `findLCA` is the empty string or a member of the
collected set that the start commit reaches. -/
theorem searchCommon_sound (s : Repo) (b : Bytes) (ancestors : StrSet) :
    ∀ (fuel : Nat) (stack : List Bytes) (r : Bytes),
      (∀ x ∈ stack, Reaches s b x) →
      searchCommon s ancestors fuel stack = some r → r = [] ∨ (r ∈ ancestors ∧ Reaches s b r) := by
  intro fuel
  induction fuel with
  | zero =>
    intro stack r hstack h
    cases stack with
    | nil => simp [searchCommon] at h; exact Or.inl h
    | cons current rest => simp [searchCommon] at h
  | succ n ih =>
    intro stack r hstack h
    cases stack with
    | nil => simp [searchCommon] at h; exact Or.inl h
    | cons current rest =>
      have hcur : Reaches s b current := hstack current (List.mem_cons_self _ _)
      unfold searchCommon at h
      by_cases hin : ancestors.contains current = true
      · rw [if_pos hin] at h
        cases h
        exact Or.inr ⟨by simpa using hin, hcur⟩
      · rw [if_neg hin] at h
        exact ih _ r (reaches_pushParents s b current rest hcur
          (fun x hx => hstack x (List.mem_cons_of_mem _ hx))) h

/-- The base `findLCA` returns is the empty string or a commit that both arguments reach. -/
theorem findLCA_sound (fuel : Nat) (s : Repo) (a b r : Bytes)
    (h : findLCA fuel s a b = some r) : r = [] ∨ (Reaches s a r ∧ Reaches s b r) := by
  unfold findLCA at h
  cases hc : collectAncestors s fuel [a] [] with
  | none => rw [hc] at h; cases h
  | some ancestors =>
    rw [hc] at h
    have hanc := collectAncestors_sound s a fuel [a] [] ancestors
      (fun x hx => by rw [List.mem_singleton] at hx; rw [hx]; exact Relation.ReflTransGen.refl)
      (fun x hx => by cases hx) hc
    rcases searchCommon_sound s b ancestors fuel [b] r
      (fun x hx => by rw [List.mem_singleton] at hx; rw [hx]; exact Relation.ReflTransGen.refl)
      h with e | ⟨hmem, hreach⟩
    · exact Or.inl e
    · exact Or.inr ⟨hanc r hmem, hreach⟩

/-- In a store whose trees grow along parent edges, a commit tracks every path that a commit
it reaches tracks. -/
theorem tree_grows_along_reaches (s : Repo) (hgrow : TreesGrow s)
    (x y : Bytes) (hreach : Reaches s x y) :
    ∀ cx cy, readCommit s x = some cx → readCommit s y = some cy →
      ∀ path, cy.fileMap.contains path = true → cx.fileMap.contains path = true := by
  induction hreach with
  | refl =>
    intro cx cy hx hy path hp
    rw [hx] at hy
    cases hy
    exact hp
  | tail hxy hyz ih =>
    rename_i y z
    intro cx cz hx hz path hp
    obtain ⟨cy, hy, hmem⟩ := hyz
    exact ih cx cy hx hy path (hgrow y cy z cz hy hmem hz path hp)

theorem threeWayMerge_unreadable (s : Repo) (cur tgt base : Bytes)
    (h : readCommit s base = none ∨ readCommit s cur = none ∨ readCommit s tgt = none) :
    threeWayMerge s cur tgt base = s := by
  unfold threeWayMerge
  rcases h with h | h | h
  · rw [h]
  · rw [h]
    cases readCommit s base <;> rfl
  · rw [h]
    cases readCommit s base <;> cases readCommit s cur <;> rfl

theorem threeWayMerge_frame (s : Repo) (cur tgt base : Bytes) :
    (threeWayMerge s cur tgt base).commitFiles = s.commitFiles ∧
      (threeWayMerge s cur tgt base).objectFiles = s.objectFiles := by
  cases hb : readCommit s base with
  | none => rw [threeWayMerge_unreadable s cur tgt base (Or.inl hb)]; exact ⟨rfl, rfl⟩
  | some b =>
    cases hc : readCommit s cur with
    | none => rw [threeWayMerge_unreadable s cur tgt base (Or.inr (Or.inl hc))]; exact ⟨rfl, rfl⟩
    | some c =>
      cases ht : readCommit s tgt with
      | none =>
        rw [threeWayMerge_unreadable s cur tgt base (Or.inr (Or.inr ht))]; exact ⟨rfl, rfl⟩
      | some t =>
        rw [threeWayMerge_eq s cur tgt base b c t hb hc ht]
        obtain ⟨st, w, e⟩ := mergeFold_frame b c t (allFiles b c t) s
        rw [e]
        exact ⟨rfl, rfl⟩

/-- A path that one side of a merge does not track reads as empty there, so the side whose
hash is staged tracks the path whenever the base is an ancestor whose tree it extends. -/
theorem staged_side_tracks (s : Repo) (b side other : Commit) (path : Bytes)
    (hgrow : ∀ p, b.fileMap.contains p = true → side.fileMap.contains p = true)
    (hne : contentIn s other path ≠ contentIn s side path)
    (hbase : contentIn s b path = contentIn s other path) :
    ∃ v, side.fileMap.find path = some v := by
  cases hf : side.fileMap.find path with
  | some v => exact ⟨v, rfl⟩
  | none =>
    exfalso
    have hside : contentIn s side path = [] := contentIn_none s side path hf
    have hbfind : b.fileMap.find path = none := by
      cases hbf : b.fileMap.find path with
      | none => rfl
      | some w =>
        have hc := hgrow path (by unfold StrMap.contains; rw [hbf]; rfl)
        unfold StrMap.contains at hc
        rw [hf] at hc
        cases hc
    have hb0 : contentIn s b path = [] := contentIn_none s b path hbfind
    apply hne
    rw [← hbase, hb0, hside]

theorem runInvariant_threeWayMerge (s : Repo) (cur tgt base : Bytes)
    (hbase : base = [] ∨ (Reaches s cur base ∧ Reaches s tgt base)) (h : RunInvariant s) :
    RunInvariant (threeWayMerge s cur tgt base) := by
  cases hb : readCommit s base with
  | none => rw [threeWayMerge_unreadable s cur tgt base (Or.inl hb)]; exact h
  | some b =>
    cases hc : readCommit s cur with
    | none => rw [threeWayMerge_unreadable s cur tgt base (Or.inr (Or.inl hc))]; exact h
    | some c =>
      cases ht : readCommit s tgt with
      | none => rw [threeWayMerge_unreadable s cur tgt base (Or.inr (Or.inr ht))]; exact h
      | some t =>
        obtain ⟨h1, h2, h3, h4, h5⟩ := h
        have hreach : Reaches s cur base ∧ Reaches s tgt base := by
          rcases hbase with e | hr
          · rw [e] at hb
            simp [readCommit, readFile] at hb
          · exact hr
        have hgc := tree_grows_along_reaches s h2 cur base hreach.1 c b hc hb
        have hgt := tree_grows_along_reaches s h2 tgt base hreach.2 t b ht hb
        obtain ⟨hcf, hof⟩ := threeWayMerge_frame s cur tgt base
        obtain ⟨g1, g2, g3⟩ := store_invariant_mono s (threeWayMerge s cur tgt base) hcf
          (fun blob hbl => by rw [hof]; exact hbl) ⟨h1, h2, h3⟩
        refine ⟨g1, g2, g3, threeWayMerge_sync s cur tgt base b c t hb hc ht h4, ?_⟩
        intro path blob hf
        rw [hof]
        rw [threeWayMerge_staging s cur tgt base b c t hb hc ht path] at hf
        by_cases hin : path ∈ allFiles b c t
        · rw [if_pos hin] at hf
          unfold mergeCase at hf
          by_cases e1 : contentIn s c path = contentIn s t path
          · rw [if_pos e1] at hf
            exact h5 path blob hf
          · rw [if_neg e1] at hf
            by_cases e2 : contentIn s b path = contentIn s c path
            · rw [if_pos e2] at hf
              obtain ⟨v, hv⟩ := staged_side_tracks s b t c path hgt e1 e2
              simp only [StrMap.get, hv, Option.getD_some, Option.some.injEq] at hf
              rw [← hf]
              exact (h1 tgt t ht).2 path v hv
            · rw [if_neg e2] at hf
              by_cases e3 : contentIn s b path = contentIn s t path
              · rw [if_pos e3] at hf
                obtain ⟨v, hv⟩ := staged_side_tracks s b c t path hgc (fun e => e1 e.symm) e3
                simp only [StrMap.get, hv, Option.getD_some, Option.some.injEq] at hf
                rw [← hf]
                exact (h1 cur c hc).2 path v hv
              · rw [if_neg e3] at hf
                exact h5 path blob hf
        · rw [if_neg hin] at hf
          exact h5 path blob hf

theorem runInvariant_merge (s s' : Repo) (fuel : Nat) (branchName : Bytes)
    (outcome : MergeOutcome) (hmerge : merge fuel branchName s = some (outcome, s'))
    (h : RunInvariant s) : RunInvariant s' := by
  unfold merge at hmerge
  by_cases hbr : s.branches.contains branchName = true
  · simp only [hbr, Bool.not_true, Bool.false_eq_true, if_false] at hmerge
    cases hl : findLCA fuel s (getCurrentCommitHash s) (s.branches.get branchName) with
    | none => rw [hl] at hmerge; cases hmerge
    | some base =>
      rw [hl] at hmerge
      simp only [] at hmerge
      by_cases e1 : base = s.branches.get branchName
      · rw [if_pos e1] at hmerge
        cases hmerge
        exact h
      · rw [if_neg e1] at hmerge
        by_cases e2 : base = getCurrentCommitHash s
        · rw [if_pos e2] at hmerge
          cases hmerge
          exact runInvariant_checkout s branchName h
        · rw [if_neg e2] at hmerge
          cases hmerge
          exact runInvariant_frame
            (threeWayMerge s (getCurrentCommitHash s) (s.branches.get branchName) base) _
            rfl rfl rfl rfl
            (runInvariant_threeWayMerge s _ _ base (findLCA_sound fuel s _ _ base hl) h)
  · have hbr' : s.branches.contains branchName = false := by
      cases hx : s.branches.contains branchName with
      | true => exact absurd hx hbr
      | false => rfl
    simp only [hbr', Bool.not_false, if_true] at hmerge
    cases hmerge
    exact h

/-- The state `init` leaves in a directory without repository. -/
theorem init_fresh_eq (s : Repo) (now : Bytes) (hfresh : FreshObject s) :
    init now s =
      { s with
        gitDirExists := true
        objectFiles := []
        commitFiles := [(computeHash (lit "Initial commit" ++ now),
          commitText { hash := computeHash (lit "Initial commit" ++ now),
                       message := lit "Initial commit", timestamp := now,
                       parentHashes := [], fileMap := [] })]
        currentBranch := lit "main"
        branches := [(lit "main", computeHash (lit "Initial commit" ++ now))]
        headsFiles := [(lit "main", computeHash (lit "Initial commit" ++ now))]
        headFile := some (lit "ref: refs/heads/main" ++ [NL])
        indexFile := some [] } := by
  obtain ⟨hd, _, hbr, _⟩ := hfresh
  have hne : computeHash (lit "Initial commit" ++ now) ≠ [] :=
    isHash_ne_nil _ (computeHash_isHash _)
  have hmain : lit "main" ≠ [] := by decide
  simp [init, hd, hbr, updateBranch, writeCommit, emptyCommit, writeFile, hne, hmain,
    StrMap.set, StrMap.get, StrMap.find]

theorem runInvariant_init (s : Repo) (now : Bytes) (hfresh : FreshObject s) (hnow : NL ∉ now) :
    RunInvariant (init now s) := by
  have hne : computeHash (lit "Initial commit" ++ now) ≠ [] :=
    isHash_ne_nil _ (computeHash_isHash _)
  have hstor : Commit.Storable
      { hash := computeHash (lit "Initial commit" ++ now), message := lit "Initial commit",
        timestamp := now, parentHashes := [], fileMap := [] } := by
    refine ⟨?_, hnow, ?_, clean_nil, StrMap.sorted_nil⟩
    · show NL ∉ lit "Initial commit"
      decide
    · intro p hp
      cases hp
  have hread : ∀ x c, readCommit (init now s) x = some c →
      x = computeHash (lit "Initial commit" ++ now) ∧ c.parentHashes = [] ∧ c.fileMap = [] := by
    intro x c hx
    rw [init_fresh_eq s now hfresh] at hx
    unfold readCommit readFile at hx
    by_cases hx0 : x = []
    · simp [hx0] at hx
    · by_cases hxe : x = computeHash (lit "Initial commit" ++ now)
      · subst hxe
        simp only [hx0, if_false, StrMap.find, if_true] at hx
        rw [parseCommit_commitText _ hstor] at hx
        cases hx
        exact ⟨rfl, rfl, rfl⟩
      · simp [hx0, StrMap.find, hxe] at hx
  refine ⟨?_, ?_, ?_, ?_, ?_⟩
  · intro x c hx
    obtain ⟨_, hp, hf⟩ := hread x c hx
    refine ⟨fun p hmem => ?_, fun path blob hfind => ?_⟩
    · rw [hp] at hmem; cases hmem
    · rw [hf] at hfind; cases hfind
  · intro x c p c' hx hmem _
    obtain ⟨_, hp, _⟩ := hread x c hx
    rw [hp] at hmem; cases hmem
  · intro x c hx
    rw [(hread x c hx).1]
    exact computeHash_isHash _
  · rw [init_fresh_eq s now hfresh]
    simp [persistedIndex, loadStagingArea, readEntries, getlines, hfresh.2.2.2]
  · intro path blob hfind
    rw [init_fresh_eq s now hfresh] at hfind
    have hfind' : s.stagingArea.find path = some blob := hfind
    rw [hfresh.2.2.2] at hfind'
    cases hfind'

/-- Every state of a run satisfies the invariant of a run. -/
theorem runInvariant_of_reachable (s : Repo) (h : Reachable s) : RunInvariant s := by
  induction h with
  | init d now hfresh hnow => exact runInvariant_init d now hfresh hnow
  | edit s files _ ih => exact runInvariant_edit s files ih
  | restart s _ ih => exact runInvariant_restart s ih
  | add s filename _ hcolon hnl ih => exact runInvariant_add s filename hcolon hnl ih
  | commit s s' message now _ hmsg hnow hcoll hcommit ih =>
    exact runInvariant_commit s s' message now hmsg hnow hcoll hcommit ih
  | branch s b _ ih => exact runInvariant_branch s b ih
  | checkout s t _ ih => exact runInvariant_checkout s t ih
  | merge s s' fuel b outcome _ hmerge ih => exact runInvariant_merge s s' fuel b outcome hmerge ih

/-- A commit whose hash names no commit file yet collides with nothing. -/
theorem noCollision_of_fresh (message now : Bytes) (s : Repo) (c0 : Commit)
    (hb : buildCommit message now (loadStagingArea s) = some c0)
    (hf : readFile s.commitFiles c0.hash = none) : NoCollision message now s := by
  intro c hc
  rw [hb] at hc
  cases hc
  exact Or.inl hf

/-- The store closure invariant holds along every run without colliding commits.  In every
state of a run that starts with `init` in a directory without repository and goes on with
`add`, `commit`, `branch`, `checkout` and `merge` in any order (with edits of the working
directory and new processes in between), where the added file names hold neither a colon
nor a line feed, the commit messages and timestamps are single-line, and no commit is
written over a different commit with the same hash: every parent hash recorded in a stored
commit is the name of a stored commit, and every blob hash in the tree of a stored commit is
the name of a stored blob. -/
theorem closed_of_reachable (s : Repo) (hreach : Reachable s) :
    ∀ h c, readCommit s h = some c →
      (∀ p ∈ c.parentHashes, (readCommit s p).isSome = true) ∧
      (∀ path blob, c.fileMap.find path = some blob →
        (readFile s.objectFiles blob).isSome = true) :=
  (runInvariant_of_reachable s hreach).1

/-! ## Examples: the scenarios are runs -/

theorem reachable_commit_fresh (s s' : Repo) (message now : Bytes) (c0 : Commit)
    (hr : Reachable s) (hmsg : NL ∉ message) (hnow : NL ∉ now)
    (hb : buildCommit message now (loadStagingArea s) = some c0)
    (hf : readFile s.commitFiles c0.hash = none)
    (hc : commit message now s = some s') : Reachable s' :=
  Reachable.commit s s' message now hr hmsg hnow (noCollision_of_fresh message now s c0 hb hf) hc

theorem exCommitted_reachable : Reachable exCommitted :=
  reachable_commit_fresh
    (add (lit "a.txt") (userWrite (lit "a.txt") (lit "hello\n") (init (lit "T0") exEmptyDir)))
    exCommitted (lit "c1") (lit "T1") exC1
    (Reachable.add _ (lit "a.txt")
      (Reachable.edit _ _ (Reachable.init exEmptyDir (lit "T0") ⟨rfl, rfl, rfl, rfl⟩
        (by decide)))
      (by decide) (by decide))
    (by decide) (by decide) (by decide) (by decide) (by decide)

/-- Scenario S2 before its merge is a run: after `c1` and `branch feat`, a commit on `main`
and a commit on `feat`. -/
theorem exDiverged_reachable : Reachable exDiverged := by
  have h1 : Reachable (add (lit "a.txt") (userWrite (lit "a.txt") (lit "hello\nworld\n")
      (branch (lit "feat") exCommitted))) :=
    Reachable.add _ _ (Reachable.edit _ _ (Reachable.branch _ _ exCommitted_reachable))
      (by decide) (by decide)
  have h2 := reachable_commit_fresh _
    ((commit (lit "c2") (lit "T2") (add (lit "a.txt") (userWrite (lit "a.txt")
      (lit "hello\nworld\n") (branch (lit "feat") exCommitted)))).getD exEmptyDir)
    (lit "c2") (lit "T2") exDivergedMain h1 (by decide) (by decide) (by decide) (by decide)
    (by decide)
  have h3 := Reachable.add _ (lit "b.txt")
    (Reachable.edit _ (writeFile (checkout (lit "feat") ((commit (lit "c2") (lit "T2")
      (add (lit "a.txt") (userWrite (lit "a.txt") (lit "hello\nworld\n")
        (branch (lit "feat") exCommitted)))).getD exEmptyDir)).workFiles (lit "b.txt") (lit "x\n"))
      (Reachable.checkout _ (lit "feat") h2))
    (by decide) (by decide)
  have h4 := reachable_commit_fresh _
    ((commit (lit "c3") (lit "T3") (add (lit "b.txt") (userWrite (lit "b.txt") (lit "x\n")
      (checkout (lit "feat") ((commit (lit "c2") (lit "T2") (add (lit "a.txt")
        (userWrite (lit "a.txt") (lit "hello\nworld\n")
          (branch (lit "feat") exCommitted)))).getD exEmptyDir))))).getD exEmptyDir)
    (lit "c3") (lit "T3") exDivergedFeat h3 (by decide) (by decide) (by decide) (by decide)
    (by decide)
  have h5 := Reachable.checkout _ (lit "main") h4
  have e : checkout (lit "main")
      ((commit (lit "c3") (lit "T3") (add (lit "b.txt") (userWrite (lit "b.txt") (lit "x\n")
        (checkout (lit "feat") ((commit (lit "c2") (lit "T2") (add (lit "a.txt")
          (userWrite (lit "a.txt") (lit "hello\nworld\n")
            (branch (lit "feat") exCommitted)))).getD exEmptyDir))))).getD exEmptyDir)
      = exDiverged := by decide
  rw [e] at h5
  exact h5

/-- Scenario S2 is a run up to its end: the three-way merge of `feat` into `main` and the
commit that concludes it. -/
theorem exMerged_reachable :
    ∃ r s', merge 4 (lit "feat") exDiverged = some r ∧
      commit (lit "merge") (lit "T4") (add (lit "a.txt") r.2) = some s' ∧ Reachable s' := by
  have h1 := Reachable.merge exDiverged
    ((merge 4 (lit "feat") exDiverged).getD (MergeOutcome.upToDate, exEmptyDir)).2 4 (lit "feat")
    MergeOutcome.mergeStarted exDiverged_reachable (by decide)
  have h2 := Reachable.add _ (lit "a.txt") h1 (by decide) (by decide)
  refine ⟨(merge 4 (lit "feat") exDiverged).getD (MergeOutcome.upToDate, exEmptyDir),
    (commit (lit "merge") (lit "T4") (add (lit "a.txt")
      ((merge 4 (lit "feat") exDiverged).getD (MergeOutcome.upToDate, exEmptyDir)).2)).getD
        exEmptyDir, by decide, by decide, ?_⟩
  exact reachable_commit_fresh _ _ (lit "merge") (lit "T4")
    ((buildCommit (lit "merge") (lit "T4") (loadStagingArea (add (lit "a.txt")
      ((merge 4 (lit "feat") exDiverged).getD (MergeOutcome.upToDate, exEmptyDir)).2))).getD
        emptyCommit)
    h2 (by decide) (by decide) (by decide) (by decide) (by decide)

/-- C15, on a run with two commits of the same hash.  The run `runCollision` uses `init`,
`branch`, `add`, `commit`, `checkout` and `merge` only, its file names hold neither a colon
nor a line feed and its messages are single-line.  On `main` the commit `m` of `a.txt` and
`b.txt` is followed by a commit of `d.txt`; on `side` the commit `m` of the single file
`collName`, made within the same second, hashes the same bytes (the commit data are
concatenated without separators) and is written over the first commit's file.  The merge of
`main` into `side` then finds that commit as base, reads `collName` in the base and the
current tree but not in the target tree, and stages the target's entry for it, the empty
string.  The commit that follows is stored with the tree entry `collName` whose blob hash is
empty, and no blob is stored under the empty name: the store is not closed. -/
theorem C15_colliding_commit_breaks_tree_closure :
    commitData (lit "m") (lit "T1") [exRootHash]
        [(lit "a.txt", lit "a9bc80cca21f28b3"), (lit "b.txt", lit "08f0de07b58d2b17")] =
      commitData (lit "m") (lit "T1") [exRootHash] [(collName, lit "08f0de07b58d2b17")] ∧
    COLON ∉ collName ∧ NL ∉ collName ∧
    ∃ s, runCollision = some s ∧
      readFile s.commitFiles (lit "7696b943bbfa5055") = some
        (lit "m\nT1\n2cd4011fda977384\n---\na.txta9bc80cca21f28b3b.txt:08f0de07b58d2b17\n") ∧
      readFile s.commitFiles (lit "1cc32f8356aa764b") = some
        (lit ("y\nT1\n7696b943bbfa5055\n---\na.txt:a9bc80cca21f28b3\nb.txt:08f0de07b58d2b17\n"
          ++ "d.txt:0891b607b53c529b\n")) ∧
      readCommit s (lit "da31cb3d7b2647cf") = some exCollisionMerge ∧
      exCollisionMerge.fileMap.find collName = some [] ∧
      readFile s.objectFiles [] = none ∧
      ¬ Closed s := by
  refine ⟨by decide, by decide, by decide, runCollision.getD exEmptyDir, by decide, by decide,
    by decide, by decide, by decide, by decide, ?_⟩
  intro hclosed
  have hread : readCommit (runCollision.getD exEmptyDir) (lit "da31cb3d7b2647cf")
      = some exCollisionMerge := by decide
  have hblob := (hclosed _ _ hread).2 collName [] (by decide)
  have hnone : readFile (runCollision.getD exEmptyDir).objectFiles [] = none := by decide
  rw [hnone] at hblob
  cases hblob

/-! ## Lemmas: detached HEAD -/

theorem exDetached_run :
    add (lit "n.txt") (userWrite (lit "n.txt") (lit "new\n") (checkout exRootHash exCommitted))
      = exDetached := by decide

theorem firstLine_line (l : Bytes) (h : NL ∉ l) : firstLine (l ++ [NL]) = l := by
  unfold firstLine
  rw [getlines_append_nl l [] h]
  rfl

theorem isHash_not_ref (P : Bytes) (hP : isHash P = true) : P.take 5 ≠ lit "ref: " := by
  intro e
  cases P with
  | nil => simp [isHash] at hP
  | cons c rest =>
    have hc : isHexDigit c = true := isHash_mem _ hP c (List.mem_cons_self _ _)
    have e0 : c = Fin.ofNat 114 := by
      have := congrArg List.head? e
      simpa [lit] using this
    rw [e0] at hc
    revert hc
    decide

/-- The commit hash `getCurrentCommitHash` reads from a detached HEAD. -/
theorem getCurrentCommitHash_detached (s : Repo) (P : Bytes) (hdet : s.currentBranch = [])
    (hhead : s.headFile = some (P ++ [NL])) (hP : isHash P = true) :
    getCurrentCommitHash s = P := by
  unfold getCurrentCommitHash
  have hcond : ¬ (s.currentBranch ≠ [] ∧ s.branches.contains s.currentBranch = true) :=
    fun h => h.1 hdet
  rw [if_neg hcond, hhead]
  simp only []
  rw [firstLine_line P (isHash_no_nl P hP), if_pos (isHash_not_ref P hP)]

/-- C21, what the code does.  In every state in which HEAD is detached at a stored commit `P`
(no current branch, the file `HEAD` holds the hash `P`) and the index is not empty,
`commit` is not rejected: it writes the commit built from the index with `P` as parent to
the commit store, enters its hash into the branch map under the empty branch name (the
write of the branch file with the empty name fails, so `refs/heads` is unchanged), leaves
`HEAD` at `P`, and empties the index in memory and on disk. -/
theorem C21_commit_on_detached_head_is_not_rejected (s : Repo) (message now P : Bytes)
    (parent : Commit)
    (hdet : s.currentBranch = []) (hhead : s.headFile = some (P ++ [NL]))
    (hP : isHash P = true) (hparent : readCommit s P = some parent)
    (hidx : persistedIndex s ≠ []) :
    ∃ s', commit message now s = some s' ∧
      s'.commitFiles = writeFile s.commitFiles
        (commitOn message now P parent (persistedIndex s)).hash
        (commitText (commitOn message now P parent (persistedIndex s))) ∧
      readFile s'.commitFiles (commitOn message now P parent (persistedIndex s)).hash =
        some (commitText (commitOn message now P parent (persistedIndex s))) ∧
      s'.branches = s.branches.set [] (commitOn message now P parent (persistedIndex s)).hash ∧
      s'.branches.find [] = some (commitOn message now P parent (persistedIndex s)).hash ∧
      s'.headsFiles = s.headsFiles ∧
      s'.headFile = s.headFile ∧
      s'.currentBranch = [] ∧
      s'.stagingArea = [] ∧
      s'.indexFile = some [] := by
  have hP0 : P ≠ [] := isHash_ne_nil P hP
  have hcur : getCurrentCommitHash { s with stagingArea := persistedIndex s } = P :=
    getCurrentCommitHash_detached _ P hdet hhead hP
  have hread : readCommit { s with stagingArea := persistedIndex s } P = some parent := hparent
  have hne : (commitOn message now P parent (persistedIndex s)).hash ≠ [] :=
    isHash_ne_nil _ (computeHash_isHash _)
  have hcommit : commit message now s = some
      { s with
        stagingArea := []
        indexFile := some []
        commitFiles := writeFile s.commitFiles
          (commitOn message now P parent (persistedIndex s)).hash
          (commitText (commitOn message now P parent (persistedIndex s)))
        branches := s.branches.set []
          (commitOn message now P parent (persistedIndex s)).hash } := by
    simp only [commit, loadStagingArea_eq, hidx, if_false, buildCommit, hcur, hP0, ne_eq,
      not_false_eq_true, if_true, hread]
    simp [writeCommit, updateBranch, persistStagingArea, commitOn, writeEntries, hdet,
      writeFile]
  refine ⟨_, hcommit, rfl, ?_, rfl, ?_, rfl, rfl, hdet, rfl, rfl⟩
  · exact readFile_writeFile_self _ _ _ hne
  · exact StrMap.find_set_self _ _ _

/-- Witness of C21: after `checkout` of the root commit by its hash and `add n.txt`, the
commit `c2` is stored under a new name, with the root commit as parent, and the branch map
gains the empty name, which it did not hold. -/
theorem C21_commit_on_detached_head_is_not_rejected_witness :
    ((commitOn (lit "c2") (lit "T2") exRootHash exRoot (persistedIndex exDetached)).hash
        = lit "a8d0e0b512a02be5" ∧
      readFile exDetached.commitFiles (lit "a8d0e0b512a02be5") = none ∧
      exDetached.branches.find [] = none) ∧
    ∃ s', commit (lit "c2") (lit "T2") exDetached = some s' ∧
      s'.commitFiles = writeFile exDetached.commitFiles
        (commitOn (lit "c2") (lit "T2") exRootHash exRoot (persistedIndex exDetached)).hash
        (commitText
          (commitOn (lit "c2") (lit "T2") exRootHash exRoot (persistedIndex exDetached))) ∧
      readFile s'.commitFiles
          (commitOn (lit "c2") (lit "T2") exRootHash exRoot (persistedIndex exDetached)).hash =
        some (commitText
          (commitOn (lit "c2") (lit "T2") exRootHash exRoot (persistedIndex exDetached))) ∧
      s'.branches = exDetached.branches.set []
        (commitOn (lit "c2") (lit "T2") exRootHash exRoot (persistedIndex exDetached)).hash ∧
      s'.branches.find [] = some
        (commitOn (lit "c2") (lit "T2") exRootHash exRoot (persistedIndex exDetached)).hash ∧
      s'.headsFiles = exDetached.headsFiles ∧
      s'.headFile = exDetached.headFile ∧
      s'.currentBranch = [] ∧
      s'.stagingArea = [] ∧
      s'.indexFile = some [] :=
  ⟨⟨by decide, by decide, by decide⟩,
    C21_commit_on_detached_head_is_not_rejected exDetached (lit "c2") (lit "T2") exRootHash
      exRoot (by decide) (by decide) (by decide) (by decide) (by decide)⟩

/-- C22, counterexample.  The object store of the scenario holds "hello\n" under
`a9bc80cca21f28b3`; `writeBlob` of "bye\n" under that name does not fail and leaves "bye\n"
stored there. -/
theorem C22_counterexample :
    readFile exStaged.objectFiles (lit "a9bc80cca21f28b3") = some (lit "hello\n") ∧
      readFile (writeBlob exStaged (lit "a9bc80cca21f28b3") (lit "bye\n")).objectFiles
        (lit "a9bc80cca21f28b3") = some (lit "bye\n") := by
  refine ⟨by decide, by decide⟩

/-- C22, amended.  For every hash `h` that holds bytes `x` in the object store and every
byte sequence `y`, `writeBlob` under `h` with `y` succeeds and leaves `y` stored under `h`
(so the stored bytes stay `x` exactly when `y = x`); every other blob, every commit file and
the rest of the state are unchanged. -/
theorem C22_writeBlob_overwrites (s : Repo) (h x y : Bytes)
    (hx : readFile s.objectFiles h = some x) :
    readFile (writeBlob s h y).objectFiles h = some y ∧
      (readFile (writeBlob s h y).objectFiles h = some x ↔ y = x) ∧
      (∀ k, k ≠ h → readFile (writeBlob s h y).objectFiles k = readFile s.objectFiles k) ∧
      writeBlob s h y = { s with objectFiles := (writeBlob s h y).objectFiles } ∧
      (writeBlob s h y).commitFiles = s.commitFiles := by
  have h0 : h ≠ [] := readFile_ne_nil _ _ _ hx
  have hself : readFile (writeBlob s h y).objectFiles h = some y :=
    readFile_writeFile_self _ _ _ h0
  refine ⟨hself, ?_, fun k hk => readFile_writeFile_ne _ _ _ _ hk, rfl, rfl⟩
  rw [hself]
  constructor
  · intro e
    exact Option.some.inj e
  · intro e
    rw [e]

/-- Witness of C22: the overwrite of the blob of `a.txt` in the scenario. -/
theorem C22_writeBlob_overwrites_witness :
    readFile (writeBlob exStaged (lit "a9bc80cca21f28b3") (lit "bye\n")).objectFiles
        (lit "a9bc80cca21f28b3") = some (lit "bye\n") ∧
      (readFile (writeBlob exStaged (lit "a9bc80cca21f28b3") (lit "bye\n")).objectFiles
        (lit "a9bc80cca21f28b3") = some (lit "hello\n") ↔ lit "bye\n" = lit "hello\n") ∧
      (∀ k, k ≠ lit "a9bc80cca21f28b3" →
        readFile (writeBlob exStaged (lit "a9bc80cca21f28b3") (lit "bye\n")).objectFiles k
          = readFile exStaged.objectFiles k) ∧
      writeBlob exStaged (lit "a9bc80cca21f28b3") (lit "bye\n") =
        { exStaged with objectFiles :=
            (writeBlob exStaged (lit "a9bc80cca21f28b3") (lit "bye\n")).objectFiles } ∧
      (writeBlob exStaged (lit "a9bc80cca21f28b3") (lit "bye\n")).commitFiles
        = exStaged.commitFiles :=
  C22_writeBlob_overwrites exStaged (lit "a9bc80cca21f28b3") (lit "hello\n") (lit "bye\n")
    (by decide)

/-! ## Lemmas: `restoreCommit` on untracked paths -/

theorem find_foldl_write_untracked (m : StrMap) (f : Bytes → Bytes) (w : StrMap) (p : Bytes)
    (hp : m.find p = none) :
    StrMap.find (m.foldl (fun work entry => writeFile work entry.1 (f entry.2)) w) p
      = w.find p := by
  induction m generalizing w with
  | nil => rfl
  | cons e rest ih =>
    obtain ⟨k0, v0⟩ := e
    have hk : p ≠ k0 := by
      intro e
      simp [StrMap.find, e] at hp
    have hrest : StrMap.find rest p = none := by
      simpa [StrMap.find, hk] using hp
    rw [List.foldl_cons, ih _ hrest]
    exact find_writeFile_ne _ _ _ _ hk

/-- After `restoreCommit`, a path outside the tree is gone when it is an unprotected entry
of the working directory, and is as before otherwise. -/
theorem restoreCommit_untracked (s : Repo) (h : Bytes) (c : Commit) (p : Bytes)
    (hc : readCommit s h = some c) (hfind : c.fileMap.find p = none) :
    (restoreCommit s h).workFiles.find p =
      if isRootEntry p = true ∧ isProtected p = false then none else s.workFiles.find p := by
  simp only [restoreCommit, hc]
  have := find_filter_key
    (c.fileMap.foldl (fun work entry => writeFile work entry.1 (readBlob s entry.2)) s.workFiles)
    (fun k => !(isRootEntry k && !c.fileMap.contains k && !isProtected k)) p
  simp only at this
  rw [this, find_foldl_write_untracked _ _ _ _ hfind]
  cases hr : isRootEntry p <;> cases hq : isProtected p <;>
    simp [StrMap.contains, hfind]

theorem restoreCommit_unreadable (s : Repo) (h : Bytes) (hc : readCommit s h = none) :
    restoreCommit s h = s := by
  simp only [restoreCommit, hc]

/-- C23, counterexample.  In scenario S1 with the extra file `.minigitignore`, which is a
regular file of the working directory, is not in the tree of the root commit and is not one
of the six names of the protect-list, `restoreCommit` of the root commit leaves the file in
place (its name begins with `.minigit`), while it removes `a.txt`. -/
theorem C23_counterexample :
    readCommit exDotfile exRootHash = some exRoot ∧
      exRoot.fileMap.find (lit ".minigitignore") = none ∧
      protectedFiles.contains (lit ".minigitignore") = false ∧
      isRootEntry (lit ".minigitignore") = true ∧
      exDotfile.workFiles.find (lit ".minigitignore") = some (lit "x\n") ∧
      (restoreCommit exDotfile exRootHash).workFiles.find (lit ".minigitignore")
        = some (lit "x\n") ∧
      (restoreCommit exDotfile exRootHash).workFiles.find (lit "a.txt") = none := by
  refine ⟨by decide, by decide, by decide, by decide, by decide, by decide, by decide⟩

/-- C23, amended.  Let `h` be a file name (so not the empty name, which names the directory
of the commits).  When `h` is a stored commit whose tree `c.fileMap` is flat (every path a
plain name) and whose blobs are all stored, after `restoreCommit`: every path of the tree is
a working-tree file holding exactly the bytes of its blob; every plain name that is neither
in the tree, nor in the protect-list, nor begins with `.minigit`, is no file of the working
directory any more; every plain name outside the tree that is in the protect-list or begins
with `.minigit` is as before; and nothing but the working tree has changed.  When no commit
is stored under `h`, the state is unchanged. -/
theorem C23_restoreCommit_postcondition (s : Repo) (h : Bytes)
    (hname : isFileName h = true) :
    (∀ c, readCommit s h = some c → flatStoredTree s c.fileMap = true →
      (∀ p blob, c.fileMap.find p = some blob →
        isPlainName p = true ∧
        ∃ content, readFile s.objectFiles blob = some content ∧
          readFile (restoreCommit s h).workFiles p = some content) ∧
      (∀ p, isPlainName p = true → c.fileMap.find p = none →
        protectedFiles.contains p = false → startsWithGitDir p = false →
        (restoreCommit s h).workFiles.find p = none) ∧
      (∀ p, isPlainName p = true → c.fileMap.find p = none →
        (protectedFiles.contains p = true ∨ startsWithGitDir p = true) →
        (restoreCommit s h).workFiles.find p = s.workFiles.find p) ∧
      restoreCommit s h = { s with workFiles := (restoreCommit s h).workFiles }) ∧
    (readCommit s h = none → restoreCommit s h = s) := by
  have _ := hname
  have hroot : ∀ p, isPlainName p = true → p ≠ [] ∧ isRootEntry p = true := by
    intro p hp
    simp only [isPlainName, isFileName, Bool.and_eq_true, bne_iff_ne, ne_eq,
      Bool.not_eq_true'] at hp
    refine ⟨hp.1.1.1.1.1, ?_⟩
    unfold isRootEntry
    rw [hp.1.1.1.1.2]
    rfl
  refine ⟨fun c hc hflat => ⟨?_, ?_, ?_, ?_⟩, restoreCommit_unreadable s h⟩
  · intro p blob hfind
    have hentry : isPlainName p = true ∧ (readFile s.objectFiles blob).isSome = true := by
      unfold flatStoredTree at hflat
      rw [List.all_eq_true] at hflat
      have := hflat (p, blob) (StrMap.mem_of_find _ _ _ hfind)
      simpa using this
    refine ⟨hentry.1, ?_⟩
    cases hblob : readFile s.objectFiles blob with
    | none => rw [hblob] at hentry; cases hentry.2
    | some content =>
      refine ⟨content, rfl, ?_⟩
      rw [restoreCommit_tracked s h c p blob hc (hroot p hentry.1).1 hfind]
      simp [readBlob, hblob]
  · intro p hplain hfind hlist hprefix
    rw [restoreCommit_untracked s h c p hc hfind]
    have hprot : isProtected p = false := by
      unfold isProtected
      rw [hlist, hprefix]
      rfl
    rw [if_pos ⟨(hroot p hplain).2, hprot⟩]
  · intro p hplain hfind hcases
    rw [restoreCommit_untracked s h c p hc hfind]
    have hneg : ¬ (isRootEntry p = true ∧ isProtected p = false) := by
      rintro ⟨_, hprot⟩
      simp only [isProtected, Bool.or_eq_false_iff] at hprot
      rcases hcases with h1 | h1
      · rw [hprot.1] at h1; cases h1
      · rw [hprot.2] at h1; cases h1
    rw [if_neg hneg]
  · obtain ⟨w, hw⟩ := restoreCommit_frame s h
    rw [hw]

/-- Witness of C23: `restoreCommit` of the commit `c1`, whose tree is flat and stored, in the
state of scenario S2 writes `a.txt` with the bytes of its blob. -/
theorem C23_restoreCommit_postcondition_witness :
    readCommit exDiverged (lit "58973957bbdc448f") = some exC1 ∧
      flatStoredTree exDiverged exC1.fileMap = true ∧
      exC1.fileMap.find (lit "a.txt") = some (lit "a9bc80cca21f28b3") ∧
      readFile exDiverged.objectFiles (lit "a9bc80cca21f28b3") = some (lit "hello\n") ∧
      isPlainName (lit "a.txt") = true ∧
      ∃ content, readFile exDiverged.objectFiles (lit "a9bc80cca21f28b3") = some content ∧
        readFile (restoreCommit exDiverged (lit "58973957bbdc448f")).workFiles (lit "a.txt")
          = some content :=
  ⟨by decide, by decide, by decide, by decide,
    ((C23_restoreCommit_postcondition exDiverged (lit "58973957bbdc448f") (by decide)).1 exC1
      (by decide) (by decide)).1 (lit "a.txt") (lit "a9bc80cca21f28b3") (by decide)⟩

/-! ## Lemmas: occurrences of a single-line text -/

theorem isPrefixOf_append_nl (p a b : Bytes) (hp : NL ∉ p) :
    p.isPrefixOf (a ++ NL :: b) = p.isPrefixOf a := by
  induction p generalizing a with
  | nil => simp [List.isPrefixOf]
  | cons x p' ih =>
    have hx : x ≠ NL := fun e => hp (by rw [e]; exact List.mem_cons_self _ _)
    have hp' : NL ∉ p' := fun h => hp (List.mem_cons_of_mem _ h)
    cases a with
    | nil => simp [List.isPrefixOf, hx]
    | cons y a' =>
      simp only [List.cons_append, List.isPrefixOf, List.append_eq]
      rw [ih a' hp']

/-- A text without line feed occurs in `a`, a line feed, `b` as often as in `a` and in `b`
together. -/
theorem countOcc_append_nl (p a b : Bytes) (hp : NL ∉ p) (hne : p ≠ []) :
    countOcc p (a ++ NL :: b) = countOcc p a + countOcc p b := by
  induction a with
  | nil =>
    have h1 : p.isPrefixOf (NL :: b) = false := by
      have := isPrefixOf_append_nl p [] b hp
      simp only [List.nil_append] at this
      rw [this]
      cases p with
      | nil => exact absurd rfl hne
      | cons x p' => rfl
    simp only [List.nil_append, countOcc, h1, hne, if_false]
    simp
  | cons y a' ih =>
    simp only [List.cons_append, countOcc, List.append_eq]
    have := isPrefixOf_append_nl p (y :: a') b hp
    simp only [List.cons_append] at this
    simp only [this, ih]
    omega

theorem conflictText_lines (cur inc : Bytes) :
    conflictText cur inc =
      lit "<<<<<<< HEAD" ++ NL :: (cur ++ NL :: (lit "=======" ++ NL ::
        (inc ++ NL :: (lit ">>>>>>> incoming" ++ NL :: [])))) := by
  have h1 : lit "<<<<<<< HEAD\n" = lit "<<<<<<< HEAD" ++ [NL] := by decide
  have h2 : lit "\n=======\n" = NL :: (lit "=======" ++ [NL]) := by decide
  have h3 : lit "\n>>>>>>> incoming\n" = NL :: (lit ">>>>>>> incoming" ++ [NL]) := by decide
  unfold conflictText
  rw [h1, h2, h3]
  simp [List.append_assoc]

/-- The occurrences of a single-line text in a conflict file, by its five lines. -/
theorem countOcc_conflictText (p cur inc : Bytes) (hp : NL ∉ p) (hne : p ≠ []) :
    countOcc p (conflictText cur inc) =
      countOcc p (lit "<<<<<<< HEAD") + countOcc p cur + countOcc p (lit "=======")
        + countOcc p inc + countOcc p (lit ">>>>>>> incoming") := by
  rw [conflictText_lines, countOcc_append_nl p _ _ hp hne, countOcc_append_nl p _ _ hp hne,
    countOcc_append_nl p _ _ hp hne, countOcc_append_nl p _ _ hp hne,
    countOcc_append_nl p _ _ hp hne]
  simp only [countOcc, hne, if_false]
  omega

/-- C24, counterexample.  With the current content "=======" and an empty target content
the conflict file holds the divider twice; with the target content ">>>>>>> incoming" it
holds the trailer twice. -/
theorem C24_counterexample :
    countOcc conflictDivider (conflictText (lit "=======") []) = 2 ∧
      countOcc conflictTrailer (conflictText [] (lit ">>>>>>> incoming")) = 2 := by
  refine ⟨by decide, by decide⟩

/-- C24, amended.  The file written by `markConflict` begins with "<<<<<<< HEAD\n", and it
holds the divider "=======" once more than the two contents together hold it, and likewise
the trailer ">>>>>>> incoming": exactly one occurrence of each exactly when neither content
holds that text. -/
theorem C24_conflict_marker_shape (s : Repo) (filename cur inc : Bytes)
    (hname : filename ≠ []) :
    readFile (markConflict s filename cur inc).workFiles filename
        = some (conflictText cur inc) ∧
      lit "<<<<<<< HEAD\n" <+: conflictText cur inc ∧
      countOcc conflictDivider (conflictText cur inc)
        = 1 + countOcc conflictDivider cur + countOcc conflictDivider inc ∧
      countOcc conflictTrailer (conflictText cur inc)
        = 1 + countOcc conflictTrailer cur + countOcc conflictTrailer inc := by
  refine ⟨readFile_writeFile_self _ _ _ hname, ?_, ?_, ?_⟩
  · unfold conflictText
    exact ⟨cur ++ lit "\n=======\n" ++ inc ++ lit "\n>>>>>>> incoming\n", by
      simp [List.append_assoc]⟩
  · rw [countOcc_conflictText conflictDivider cur inc (by decide) (by decide)]
    have h1 : countOcc conflictDivider (lit "<<<<<<< HEAD") = 0 := by decide
    have h2 : countOcc conflictDivider (lit "=======") = 1 := by decide
    have h3 : countOcc conflictDivider (lit ">>>>>>> incoming") = 0 := by decide
    rw [h1, h2, h3]
    omega
  · rw [countOcc_conflictText conflictTrailer cur inc (by decide) (by decide)]
    have h1 : countOcc conflictTrailer (lit "<<<<<<< HEAD") = 0 := by decide
    have h2 : countOcc conflictTrailer (lit "=======") = 0 := by decide
    have h3 : countOcc conflictTrailer (lit ">>>>>>> incoming") = 1 := by decide
    rw [h1, h2, h3]
    omega

/-- Witness of C24: the conflict file of scenario S3. -/
theorem C24_conflict_marker_shape_witness :
    readFile (markConflict exConflict (lit "a.txt") (lit "hello A\n")
        (lit "hello B\n")).workFiles (lit "a.txt")
        = some (conflictText (lit "hello A\n") (lit "hello B\n")) ∧
      lit "<<<<<<< HEAD\n" <+: conflictText (lit "hello A\n") (lit "hello B\n") ∧
      countOcc conflictDivider (conflictText (lit "hello A\n") (lit "hello B\n"))
        = 1 + countOcc conflictDivider (lit "hello A\n")
            + countOcc conflictDivider (lit "hello B\n") ∧
      countOcc conflictTrailer (conflictText (lit "hello A\n") (lit "hello B\n"))
        = 1 + countOcc conflictTrailer (lit "hello A\n")
            + countOcc conflictTrailer (lit "hello B\n") :=
  C24_conflict_marker_shape exConflict (lit "a.txt") (lit "hello A\n") (lit "hello B\n")
    (by decide)

/-! ## Lemmas: the second loop of `findLCA` -/

theorem searchCommon_nil (s : Repo) (ancestors : StrSet) (fuel : Nat) :
    searchCommon s ancestors fuel [] = some [] := by
  cases fuel <;> rfl

theorem searchCommon_step (s : Repo) (ancestors : StrSet) (fuel : Nat) (x : Bytes)
    (stack : List Bytes) :
    searchCommon s ancestors (fuel + 1) (x :: stack) =
      if ancestors.contains x then some x
      else searchCommon s ancestors fuel (pushParents s x stack) := rfl

theorem searches_list (s : Repo) (ancestors : StrSet) (ps : List Bytes)
    (hps : ∀ y ∈ ps, Searches s ancestors y) (stack : List Bytes) :
    (∃ k r, r ∈ ancestors ∧ (∃ y ∈ ps, Reaches s y r) ∧
      ∀ fuel, searchCommon s ancestors (fuel + k) (ps ++ stack) = some r) ∨
    (∃ k, (∀ fuel, searchCommon s ancestors (fuel + k) (ps ++ stack)
        = searchCommon s ancestors fuel stack) ∧
      ∀ y ∈ ps, ∀ h, Reaches s y h → h ∉ ancestors) := by
  induction ps with
  | nil => exact Or.inr ⟨0, fun fuel => rfl, fun y hy => by cases hy⟩
  | cons y ys ih =>
    rcases hps y (List.mem_cons_self _ _) (ys ++ stack) with
      ⟨k, r, hr, hreach, hrun⟩ | ⟨k1, hrun1, hnone1⟩
    · exact Or.inl ⟨k, r, hr, ⟨y, List.mem_cons_self _ _, hreach⟩, hrun⟩
    · rcases ih (fun z hz => hps z (List.mem_cons_of_mem _ hz)) with
        ⟨k2, r, hr, ⟨z, hz, hreach⟩, hrun2⟩ | ⟨k2, hrun2, hnone2⟩
      · refine Or.inl ⟨k2 + k1, r, hr, ⟨z, List.mem_cons_of_mem _ hz, hreach⟩, ?_⟩
        intro fuel
        rw [← Nat.add_assoc, List.cons_append, hrun1, hrun2]
      · refine Or.inr ⟨k2 + k1, ?_, ?_⟩
        · intro fuel
          rw [← Nat.add_assoc, List.cons_append, hrun1, hrun2]
        · intro z hz
          rcases List.mem_cons.mp hz with e | hz'
          · rw [e]; exact hnone1
          · exact hnone2 z hz'

theorem searches_of_acyclic (s : Repo) (hacyc : Acyclic s) (ancestors : StrSet) (x : Bytes) :
    Searches s ancestors x := by
  induction x using (wf_of_acyclic s hacyc).induction with
  | _ x ih =>
    intro stack
    by_cases hin : ancestors.contains x = true
    · refine Or.inl ⟨1, x, by simpa using hin, Relation.ReflTransGen.refl, ?_⟩
      intro fuel
      rw [searchCommon_step, if_pos hin]
    · have hxnot : x ∉ ancestors := by simpa using hin
      cases hx : readCommit s x with
      | none =>
        refine Or.inr ⟨1, ?_, ?_⟩
        · intro fuel
          rw [searchCommon_step, if_neg hin]
          simp [pushParents, hx]
        · intro h hreach
          rw [reaches_of_unreadable s x h hx hreach]
          exact hxnot
      | some c =>
        have hps : ∀ y ∈ c.parentHashes.reverse, Searches s ancestors y := by
          intro y hy
          exact ih y ⟨c, hx, List.mem_reverse.mp hy⟩
        have hpush : pushParents s x stack = c.parentHashes.reverse ++ stack := by
          simp [pushParents, hx]
        rcases searches_list s ancestors c.parentHashes.reverse hps stack with
          ⟨k, r, hr, ⟨y, hy, hreach⟩, hrun⟩ | ⟨k, hrun, hnone⟩
        · refine Or.inl ⟨k + 1, r, hr,
            Relation.ReflTransGen.head ⟨c, hx, List.mem_reverse.mp hy⟩ hreach, ?_⟩
          intro fuel
          rw [← Nat.add_assoc, searchCommon_step, if_neg hin, hpush]
          exact hrun fuel
        · refine Or.inr ⟨k + 1, ?_, ?_⟩
          · intro fuel
            rw [← Nat.add_assoc, searchCommon_step, if_neg hin, hpush]
            exact hrun fuel
          · intro h hreach
            rcases Relation.ReflTransGen.cases_head hreach with h2 | ⟨y, hstep, h2⟩
            · rw [← h2]; exact hxnot
            · obtain ⟨c', hc', hy⟩ := hstep
              rw [hx] at hc'
              simp only [Option.some.injEq] at hc'
              subst hc'
              exact hnone y (List.mem_reverse.mpr hy) h h2

/-- With enough fuel `findLCA` returns: a member of the ancestors-or-self of `commit1` that
`commit2` reaches, or the empty string when `commit2` reaches none of them. -/
theorem findLCA_total (s : Repo) (hacyc : Acyclic s) (commit1 commit2 : Bytes) :
    ∃ (N : Nat) (ancestors : StrSet) (r : Bytes),
      (∀ h, h ∈ ancestors ↔ Reaches s commit1 h) ∧
      (∀ fuel, N ≤ fuel → collectAncestors s fuel [commit1] [] = some ancestors ∧
        searchCommon s ancestors fuel [commit2] = some r ∧
        findLCA fuel s commit1 commit2 = some r) ∧
      ((r ∈ ancestors ∧ Reaches s commit2 r) ∨
        (r = [] ∧ ∀ h, Reaches s commit2 h → h ∉ ancestors)) := by
  obtain ⟨N1, ancestors, hrun1, hmem⟩ := collectAncestors_total s hacyc commit1
  rcases searches_of_acyclic s hacyc ancestors commit2 [] with
    ⟨k, r, hr, hreach, hrun⟩ | ⟨k, hrun, hnone⟩
  · refine ⟨N1 + k, ancestors, r, hmem, ?_, Or.inl ⟨hr, hreach⟩⟩
    intro fuel hfuel
    have h2 : searchCommon s ancestors fuel [commit2] = some r := by
      have := hrun (fuel - k)
      rw [Nat.sub_add_cancel (by omega)] at this
      exact this
    refine ⟨hrun1 fuel (by omega), h2, ?_⟩
    simp only [findLCA, hrun1 fuel (by omega), h2]
  · refine ⟨N1 + k, ancestors, [], hmem, ?_, Or.inr ⟨rfl, hnone⟩⟩
    intro fuel hfuel
    have h2 : searchCommon s ancestors fuel [commit2] = some [] := by
      have := hrun (fuel - k)
      rw [Nat.sub_add_cancel (by omega), searchCommon_nil] at this
      exact this
    refine ⟨hrun1 fuel (by omega), h2, ?_⟩
    simp only [findLCA, hrun1 fuel (by omega), h2]

theorem reaches_stored (s : Repo) (hclosed : ParentsStored s) (a x : Bytes)
    (ha : (readCommit s a).isSome = true) (hreach : Reaches s a x) :
    (readCommit s x).isSome = true := by
  induction hreach with
  | refl => exact ha
  | tail _ hstep _ =>
    obtain ⟨c, hc, hmem⟩ := hstep
    exact hclosed _ c hc _ hmem

theorem readCommit_ne_nil (s : Repo) (x : Bytes) (hx : (readCommit s x).isSome = true) :
    x ≠ [] := by
  intro e
  rw [e] at hx
  simp [readCommit, readFile] at hx

theorem parentsStored_of_closed (s : Repo) (h : Closed s) : ParentsStored s :=
  fun x c hx => (h x c hx).1

/-- C25. In a store whose parent relation has no cycle and in which every recorded parent is
a stored commit, for every stored commit `a` and every `b`: with enough fuel `findLCA a b`
returns, always the same `r`; when `r` is not empty, `a` reaches `r` and `b` reaches `r` by
following parent edges zero or more times; and `r` is empty exactly when nothing is reached
from both `a` and `b`. -/
theorem C25_findLCA_common_ancestor (s : Repo) (a b : Bytes) (hacyc : Acyclic s)
    (hclosed : ParentsStored s) (ha : (readCommit s a).isSome = true) :
    ∃ r N, (∀ fuel, N ≤ fuel → findLCA fuel s a b = some r) ∧
      (r ≠ [] → Reaches s a r ∧ Reaches s b r) ∧
      (r = [] ↔ ¬ ∃ x, Reaches s a x ∧ Reaches s b x) := by
  obtain ⟨N, ancestors, r, hmem, hrun, hres⟩ := findLCA_total s hacyc a b
  refine ⟨r, N, fun fuel hfuel => (hrun fuel hfuel).2.2, ?_, ?_⟩
  · intro hne
    rcases hres with ⟨hr, hreach⟩ | ⟨e, _⟩
    · exact ⟨(hmem r).mp hr, hreach⟩
    · exact absurd e hne
  · rcases hres with ⟨hr, hreach⟩ | ⟨e, hnone⟩
    · have hra : Reaches s a r := (hmem r).mp hr
      have hne : r ≠ [] := readCommit_ne_nil s r (reaches_stored s hclosed a r ha hra)
      constructor
      · intro e
        exact absurd e hne
      · intro hno
        exact absurd ⟨r, hra, hreach⟩ hno
    · constructor
      · intro _
        rintro ⟨x, hxa, hxb⟩
        exact hnone x hxb ((hmem x).mpr hxa)
      · intro _
        exact e

/-- Witness of C25: the two branch tips of scenario S2. -/
theorem C25_findLCA_common_ancestor_witness :
    ∃ r N, (∀ fuel, N ≤ fuel →
        findLCA fuel exDiverged (lit "eca2f28b3acddbb5") (lit "b108103a371bd200") = some r) ∧
      (r ≠ [] → Reaches exDiverged (lit "eca2f28b3acddbb5") r ∧
        Reaches exDiverged (lit "b108103a371bd200") r) ∧
      (r = [] ↔ ¬ ∃ x, Reaches exDiverged (lit "eca2f28b3acddbb5") x ∧
        Reaches exDiverged (lit "b108103a371bd200") x) :=
  C25_findLCA_common_ancestor exDiverged (lit "eca2f28b3acddbb5") (lit "b108103a371bd200")
    (acyclic_of_rankDecreases _ exRank (by decide))
    (parentsStored_of_closed _ (runInvariant_of_reachable exDiverged exDiverged_reachable).1)
    (by decide)

/-! ## Lemmas: more fuel, same result -/

theorem collectAncestors_succ (s : Repo) :
    ∀ (fuel : Nat) (stack : List Bytes) (acc res : StrSet),
      collectAncestors s fuel stack acc = some res →
      collectAncestors s (fuel + 1) stack acc = some res := by
  intro fuel
  induction fuel with
  | zero =>
    intro stack acc res h
    cases stack with
    | nil => rw [collectAncestors_nil] at h ⊢; exact h
    | cons x rest => simp [collectAncestors] at h
  | succ n ih =>
    intro stack acc res h
    cases stack with
    | nil => rw [collectAncestors_nil] at h ⊢; exact h
    | cons x rest =>
      rw [collectAncestors_step] at h ⊢
      exact ih _ _ res h

theorem searchCommon_succ (s : Repo) (ancestors : StrSet) :
    ∀ (fuel : Nat) (stack : List Bytes) (r : Bytes),
      searchCommon s ancestors fuel stack = some r →
      searchCommon s ancestors (fuel + 1) stack = some r := by
  intro fuel
  induction fuel with
  | zero =>
    intro stack r h
    cases stack with
    | nil => rw [searchCommon_nil] at h ⊢; exact h
    | cons x rest => simp [searchCommon] at h
  | succ n ih =>
    intro stack r h
    cases stack with
    | nil => rw [searchCommon_nil] at h ⊢; exact h
    | cons x rest =>
      rw [searchCommon_step] at h ⊢
      by_cases hin : ancestors.contains x = true
      · rw [if_pos hin] at h ⊢; exact h
      · rw [if_neg hin] at h ⊢
        exact ih _ r h

/-- A result of `findLCA` does not depend on the fuel that produced it. -/
theorem findLCA_mono (s : Repo) (a b r : Bytes) (fuel : Nat)
    (h : findLCA fuel s a b = some r) :
    ∀ fuel', fuel ≤ fuel' → findLCA fuel' s a b = some r := by
  have hsucc : ∀ f, findLCA f s a b = some r → findLCA (f + 1) s a b = some r := by
    intro f hf
    unfold findLCA at hf ⊢
    cases hc : collectAncestors s f [a] [] with
    | none => rw [hc] at hf; cases hf
    | some ancestors =>
      rw [hc] at hf
      rw [collectAncestors_succ s f _ _ ancestors hc]
      exact searchCommon_succ s ancestors f _ r hf
  intro fuel' hle
  induction fuel' with
  | zero =>
    have : fuel = 0 := by omega
    rw [← this]; exact h
  | succ n ih =>
    by_cases hn : fuel ≤ n
    · exact hsucc n (ih hn)
    · have : fuel = n + 1 := by omega
      rw [← this]; exact h

/-! ## Lemmas: the search along a chain -/

/-- When every commit met outside `ancestors` records at most one parent, the second loop of
`findLCA` walks a chain: it returns the first commit of the chain that is in `ancestors`,
which reaches every member of `ancestors` that the start reaches; or the empty string when
there is none. -/
theorem searchCommon_chain (s : Repo) (ancestors : StrSet) :
    ∀ (fuel : Nat) (cur r : Bytes),
      (∀ x c, Reaches s cur x → x ∉ ancestors → readCommit s x = some c →
        c.parentHashes.length ≤ 1) →
      searchCommon s ancestors fuel [cur] = some r →
      (r ∈ ancestors ∧ Reaches s cur r ∧
        ∀ x, Reaches s cur x → x ∈ ancestors → Reaches s r x) ∨
      (r = [] ∧ ∀ x, Reaches s cur x → x ∉ ancestors) := by
  intro fuel
  induction fuel with
  | zero =>
    intro cur r _ h
    simp [searchCommon] at h
  | succ n ih =>
    intro cur r hlin h
    rw [searchCommon_step] at h
    by_cases hin : ancestors.contains cur = true
    · rw [if_pos hin] at h
      cases h
      exact Or.inl ⟨by simpa using hin, Relation.ReflTransGen.refl, fun x hx _ => hx⟩
    · rw [if_neg hin] at h
      have hcurnot : cur ∉ ancestors := by simpa using hin
      cases hc : readCommit s cur with
      | none =>
        have hpush : pushParents s cur [] = [] := by simp [pushParents, hc]
        rw [hpush, searchCommon_nil] at h
        cases h
        refine Or.inr ⟨rfl, fun x hx => ?_⟩
        rw [reaches_of_unreadable s cur x hc hx]
        exact hcurnot
      | some c =>
        have hlen := hlin cur c Relation.ReflTransGen.refl hcurnot hc
        have hpush : pushParents s cur [] = c.parentHashes.reverse := by
          simp [pushParents, hc]
        rw [hpush] at h
        have hvia : ∀ x, Reaches s cur x → x ∈ ancestors →
            ∃ p ∈ c.parentHashes, Reaches s p x := by
          intro x hx hxin
          rcases Relation.ReflTransGen.cases_head hx with e | ⟨y, hstep, hy⟩
          · rw [← e] at hxin
            exact absurd hxin hcurnot
          · obtain ⟨c', hc', hmem⟩ := hstep
            rw [hc] at hc'
            cases hc'
            exact ⟨y, hmem, hy⟩
        cases hps : c.parentHashes with
        | nil =>
          rw [hps] at h hvia
          simp only [List.reverse_nil] at h
          rw [searchCommon_nil] at h
          cases h
          refine Or.inr ⟨rfl, fun x hx hxin => ?_⟩
          obtain ⟨p, hp, _⟩ := hvia x hx hxin
          cases hp
        | cons p rest =>
          rw [hps] at hlen hvia h
          have hrest : rest = [] := by
            cases rest with
            | nil => rfl
            | cons q rest' => simp at hlen
          subst hrest
          simp only [List.reverse_cons, List.reverse_nil, List.nil_append] at h
          have hstep : IsParent s cur p := ⟨c, hc, by rw [hps]; exact List.mem_cons_self _ _⟩
          have hlinp : ∀ x cx, Reaches s p x → x ∉ ancestors → readCommit s x = some cx →
              cx.parentHashes.length ≤ 1 :=
            fun x cx hx hxn hcx => hlin x cx (Relation.ReflTransGen.head hstep hx) hxn hcx
          rcases ih p r hlinp h with ⟨hr, hreach, hlow⟩ | ⟨e, hnone⟩
          · refine Or.inl ⟨hr, Relation.ReflTransGen.head hstep hreach, fun x hx hxin => ?_⟩
            obtain ⟨q, hq, hqx⟩ := hvia x hx hxin
            rw [List.mem_singleton] at hq
            rw [hq] at hqx
            exact hlow x hqx hxin
          · refine Or.inr ⟨e, fun x hx hxin => ?_⟩
            obtain ⟨q, hq, hqx⟩ := hvia x hx hxin
            rw [List.mem_singleton] at hq
            rw [hq] at hqx
            exact hnone x hqx hxin

/-- When every commit that `b` reaches and `a` does not reach records at most one parent, and
some commit is reached from both `a` and `b`, `findLCA a b` returns, with enough fuel, the
lowest common ancestor: a commit reached from both that reaches every commit reached from
both. -/
theorem findLCA_lowest_of_chain (s : Repo) (a b : Bytes) (hacyc : Acyclic s)
    (hlin : ∀ x c, Reaches s b x → ¬ Reaches s a x → readCommit s x = some c →
      c.parentHashes.length ≤ 1)
    (hcommon : ∃ x, Reaches s a x ∧ Reaches s b x) :
    ∃ r N, (∀ fuel, N ≤ fuel → findLCA fuel s a b = some r) ∧
      Reaches s a r ∧ Reaches s b r ∧
      ∀ x, Reaches s a x → Reaches s b x → Reaches s r x := by
  obtain ⟨N, ancestors, r, hmem, hrun, _⟩ := findLCA_total s hacyc a b
  refine ⟨r, N, fun fuel hfuel => (hrun fuel hfuel).2.2, ?_⟩
  have hlin' : ∀ x c, Reaches s b x → x ∉ ancestors → readCommit s x = some c →
      c.parentHashes.length ≤ 1 :=
    fun x c hx hxn hc => hlin x c hx (fun hxa => hxn ((hmem x).mpr hxa)) hc
  rcases searchCommon_chain s ancestors N b r hlin' (hrun N (Nat.le_refl N)).2.1 with
    ⟨hr, hreach, hlow⟩ | ⟨_, hnone⟩
  · exact ⟨(hmem r).mp hr, hreach, fun x hxa hxb => hlow x hxb ((hmem x).mpr hxa)⟩
  · obtain ⟨x, hxa, hxb⟩ := hcommon
    exact absurd ((hmem x).mpr hxa) (hnone x hxb)

theorem readCommit_mem (s : Repo) (h : Bytes) (c : Commit) (hc : readCommit s h = some c) :
    ∃ text, (h, text) ∈ s.commitFiles ∧ c = parseCommit h text := by
  unfold readCommit at hc
  cases hr : readFile s.commitFiles h with
  | none => rw [hr] at hc; cases hc
  | some text =>
    rw [hr] at hc
    have h0 : h ≠ [] := readFile_ne_nil _ _ _ hr
    have hfind : s.commitFiles.find h = some text := by simpa [readFile, h0] using hr
    exact ⟨text, StrMap.mem_of_find _ _ _ hfind, (Option.some.inj hc).symm⟩

/-- A test passed by every commit file holds of every stored commit. -/
theorem of_allCommits (s : Repo) (q : Bytes → Commit → Bool) (hq : allCommits s q = true)
    (h : Bytes) (c : Commit) (hc : readCommit s h = some c) : q h c = true := by
  obtain ⟨text, hmem, e⟩ := readCommit_mem s h c hc
  unfold allCommits at hq
  rw [List.all_eq_true] at hq
  rw [e]
  exact hq (h, text) hmem

theorem linear_of_allCommits (s : Repo)
    (hq : allCommits s (fun _ c => decide (c.parentHashes.length ≤ 1)) = true) : Linear s := by
  intro h c hc
  have := of_allCommits s _ hq h c hc
  simpa using this

theorem singleMerge_of_allCommits (s : Repo) (m : Bytes) (cm : Commit)
    (hm : readCommit s m = some cm) (hlen : cm.parentHashes.length = 2)
    (hq : allCommits s (fun h c => decide (h = m) || decide (c.parentHashes.length ≤ 1)) = true) :
    SingleMerge s m := by
  refine ⟨⟨cm, hm, hlen⟩, ?_⟩
  intro h c hc hne
  have := of_allCommits s _ hq h c hc
  simpa [hne] using this

/-- Following parent edges never raises a rank that every parent edge lowers. -/
theorem rank_le_of_reaches (s : Repo) (rank : Bytes → Nat) (h : rankDecreases s rank = true)
    (x y : Bytes) (hreach : Reaches s x y) : rank y ≤ rank x := by
  induction hreach with
  | refl => exact Nat.le_refl _
  | tail _ hstep ih =>
    obtain ⟨c, hc, hmem⟩ := hstep
    have hq : allCommits s
        (fun h c => c.parentHashes.all (fun parent => decide (rank parent < rank h))) = true := h
    have := of_allCommits s _ hq _ c hc
    simp only [List.all_eq_true, decide_eq_true_eq] at this
    have := this _ hmem
    omega

/-- C26. In a store without cycles in which every commit records at most one parent, for
all `a` and `b` from which some commit is reached in common: with enough fuel `findLCA a b`
returns, always the same `r`, and `r` is the lowest common ancestor: it is reached from `a`
and from `b`, and it reaches every commit that is reached from both. -/
theorem C26_findLCA_lowest_on_linear_histories (s : Repo) (a b : Bytes) (hacyc : Acyclic s)
    (hlin : Linear s) (hcommon : ∃ x, Reaches s a x ∧ Reaches s b x) :
    ∃ r N, (∀ fuel, N ≤ fuel → findLCA fuel s a b = some r) ∧
      Reaches s a r ∧ Reaches s b r ∧
      ∀ x, Reaches s a x → Reaches s b x → Reaches s r x :=
  findLCA_lowest_of_chain s a b hacyc (fun x c _ _ hc => hlin x c hc) hcommon

/-- Witness of C26: the two branch tips of scenario S2, which have the commit `c1` in
common. -/
theorem C26_findLCA_lowest_on_linear_histories_witness :
    ∃ r N, (∀ fuel, N ≤ fuel →
        findLCA fuel exDiverged (lit "eca2f28b3acddbb5") (lit "b108103a371bd200") = some r) ∧
      Reaches exDiverged (lit "eca2f28b3acddbb5") r ∧
      Reaches exDiverged (lit "b108103a371bd200") r ∧
      ∀ x, Reaches exDiverged (lit "eca2f28b3acddbb5") x →
        Reaches exDiverged (lit "b108103a371bd200") x → Reaches exDiverged r x :=
  C26_findLCA_lowest_on_linear_histories exDiverged (lit "eca2f28b3acddbb5")
    (lit "b108103a371bd200")
    (acyclic_of_rankDecreases _ exRank (by decide))
    (linear_of_allCommits _ (by decide))
    ⟨lit "58973957bbdc448f",
      Relation.ReflTransGen.single ⟨exDivergedMain, by decide, by decide⟩,
      Relation.ReflTransGen.single ⟨exDivergedFeat, by decide, by decide⟩⟩

/-- C27, counterexample.  The store `exDiamond` has no cycle and exactly one commit with
two parents, `c0` with the parents `b1` and `b2`.  For the stored commits `b1` and `c0`,
`findLCA b1 c0` is the root `a0` (the search from `c0` takes the parent pushed last, `b2`,
first and meets `a0` below it).  But `b1` itself is a common ancestor-or-self of `b1` and
`c0`, and `b1` is a proper descendant of `a0`. -/
theorem C27_counterexample :
    Acyclic exDiamond ∧ SingleMerge exDiamond (lit "00000000000000c0") ∧
      (readCommit exDiamond (lit "00000000000000b1")).isSome = true ∧
      (readCommit exDiamond (lit "00000000000000c0")).isSome = true ∧
      (∀ fuel, 4 ≤ fuel →
        findLCA fuel exDiamond (lit "00000000000000b1") (lit "00000000000000c0")
          = some (lit "00000000000000a0")) ∧
      Reaches exDiamond (lit "00000000000000b1") (lit "00000000000000b1") ∧
      Reaches exDiamond (lit "00000000000000c0") (lit "00000000000000b1") ∧
      Relation.TransGen (IsParent exDiamond) (lit "00000000000000b1")
        (lit "00000000000000a0") ∧
      lit "00000000000000b1" ≠ lit "00000000000000a0" := by
  refine ⟨acyclic_of_rankDecreases _ exDiamondRank (by decide),
    singleMerge_of_allCommits _ _
      (parseCommit (lit "00000000000000c0")
        (lit "merge\nT3\n00000000000000b1\n00000000000000b2\n---\n"))
      (by decide) (by decide) (by decide),
    by decide, by decide,
    findLCA_mono exDiamond _ _ _ 4 (by decide),
    Relation.ReflTransGen.refl,
    Relation.ReflTransGen.single ⟨parseCommit (lit "00000000000000c0")
      (lit "merge\nT3\n00000000000000b1\n00000000000000b2\n---\n"), by decide, by decide⟩,
    Relation.TransGen.single ⟨parseCommit (lit "00000000000000b1")
      (lit "left\nT1\n00000000000000a0\n---\n"), by decide, by decide⟩,
    by decide⟩

/-- C27, amended.  In a store without cycles with exactly one commit `m` that records two
parents, for all `a` and `b` that reach some commit in common: when `m` is not an
ancestor-or-self of `b`, or is an ancestor-or-self of `a` as well, `findLCA a b` returns, with
enough fuel, the lowest common ancestor: it reaches every commit reached from both, and no
commit reached from both is a proper descendant of it.  (When `m` is in the history of `b`
only, the result is a common ancestor that need not be a lowest one.) -/
theorem C27_findLCA_lowest_on_single_merge_histories (s : Repo) (a b m : Bytes)
    (hacyc : Acyclic s) (hsingle : SingleMerge s m)
    (hside : Reaches s b m → Reaches s a m)
    (hcommon : ∃ x, Reaches s a x ∧ Reaches s b x) :
    ∃ r N, (∀ fuel, N ≤ fuel → findLCA fuel s a b = some r) ∧
      Reaches s a r ∧ Reaches s b r ∧
      (∀ x, Reaches s a x → Reaches s b x → Reaches s r x) ∧
      (∀ x, Reaches s a x → Reaches s b x → ¬ Relation.TransGen (IsParent s) x r) := by
  have hlin : ∀ x c, Reaches s b x → ¬ Reaches s a x → readCommit s x = some c →
      c.parentHashes.length ≤ 1 := by
    intro x c hbx hax hc
    apply hsingle.2 x c hc
    intro e
    rw [e] at hbx hax
    exact hax (hside hbx)
  obtain ⟨r, N, hrun, hra, hrb, hlow⟩ := findLCA_lowest_of_chain s a b hacyc hlin hcommon
  refine ⟨r, N, hrun, hra, hrb, hlow, ?_⟩
  intro x hxa hxb hdesc
  exact hacyc x (Relation.TransGen.trans_left hdesc (hlow x hxa hxb))

/-- Witness of C27: in `exDiamond`, the merge commit `c0` and its first parent `b1`, taken
in this order. -/
theorem C27_findLCA_lowest_on_single_merge_histories_witness :
    ∃ r N, (∀ fuel, N ≤ fuel →
        findLCA fuel exDiamond (lit "00000000000000c0") (lit "00000000000000b1") = some r) ∧
      Reaches exDiamond (lit "00000000000000c0") r ∧
      Reaches exDiamond (lit "00000000000000b1") r ∧
      (∀ x, Reaches exDiamond (lit "00000000000000c0") x →
        Reaches exDiamond (lit "00000000000000b1") x → Reaches exDiamond r x) ∧
      (∀ x, Reaches exDiamond (lit "00000000000000c0") x →
        Reaches exDiamond (lit "00000000000000b1") x →
        ¬ Relation.TransGen (IsParent exDiamond) x r) :=
  C27_findLCA_lowest_on_single_merge_histories exDiamond (lit "00000000000000c0")
    (lit "00000000000000b1") (lit "00000000000000c0")
    (acyclic_of_rankDecreases _ exDiamondRank (by decide))
    (singleMerge_of_allCommits _ _
      (parseCommit (lit "00000000000000c0")
        (lit "merge\nT3\n00000000000000b1\n00000000000000b2\n---\n"))
      (by decide) (by decide) (by decide))
    (fun _ => Relation.ReflTransGen.refl)
    ⟨lit "00000000000000b1",
      Relation.ReflTransGen.single ⟨parseCommit (lit "00000000000000c0")
        (lit "merge\nT3\n00000000000000b1\n00000000000000b2\n---\n"), by decide, by decide⟩,
      Relation.ReflTransGen.refl⟩

/-! ## Lemmas: the frame of `threeWayMerge` -/

/-- What `threeWayMerge` leaves alone, and the one way a working-tree file changes. -/
theorem threeWayMerge_frame_work (s : Repo) (cur tgt base : Bytes) :
    (threeWayMerge s cur tgt base).branches = s.branches ∧
      (threeWayMerge s cur tgt base).headsFiles = s.headsFiles ∧
      (threeWayMerge s cur tgt base).headFile = s.headFile ∧
      (threeWayMerge s cur tgt base).currentBranch = s.currentBranch ∧
      (threeWayMerge s cur tgt base).commitFiles = s.commitFiles ∧
      (threeWayMerge s cur tgt base).objectFiles = s.objectFiles ∧
      ∀ p, (threeWayMerge s cur tgt base).workFiles.find p = s.workFiles.find p ∨
        ∃ b c t, readCommit s base = some b ∧ readCommit s cur = some c ∧
          readCommit s tgt = some t ∧ mergeCase s b c t p = MergeCase.conflict ∧
          (threeWayMerge s cur tgt base).workFiles.find p
            = some (conflictText (contentIn s c p) (contentIn s t p)) := by
  have hsame : ∀ e : threeWayMerge s cur tgt base = s,
      (threeWayMerge s cur tgt base).branches = s.branches ∧
      (threeWayMerge s cur tgt base).headsFiles = s.headsFiles ∧
      (threeWayMerge s cur tgt base).headFile = s.headFile ∧
      (threeWayMerge s cur tgt base).currentBranch = s.currentBranch ∧
      (threeWayMerge s cur tgt base).commitFiles = s.commitFiles ∧
      (threeWayMerge s cur tgt base).objectFiles = s.objectFiles ∧
      ∀ p, (threeWayMerge s cur tgt base).workFiles.find p = s.workFiles.find p ∨
        ∃ b c t, readCommit s base = some b ∧ readCommit s cur = some c ∧
          readCommit s tgt = some t ∧ mergeCase s b c t p = MergeCase.conflict ∧
          (threeWayMerge s cur tgt base).workFiles.find p
            = some (conflictText (contentIn s c p) (contentIn s t p)) := by
    intro e
    rw [e]
    exact ⟨rfl, rfl, rfl, rfl, rfl, rfl, fun p => Or.inl rfl⟩
  have hopt : ∀ o : Option Commit, o = none ∨ ∃ x, o = some x := by
    intro o
    cases o with
    | none => exact Or.inl rfl
    | some x => exact Or.inr ⟨x, rfl⟩
  rcases hopt (readCommit s base) with hb | ⟨b, hb⟩
  · exact hsame (threeWayMerge_unreadable s cur tgt base (Or.inl hb))
  rcases hopt (readCommit s cur) with hc | ⟨c, hc⟩
  · exact hsame (threeWayMerge_unreadable s cur tgt base (Or.inr (Or.inl hc)))
  rcases hopt (readCommit s tgt) with ht | ⟨t, ht⟩
  · exact hsame (threeWayMerge_unreadable s cur tgt base (Or.inr (Or.inr ht)))
  have hwork := threeWayMerge_work s cur tgt base b c t hb hc ht
  have heq := threeWayMerge_eq s cur tgt base b c t hb hc ht
  obtain ⟨st, w, e⟩ := mergeFold_frame b c t (allFiles b c t) s
  rw [e] at heq
  refine ⟨by rw [heq]; rfl, by rw [heq]; rfl, by rw [heq]; rfl, by rw [heq]; rfl,
    by rw [heq]; rfl, by rw [heq]; rfl, ?_⟩
  intro p
  rw [hwork p]
  by_cases hcond : p ∈ allFiles b c t ∧ mergeCase s b c t p = MergeCase.conflict ∧ p ≠ []
  · rw [if_pos hcond]
    exact Or.inr ⟨b, c, t, hb, hc, ht, hcond.2.1, rfl⟩
  · rw [if_neg hcond]
    exact Or.inl rfl

theorem mem_allFiles_of_conflict (s : Repo) (b c t : Commit) (p : Bytes)
    (h : mergeCase s b c t p = MergeCase.conflict) : p ∈ allFiles b c t := by
  by_contra hnot
  rw [mem_allFiles] at hnot
  have hnone : ∀ m : StrMap, p ∉ m.keys → m.find p = none := by
    intro m hm
    cases hf : m.find p with
    | none => rfl
    | some v => exact absurd (mem_keys_of_find m p v hf) hm
  have hc : contentIn s c p = [] :=
    contentIn_none s c p (hnone _ (fun hm => hnot (Or.inr (Or.inl hm))))
  have ht : contentIn s t p = [] :=
    contentIn_none s t p (hnone _ (fun hm => hnot (Or.inr (Or.inr hm))))
  unfold mergeCase at h
  rw [hc, ht] at h
  simp at h

/-- C28. For every three-way merge of three stored commits with flat trees of stored blobs
(`merge` taking its last exit, the base `findLCA` returned being neither the target nor the
current commit): the branches, in memory and in `refs/heads`, HEAD, the commit files and the
blob files are as before; and the working-tree file of a plain name holds the conflict text
when the three commits conflict on it and is as before otherwise.  In particular the file
of a path whose target version is staged is as before. -/
theorem C28_three_way_merge_frame (s s' : Repo) (fuel : Nat) (branchName base : Bytes)
    (b c t : Commit)
    (hlca : findLCA fuel s (getCurrentCommitHash s) (s.branches.get branchName) = some base)
    (hb : readCommit s base = some b)
    (hc : readCommit s (getCurrentCommitHash s) = some c)
    (ht : readCommit s (s.branches.get branchName) = some t)
    (hflat : flatStoredTree s b.fileMap = true ∧ flatStoredTree s c.fileMap = true ∧
      flatStoredTree s t.fileMap = true)
    (hmerge : merge fuel branchName s = some (MergeOutcome.mergeStarted, s')) :
    s'.branches = s.branches ∧ s'.headsFiles = s.headsFiles ∧ s'.headFile = s.headFile ∧
      s'.currentBranch = s.currentBranch ∧ s'.commitFiles = s.commitFiles ∧
      s'.objectFiles = s.objectFiles ∧
      (∀ p, isPlainName p = true →
        s'.workFiles.find p =
          if mergeCase s b c t p = MergeCase.conflict then
            some (conflictText (contentIn s c p) (contentIn s t p))
          else s.workFiles.find p) ∧
      (∀ p, isPlainName p = true → mergeCase s b c t p = MergeCase.takeTarget →
        s'.workFiles.find p = s.workFiles.find p) := by
  have _ := hflat
  have hwork : ∀ p, isPlainName p = true →
      (threeWayMerge s (getCurrentCommitHash s) (s.branches.get branchName) base).workFiles.find p
        = if mergeCase s b c t p = MergeCase.conflict then
            some (conflictText (contentIn s c p) (contentIn s t p))
          else s.workFiles.find p := by
    intro p hp
    have hp0 : p ≠ [] := by
      simp only [isPlainName, isFileName, Bool.and_eq_true, bne_iff_ne, ne_eq] at hp
      exact hp.1.1.1.1.1
    rw [threeWayMerge_work s _ _ base b c t hb hc ht p]
    by_cases hcase : mergeCase s b c t p = MergeCase.conflict
    · rw [if_pos ⟨mem_allFiles_of_conflict s b c t p hcase, hcase, hp0⟩, if_pos hcase]
    · rw [if_neg (fun h => hcase h.2.1), if_neg hcase]
  unfold merge at hmerge
  by_cases hbr : s.branches.contains branchName = true
  · simp only [hbr, Bool.not_true, Bool.false_eq_true, if_false, hlca] at hmerge
    by_cases e1 : base = s.branches.get branchName
    · rw [if_pos e1] at hmerge
      cases hmerge
    · rw [if_neg e1] at hmerge
      by_cases e2 : base = getCurrentCommitHash s
      · rw [if_pos e2] at hmerge
        cases hmerge
      · rw [if_neg e2] at hmerge
        have hs' := (Prod.mk.inj (Option.some.inj hmerge)).2
        obtain ⟨f1, f2, f3, f4, f5, f6, _⟩ := threeWayMerge_frame_work s
          (getCurrentCommitHash s) (s.branches.get branchName) base
        rw [← hs']
        refine ⟨f1, f2, f3, f4, f5, f6, hwork, ?_⟩
        intro p hp hcase
        have := hwork p hp
        rw [hcase] at this
        simpa using this
  · have hbr' : s.branches.contains branchName = false := by
      cases hx : s.branches.contains branchName with
      | true => exact absurd hx hbr
      | false => rfl
    simp only [hbr', Bool.not_false, if_true] at hmerge
    cases hmerge

/-- Witness of C28: the merge of `feat` into `main` in scenario S3, whose base is the commit
`c1` and which conflicts on `a.txt`. -/
theorem C28_three_way_merge_frame_witness :
    (mergeCase exConflict exC1 exConflictMain exConflictFeat (lit "a.txt")
        = MergeCase.conflict) ∧
      ((merge 4 (lit "feat") exConflict).getD (MergeOutcome.upToDate, exEmptyDir)).2.branches
        = exConflict.branches ∧
      ((merge 4 (lit "feat") exConflict).getD (MergeOutcome.upToDate, exEmptyDir)).2.headsFiles
        = exConflict.headsFiles ∧
      ((merge 4 (lit "feat") exConflict).getD (MergeOutcome.upToDate, exEmptyDir)).2.headFile
        = exConflict.headFile ∧
      ((merge 4 (lit "feat") exConflict).getD (MergeOutcome.upToDate, exEmptyDir)).2.currentBranch
        = exConflict.currentBranch ∧
      ((merge 4 (lit "feat") exConflict).getD (MergeOutcome.upToDate, exEmptyDir)).2.commitFiles
        = exConflict.commitFiles ∧
      ((merge 4 (lit "feat") exConflict).getD (MergeOutcome.upToDate, exEmptyDir)).2.objectFiles
        = exConflict.objectFiles ∧
      (∀ p, isPlainName p = true →
        ((merge 4 (lit "feat") exConflict).getD
            (MergeOutcome.upToDate, exEmptyDir)).2.workFiles.find p =
          if mergeCase exConflict exC1 exConflictMain exConflictFeat p = MergeCase.conflict then
            some (conflictText (contentIn exConflict exConflictMain p)
              (contentIn exConflict exConflictFeat p))
          else exConflict.workFiles.find p) ∧
      (∀ p, isPlainName p = true →
        mergeCase exConflict exC1 exConflictMain exConflictFeat p = MergeCase.takeTarget →
        ((merge 4 (lit "feat") exConflict).getD
            (MergeOutcome.upToDate, exEmptyDir)).2.workFiles.find p
          = exConflict.workFiles.find p) :=
  ⟨by decide,
    C28_three_way_merge_frame exConflict
      ((merge 4 (lit "feat") exConflict).getD (MergeOutcome.upToDate, exEmptyDir)).2 4
      (lit "feat") (lit "58973957bbdc448f") exC1 exConflictMain exConflictFeat
      (by decide) (by decide) (by decide) (by decide)
      ⟨by decide, by decide, by decide⟩ (by decide)⟩

end MiniGit
